import Mathlib

/-!
# Suffix-array search of `ext/suffixarray_ruby.c`

A shallow embedding of the query side of the extension: the index record
`struct SuffixArrayData`, the two boundary binary searches, the first and last
occurrence queries built on them, the ranked comparison `__bsearch_compare`
(a `strncmp` of the text at an offset against the pattern) and the entry point
`suffixarray_search`.

Modelling conventions.

* A `char` buffer is a `List Nat` of byte values read as `unsigned char`; a
  pointer into a buffer is the list of bytes from the pointee to the end of the
  buffer, so dereferencing a pointer that has run off the buffer is a read of
  the empty list and yields `Fault.out_of_bounds`.
* A C `int` is an `Int` holding a value of the 32-bit range; `/` on `int` is
  `Int.tdiv` (truncation toward zero).  In the calls the queries make, with
  `low = 0` and `high` the size, the one `int` operation whose exact result can
  leave that range is the sum `lower + upper` of the two searches: it is taken
  through `int32_wrap`, two's complement wrap-around.  A wrapped sum gives a
  negative midpoint, and the read of `ipoint` at it is `Fault.out_of_bounds`.
  The narrowing of the text length to the `int` field `size` in
  `suffixarray_initialize` goes through `int32_wrap` too.
* The loops `lower_boundary_loop_exact` and `upper_boundary_loop_exact` take
  the sum in the integers; they are the binary search the code is compared
  with, and `lower_boundary_loop_eq` and `upper_boundary_loop_eq` show that
  the code agrees with them for cursors up to `2 ^ 30`.
* Every array read returns `Except Fault _`; a read outside the array is
  `Fault.out_of_bounds`.
* What an execution does on the way (the cursors it passes, the number of
  probes, the bytes `strncmp` reads) is given by instrumented functions that
  follow the executable ones step by step: `lower_boundary_cursors`,
  `upper_boundary_cursors`, `probe_count` and `strncmp_reads`.
* The `while` loops are unrolled with a fuel counter.  The C functions supply
  the distance `upper - lower` of the initial cursors; running out of fuel is
  reported as `Fault.out_of_fuel`, so that a theorem of the form `... = .ok r`
  states that the loop really exits.
-/

namespace SuffixArray

/-! ## Data model -/

/-- The ways in which an execution of the embedded code can go wrong. -/
inductive Fault where
  | out_of_bounds
  | out_of_fuel
  deriving DecidableEq, Repr

/-- The record `struct SuffixArrayData`: the text buffer (`size + 1` bytes, the
last one the terminator written by `suffixarray_initialize`), the index points,
the text size, and the pattern pointer and pattern length of the current
query. -/
structure SuffixArrayData where
  text : List Nat
  ipoint : List Int
  size : Int
  pattern : List Nat
  pattern_size : Nat
  deriving DecidableEq, Repr

/-- The function-pointer type `bsearch_compare_fn`. -/
abbrev bsearch_compare_fn := SuffixArrayData → Int → Except Fault Int

/-- The value a 32-bit two's complement `int` holds for the integer `x`: what
an `int` addition leaves in its result where the exact sum does not fit. -/
def int32_wrap (x : Int) : Int := (x + 2147483648) % 4294967296 - 2147483648

/-- The construction `suffixarray_initialize`.  The length of the argument, a
`long`, is narrowed to the `int` field `size`; where that `int` is negative the
allocations and the copy that follow get a negative count and no record is
built (`none`); `text` is a copy of
`size` bytes followed by a zero byte; `ipoint` is filled by `sais`, whose output
is taken as the parameter `sais_out` (`none` when `sais` reports failure and
the function raises).  The constructor does not write the two pattern fields:
they hold whatever the fresh allocation holds, the parameters `pat` and
`psz`. -/
def suffixarray_initialize (text : List Nat) (sais_out : Option (List Int))
    (pat : List Nat) (psz : Nat) : Option SuffixArrayData :=
  if int32_wrap text.length < 0 then none
  else
    match sais_out with
    | none => none
    | some sa =>
      some { text := text.take (int32_wrap text.length).toNat ++ [0], ipoint := sa,
             size := int32_wrap text.length, pattern := pat, pattern_size := psz }

/-! ## Memory reads -/

/-- The read `data->ipoint[i]`. -/
def ipoint_at (data : SuffixArrayData) (i : Int) : Except Fault Int :=
  if i < 0 then .error .out_of_bounds
  else
    match data.ipoint[i.toNat]? with
    | some v => .ok v
    | none => .error .out_of_bounds

/-- The pointer `&data->text[item]`: the bytes of the text buffer from index
`item` on.  A pointer outside the buffer has no readable byte. -/
def text_from (data : SuffixArrayData) (item : Int) : List Nat :=
  if item < 0 then [] else data.text.drop item.toNat

/-- The C library function `strlen`: the number of bytes before the first zero
byte. -/
def strlen : List Nat → Except Fault Nat
  | [] => .error .out_of_bounds
  | c :: s =>
    if c = 0 then .ok 0
    else
      match strlen s with
      | .ok n => .ok (n + 1)
      | .error e => .error e

/-- The C library function `strncmp`: compare at most `n` bytes as
`unsigned char`, stopping at the first difference or after a zero byte common
to both strings.  The result is the difference of the two bytes that differ,
or zero. -/
def strncmp : List Nat → List Nat → Nat → Except Fault Int
  | _, _, 0 => .ok 0
  | c1 :: s1, c2 :: s2, n + 1 =>
    if c1 ≠ c2 then .ok ((c1 : Int) - (c2 : Int))
    else if c1 = 0 then .ok 0
    else strncmp s1 s2 n
  | _, _, _ + 1 => .error .out_of_bounds

/-! ## The boundary searches -/

/-- The ranked comparison `__bsearch_compare`. -/
def __bsearch_compare (data : SuffixArrayData) (item : Int) : Except Fault Int :=
  strncmp (text_from data item) data.pattern data.pattern_size

/-- The loop of `__bsearch_lower_boundary`, from the cursors `lower` and
`upper`; the result is the value of `upper` at exit.  The sum `lower + upper`
is an `int`: it is taken in 32-bit two's complement. -/
def lower_boundary_loop (data : SuffixArrayData) (fn : bsearch_compare_fn) :
    Nat → Int → Int → Except Fault Int
  | 0, lower, upper =>
    if lower + 1 ≠ upper then .error .out_of_fuel else .ok upper
  | fuel + 1, lower, upper =>
    if lower + 1 ≠ upper then
      let mid := Int.tdiv (int32_wrap (lower + upper)) 2
      match ipoint_at data mid with
      | .error e => .error e
      | .ok item =>
        match fn data item with
        | .error e => .error e
        | .ok c =>
          if c < 0 then lower_boundary_loop data fn fuel mid upper
          else lower_boundary_loop data fn fuel lower mid
    else .ok upper

/-- The function `__bsearch_lower_boundary`. -/
def __bsearch_lower_boundary (data : SuffixArrayData) (low high : Int)
    (fn : bsearch_compare_fn) : Except Fault Int :=
  lower_boundary_loop data fn (high - (low - 1)).toNat (low - 1) high

/-- The function `__bsearch_first`. -/
def __bsearch_first (data : SuffixArrayData) (low high : Int)
    (fn : bsearch_compare_fn) : Except Fault Int :=
  match __bsearch_lower_boundary data low high fn with
  | .error e => .error e
  | .ok boundary =>
    if data.size ≤ boundary then .ok (-1)
    else
      match ipoint_at data boundary with
      | .error e => .error e
      | .ok item =>
        match fn data item with
        | .error e => .error e
        | .ok c => if c ≠ 0 then .ok (-1) else .ok boundary

/-- The function `__bsearch`. -/
def __bsearch (data : SuffixArrayData) (low high : Int)
    (fn : bsearch_compare_fn) : Except Fault Int :=
  __bsearch_first data low high fn

/-- The loop of `__bsearch_upper_boundary`, from the cursors `lower` and
`upper`; the result is `lower + 1` at exit.  The sum `lower + upper` is an
`int`: it is taken in 32-bit two's complement. -/
def upper_boundary_loop (data : SuffixArrayData) (fn : bsearch_compare_fn) :
    Nat → Int → Int → Except Fault Int
  | 0, lower, upper =>
    if lower + 1 ≠ upper then .error .out_of_fuel else .ok (lower + 1)
  | fuel + 1, lower, upper =>
    if lower + 1 ≠ upper then
      let mid := Int.tdiv (int32_wrap (lower + upper)) 2
      match ipoint_at data mid with
      | .error e => .error e
      | .ok item =>
        match fn data item with
        | .error e => .error e
        | .ok c =>
          if c ≤ 0 then upper_boundary_loop data fn fuel mid upper
          else upper_boundary_loop data fn fuel lower mid
    else .ok (lower + 1)

/-- The function `__bsearch_upper_boundary`. -/
def __bsearch_upper_boundary (data : SuffixArrayData) (low high : Int)
    (fn : bsearch_compare_fn) : Except Fault Int :=
  upper_boundary_loop data fn (high - (low - 1)).toNat (low - 1) high

/-- The function `__bsearch_last`. -/
def __bsearch_last (data : SuffixArrayData) (low high : Int)
    (fn : bsearch_compare_fn) : Except Fault Int :=
  match __bsearch_upper_boundary data low high fn with
  | .error e => .error e
  | .ok ub =>
    let boundary := ub - 1
    if boundary ≤ -1 then .ok (-1)
    else
      match ipoint_at data boundary with
      | .error e => .error e
      | .ok item =>
        match fn data item with
        | .error e => .error e
        | .ok c => if c ≠ 0 then .ok (-1) else .ok boundary

/-! ## The query -/

/-- The method `suffixarray_search`.  The argument `pattern` is the C string
returned by `StringValueCStr`: the bytes of the pattern followed by the
terminating zero byte.  The result is the returned integer together with the
record as the call leaves it. -/
def suffixarray_search (self : SuffixArrayData) (pattern : List Nat) :
    Except Fault (Int × SuffixArrayData) :=
  match strlen pattern with
  | .error e => .error e
  | .ok n =>
    let datap : SuffixArrayData := { self with pattern := pattern, pattern_size := n }
    match __bsearch datap 0 datap.size __bsearch_compare with
    | .error e => .error e
    | .ok result =>
      if result < 0 then .ok (result, datap)
      else
        match ipoint_at datap result with
        | .error e => .error e
        | .ok offset => .ok (offset, datap)

/-! ## Specification-level notions -/

/-- Byte-wise lexicographic comparison of two byte strings, in which a string
that runs out of bytes before a mismatch is found is the smaller one; the
result is `-1`, `0` or `1`. -/
def lex_compare : List Nat → List Nat → Int
  | [], [] => 0
  | [], _ :: _ => -1
  | _ :: _, [] => 1
  | a :: as, b :: bs =>
    if a < b then -1 else if b < a then 1 else lex_compare as bs

/-- The suffix of the text `T` that starts at offset `o`. -/
def suffix_at (T : List Nat) (o : Int) : List Nat := T.drop o.toNat

/-- The ranked comparison as the spec words it: the first `m` bytes of the
suffix at offset `o`, clamped to the available text, compared byte-wise with
the pattern. -/
def ranked_comparison (T : List Nat) (o : Int) (P : List Nat) : Int :=
  lex_compare ((suffix_at T o).take P.length) P

/-- The suffix of `T` at offset `o` begins with `P`: `T[o : o + len P] = P`. -/
def begins_with (T : List Nat) (o : Int) (P : List Nat) : Prop :=
  (suffix_at T o).take P.length = P

instance (T : List Nat) (o : Int) (P : List Nat) : Decidable (begins_with T o P) :=
  inferInstanceAs (Decidable (_ = _))

/-- The pattern `P` occurs in `T` at the offset `k`: `k` is an offset of the
text, that is `0 ≤ k < N`, and `T[k : k + len P] = P`. -/
def occurs_at (T P : List Nat) (k : Int) : Prop :=
  0 ≤ k ∧ k < T.length ∧ begins_with T k P

instance (T P : List Nat) (k : Int) : Decidable (occurs_at T P k) :=
  inferInstanceAs (Decidable (0 ≤ k ∧ k < (T.length : Int) ∧ begins_with T k P))

/-- The array `SA` is a permutation of `0 .. N-1`. -/
def is_permutation (SA : List Int) (N : Nat) : Prop :=
  List.Perm SA ((List.range N).map Int.ofNat)

/-- The sort invariant: the suffix at each rank is lexicographically at most
the suffix at the next rank. -/
def sort_invariant (T : List Nat) (SA : List Int) : Prop :=
  ∀ i : Nat, i + 1 < SA.length →
    lex_compare (suffix_at T (SA.getD i 0)) (suffix_at T (SA.getD (i + 1) 0)) ≤ 0

instance (T : List Nat) (SA : List Int) : Decidable (sort_invariant T SA) :=
  decidable_of_iff (∀ i : Nat, i < SA.length - 1 →
      lex_compare (suffix_at T (SA.getD i 0)) (suffix_at T (SA.getD (i + 1) 0)) ≤ 0)
    ⟨fun h i hi => h i (by omega), fun h i hi => h i (by omega)⟩

/-- The record `d` is an index of the text `T` with the suffix array `SA`:
the text buffer is `T` followed by the terminating zero byte, `ipoint` is `SA`
and `size` is the length of `T`. -/
def is_index (d : SuffixArrayData) (T : List Nat) (SA : List Int) : Prop :=
  d.text = T ++ [0] ∧ d.ipoint = SA ∧ d.size = T.length

/-- The record `d` carries the query for the pattern `P`, as
`suffixarray_search` sets it up: `pattern` points to the bytes of `P` followed
by the terminating zero byte and `pattern_size` is the length of `P`. -/
def has_pattern (d : SuffixArrayData) (P : List Nat) : Prop :=
  d.pattern = P ++ [0] ∧ d.pattern_size = P.length

/-- The offset stored at rank `i` of the suffix array `SA`. -/
def offset_at_rank (SA : List Int) (i : Nat) : Int := SA.getD i 0

/-- The ranked comparison of the spec at rank `i`: the suffix whose offset is
stored at rank `i`, against the pattern. -/
def rank_comparison (T : List Nat) (SA : List Int) (P : List Nat) (i : Nat) : Int :=
  ranked_comparison T (offset_at_rank SA i) P

/-- The value the code's probe of rank `i` yields: `fn(data, data->ipoint[i])`
for `fn = __bsearch_compare`, and `0` where the probe faults. -/
def probe_value (d : SuffixArrayData) (i : Int) : Int :=
  match __bsearch_compare d (d.ipoint.getD i.toNat 0) with
  | .ok c => c
  | .error _ => 0

/-- Every entry of `SA` is an offset of a text of length `N`. -/
def entries_in_range (SA : List Int) (N : Nat) : Prop :=
  ∀ v ∈ SA, 0 ≤ v ∧ v < N

instance (SA : List Int) (N : Nat) : Decidable (entries_in_range SA N) :=
  inferInstanceAs (Decidable (∀ v ∈ SA, 0 ≤ v ∧ v < (N : Int)))

instance (SA : List Int) (N : Nat) : Decidable (is_permutation SA N) :=
  inferInstanceAs (Decidable (List.Perm SA ((List.range N).map Int.ofNat)))

/-- The record as `suffixarray_search` leaves it after a query for the pattern
`P`: the two pattern fields are overwritten, the other fields are kept. -/
def query_state (d : SuffixArrayData) (P : List Nat) : SuffixArrayData :=
  { d with pattern := P ++ [0], pattern_size := P.length }

/-- The text `"abracadabra"` as bytes. -/
def abracadabra : List Nat := [97, 98, 114, 97, 99, 97, 100, 97, 98, 114, 97]

/-- The index points the use-case comment of the source gives for
`"abracadabra"`. -/
def abracadabra_ipoint : List Int := [10, 7, 0, 3, 5, 8, 1, 4, 6, 9, 2]

/-- The index of `"abracadabra"`, with the pattern fields `pat` and `psz` left
over from construction or from an earlier query. -/
def abracadabra_index (pat : List Nat) (psz : Nat) : SuffixArrayData :=
  { text := abracadabra ++ [0], ipoint := abracadabra_ipoint, size := 11,
    pattern := pat, pattern_size := psz }

/-- The C string `"abra"`: its bytes and the terminating zero byte. -/
def abra_cstr : List Nat := [97, 98, 114, 97, 0]

/-- The C string `"ca"`. -/
def ca_cstr : List Nat := [99, 97, 0]

/-- The C string `"xyz"`. -/
def xyz_cstr : List Nat := [120, 121, 122, 0]

/-- The C string `"a"`. -/
def a_cstr : List Nat := [97, 0]

/-- A comparison function that faults whenever it is called. -/
def faulting_fn : bsearch_compare_fn := fun _ _ => .error .out_of_bounds

/-- The index of the text `"aaaa"`, whose suffix array is `[3, 2, 1, 0]`. -/
def aaaa_index (pat : List Nat) (psz : Nat) : SuffixArrayData :=
  { text := [97, 97, 97, 97, 0], ipoint := [3, 2, 1, 0], size := 4,
    pattern := pat, pattern_size := psz }


/-! ## Instrumented executions -/

/-- The cursors `(lower, upper)` at each evaluation of the loop condition of
`__bsearch_lower_boundary`, in order.  The function follows
`lower_boundary_loop` step by step; a cursor with `lower + 1 ≠ upper` is one at
which the loop body runs and probes the midpoint, the half of the 32-bit sum
`lower + upper`, and the list ends where the loop exits (or where a probe
faults). -/
def lower_boundary_cursors (data : SuffixArrayData) (fn : bsearch_compare_fn) :
    Nat → Int → Int → List (Int × Int)
  | 0, lower, upper => [(lower, upper)]
  | fuel + 1, lower, upper =>
    if lower + 1 ≠ upper then
      let mid := Int.tdiv (int32_wrap (lower + upper)) 2
      match ipoint_at data mid with
      | .error _ => [(lower, upper)]
      | .ok item =>
        match fn data item with
        | .error _ => [(lower, upper)]
        | .ok c =>
          if c < 0 then (lower, upper) :: lower_boundary_cursors data fn fuel mid upper
          else (lower, upper) :: lower_boundary_cursors data fn fuel lower mid
    else [(lower, upper)]

/-- The cursors `(lower, upper)` at each evaluation of the loop condition of
`__bsearch_upper_boundary`, in order; it follows `upper_boundary_loop` step by
step. -/
def upper_boundary_cursors (data : SuffixArrayData) (fn : bsearch_compare_fn) :
    Nat → Int → Int → List (Int × Int)
  | 0, lower, upper => [(lower, upper)]
  | fuel + 1, lower, upper =>
    if lower + 1 ≠ upper then
      let mid := Int.tdiv (int32_wrap (lower + upper)) 2
      match ipoint_at data mid with
      | .error _ => [(lower, upper)]
      | .ok item =>
        match fn data item with
        | .error _ => [(lower, upper)]
        | .ok c =>
          if c ≤ 0 then (lower, upper) :: upper_boundary_cursors data fn fuel mid upper
          else (lower, upper) :: upper_boundary_cursors data fn fuel lower mid
    else [(lower, upper)]

/-- The cursors of a call `__bsearch_lower_boundary(data, low, high, fn)`: the
loop is entered with the cursors and the fuel `__bsearch_lower_boundary`
passes. -/
def lower_boundary_trace (data : SuffixArrayData) (low high : Int)
    (fn : bsearch_compare_fn) : List (Int × Int) :=
  lower_boundary_cursors data fn (high - (low - 1)).toNat (low - 1) high

/-- The cursors of a call `__bsearch_upper_boundary(data, low, high, fn)`. -/
def upper_boundary_trace (data : SuffixArrayData) (low high : Int)
    (fn : bsearch_compare_fn) : List (Int × Int) :=
  upper_boundary_cursors data fn (high - (low - 1)).toNat (low - 1) high

/-! ## The loops over the integers -/

/-- The loop of `__bsearch_lower_boundary` with the sum `lower + upper` taken
in the integers: the binary search the 32-bit loop is compared with. -/
def lower_boundary_loop_exact (data : SuffixArrayData) (fn : bsearch_compare_fn) :
    Nat → Int → Int → Except Fault Int
  | 0, lower, upper =>
    if lower + 1 ≠ upper then .error .out_of_fuel else .ok upper
  | fuel + 1, lower, upper =>
    if lower + 1 ≠ upper then
      let mid := Int.tdiv (lower + upper) 2
      match ipoint_at data mid with
      | .error e => .error e
      | .ok item =>
        match fn data item with
        | .error e => .error e
        | .ok c =>
          if c < 0 then lower_boundary_loop_exact data fn fuel mid upper
          else lower_boundary_loop_exact data fn fuel lower mid
    else .ok upper

/-- The loop of `__bsearch_upper_boundary` with the sum `lower + upper` taken
in the integers. -/
def upper_boundary_loop_exact (data : SuffixArrayData) (fn : bsearch_compare_fn) :
    Nat → Int → Int → Except Fault Int
  | 0, lower, upper =>
    if lower + 1 ≠ upper then .error .out_of_fuel else .ok (lower + 1)
  | fuel + 1, lower, upper =>
    if lower + 1 ≠ upper then
      let mid := Int.tdiv (lower + upper) 2
      match ipoint_at data mid with
      | .error e => .error e
      | .ok item =>
        match fn data item with
        | .error e => .error e
        | .ok c =>
          if c ≤ 0 then upper_boundary_loop_exact data fn fuel mid upper
          else upper_boundary_loop_exact data fn fuel lower mid
    else .ok (lower + 1)

/-- The cursors of `lower_boundary_loop_exact`, the loop over the integers. -/
def lower_boundary_cursors_exact (data : SuffixArrayData) (fn : bsearch_compare_fn) :
    Nat → Int → Int → List (Int × Int)
  | 0, lower, upper => [(lower, upper)]
  | fuel + 1, lower, upper =>
    if lower + 1 ≠ upper then
      let mid := Int.tdiv (lower + upper) 2
      match ipoint_at data mid with
      | .error _ => [(lower, upper)]
      | .ok item =>
        match fn data item with
        | .error _ => [(lower, upper)]
        | .ok c =>
          if c < 0 then (lower, upper) :: lower_boundary_cursors_exact data fn fuel mid upper
          else (lower, upper) :: lower_boundary_cursors_exact data fn fuel lower mid
    else [(lower, upper)]

/-- The cursors of `upper_boundary_loop_exact`, the loop over the integers. -/
def upper_boundary_cursors_exact (data : SuffixArrayData) (fn : bsearch_compare_fn) :
    Nat → Int → Int → List (Int × Int)
  | 0, lower, upper => [(lower, upper)]
  | fuel + 1, lower, upper =>
    if lower + 1 ≠ upper then
      let mid := Int.tdiv (lower + upper) 2
      match ipoint_at data mid with
      | .error _ => [(lower, upper)]
      | .ok item =>
        match fn data item with
        | .error _ => [(lower, upper)]
        | .ok c =>
          if c ≤ 0 then (lower, upper) :: upper_boundary_cursors_exact data fn fuel mid upper
          else (lower, upper) :: upper_boundary_cursors_exact data fn fuel lower mid
    else [(lower, upper)]

/-! ## Further instrumentation and inputs -/

/-- The number of bytes of its first argument that `strncmp` reads; it follows
`strncmp` step by step. -/
def strncmp_reads : List Nat → List Nat → Nat → Nat
  | _, _, 0 => 0
  | c1 :: s1, c2 :: s2, n + 1 =>
    if c1 ≠ c2 then 1
    else if c1 = 0 then 1
    else strncmp_reads s1 s2 n + 1
  | _, _, _ + 1 => 0

/-- A comparison function that always returns, given by the outcome
`cmp data item` of each call. -/
def fn_of_outcomes (cmp : SuffixArrayData → Int → Int) : bsearch_compare_fn :=
  fun data item => .ok (cmp data item)

/-- A record with `N` index points, all `0`, for the executions in which only
the outcomes of the comparison function matter. -/
def plain_index (N : Nat) : SuffixArrayData :=
  { text := [0], ipoint := List.replicate N 0, size := N, pattern := [0], pattern_size := 0 }

/-- Modelled from the spec: the macro `StringValueCStr` of `ruby.h`, which is
not among the sources.  The spec describes it as the implicit C-string
conversion of the pattern: the pointer it yields is to the bytes of the
pattern followed by a terminating zero byte, whatever the bytes are. -/
def StringValueCStr (pattern : List Nat) : List Nat := pattern ++ [0]

/-- The bytes of `Q` before its first zero byte. -/
def before_first_zero (Q : List Nat) : List Nat := Q.takeWhile (fun c => decide (c ≠ 0))

/-- The text of `m` bytes `"a"` followed by one byte `"b"`, of length `m + 1`. -/
def a_run_b (m : Nat) : List Nat := List.replicate m 97 ++ [98]

/-- The suffix array of `a_run_b m`: its suffixes come in lexicographic order
already, so rank `i` holds offset `i`. -/
def a_run_b_ranks (m : Nat) : List Int := (List.range (m + 1)).map Int.ofNat

/-- The index of `a_run_b m`, with the pattern fields `pat` and `psz`. -/
def a_run_b_index (m : Nat) (pat : List Nat) (psz : Nat) : SuffixArrayData :=
  { text := a_run_b m ++ [0], ipoint := a_run_b_ranks m, size := ((m + 1 : Nat) : Int),
    pattern := pat, pattern_size := psz }

/-! ## Lexicographic comparison -/

theorem lex_compare_values (a b : List Nat) :
    lex_compare a b = -1 ∨ lex_compare a b = 0 ∨ lex_compare a b = 1 := by
  induction a generalizing b with
  | nil => cases b <;> simp [lex_compare]
  | cons x xs ih =>
    cases b with
    | nil => simp [lex_compare]
    | cons y ys =>
      simp only [lex_compare]
      split_ifs
      · simp
      · simp
      · exact ih ys

theorem lex_compare_eq_zero_iff (a b : List Nat) : lex_compare a b = 0 ↔ a = b := by
  induction a generalizing b with
  | nil => cases b <;> simp [lex_compare]
  | cons x xs ih =>
    cases b with
    | nil => simp [lex_compare]
    | cons y ys =>
      simp only [lex_compare]
      split_ifs with h1 h2
      · simp; omega
      · simp; omega
      · have hxy : x = y := by omega
        simp [ih, hxy]

theorem lex_compare_self (a : List Nat) : lex_compare a a = 0 :=
  (lex_compare_eq_zero_iff a a).2 rfl

theorem lex_compare_trans (a b c : List Nat) (hab : lex_compare a b ≤ 0)
    (hbc : lex_compare b c ≤ 0) : lex_compare a c ≤ 0 := by
  induction a generalizing b c with
  | nil => cases c <;> simp [lex_compare]
  | cons x xs ih =>
    cases b with
    | nil => simp [lex_compare] at hab
    | cons y ys =>
      cases c with
      | nil => simp [lex_compare] at hbc
      | cons z zs =>
        simp only [lex_compare] at hab hbc ⊢
        split_ifs at hab hbc ⊢ <;> first | omega | exact ih ys zs hab hbc

/-- Truncating both suffixes to the pattern length keeps their order relative
to the pattern. -/
theorem lex_compare_take_mono (P a b : List Nat) (hab : lex_compare a b ≤ 0) :
    lex_compare (a.take P.length) P ≤ lex_compare (b.take P.length) P := by
  induction P generalizing a b with
  | nil => simp [lex_compare]
  | cons p ps ih =>
    cases a with
    | nil =>
      have h := lex_compare_values (List.take (p :: ps).length b) (p :: ps)
      simp only [List.take_nil, lex_compare]
      omega
    | cons x xs =>
      cases b with
      | nil => simp [lex_compare] at hab
      | cons y ys =>
        simp only [lex_compare] at hab
        simp only [List.length_cons, List.take_succ_cons, lex_compare]
        have h1 := lex_compare_values (List.take ps.length xs) ps
        have h2 := lex_compare_values (List.take ps.length ys) ps
        have h3 := ih xs ys
        split_ifs at hab ⊢ <;> omega

/-! ## The C string functions -/

theorem strlen_terminated (P rest : List Nat) (hP : 0 ∉ P) :
    strlen (P ++ 0 :: rest) = .ok P.length := by
  induction P with
  | nil => simp [strlen]
  | cons p ps ih =>
    have hp : p ≠ 0 := fun h => hP (by simp [h])
    have hps : 0 ∉ ps := fun h => hP (by simp [h])
    simp [strlen, hp, ih hps]

/-- On a text region followed by the terminating zero byte and a pattern
without a zero byte, `strncmp` bounded by the pattern length returns a value
whose sign is the lexicographic comparison of the clamped region with the
pattern. -/
theorem strncmp_sign (P : List Nat) (hP : 0 ∉ P) (s tail rest : List Nat) :
    ∃ c, strncmp (s ++ 0 :: tail) (P ++ rest) P.length = .ok c ∧
      Int.sign c = lex_compare (s.take P.length) P := by
  induction P generalizing s with
  | nil => exact ⟨0, by simp [strncmp], by simp [lex_compare]⟩
  | cons p ps ih =>
    have hp : p ≠ 0 := fun h => hP (by simp [h])
    have hps : 0 ∉ ps := fun h => hP (by simp [h])
    cases s with
    | nil =>
      refine ⟨0 - (p : Int), ?_, ?_⟩
      · simp [strncmp, Ne.symm hp]
      · have : (0 : Int) - (p : Int) < 0 := by omega
        simp only [List.take_nil, lex_compare]
        exact Int.sign_eq_neg_one_iff_neg.2 this
    | cons x xs =>
      by_cases hxp : x = p
      · subst hxp
        obtain ⟨c, hc, hs⟩ := ih hps xs
        refine ⟨c, ?_, ?_⟩
        · simpa [strncmp, hp] using hc
        · simpa [lex_compare] using hs
      · refine ⟨(x : Int) - (p : Int), ?_, ?_⟩
        · simp [strncmp, hxp]
        · simp only [List.length_cons, List.take_succ_cons, lex_compare]
          by_cases hlt : x < p
          · have : (x : Int) - (p : Int) < 0 := by omega
            simp [hlt, Int.sign_eq_neg_one_iff_neg.2 this]
          · have hgt : p < x := by omega
            have : 0 < (x : Int) - (p : Int) := by omega
            simp [hlt, hgt, Int.sign_eq_one_iff_pos.2 this]


/-! ## Reads of an index -/

theorem int32_wrap_of_fits (x : Int) (h0 : -2147483648 ≤ x) (h1 : x ≤ 2147483647) :
    int32_wrap x = x := by
  unfold int32_wrap
  omega

theorem size_fits (N : Nat) (hN : N ≤ 2 ^ 30) : (N : Int) ≤ 1073741824 := by
  have h : (2 : Nat) ^ 30 = 1073741824 := by norm_num
  omega

/-- What `suffixarray_initialize` builds from a text and the output of `sais`
is an index of that text. -/
theorem suffixarray_initialize_is_index (T : List Nat) (SA : List Int) (pat : List Nat)
    (psz : Nat) (hT : T.length < 2 ^ 31) :
    ∃ d, suffixarray_initialize T (some SA) pat psz = some d ∧ is_index d T SA := by
  have h31 : (2 : Nat) ^ 31 = 2147483648 := by norm_num
  have hw : int32_wrap (T.length : Int) = (T.length : Int) :=
    int32_wrap_of_fits _ (by omega) (by omega)
  have h0 : ¬ ((T.length : Int) < 0) := by omega
  refine ⟨_, by simp only [hw, h0, if_false, suffixarray_initialize]; rfl, ?_, rfl, rfl⟩
  simp

theorem text_from_index (d : SuffixArrayData) (T : List Nat) (o : Int)
    (hd : d.text = T ++ [0]) (h0 : 0 ≤ o) (hN : o ≤ T.length) :
    text_from d o = suffix_at T o ++ [0] := by
  have h1 : ¬ o < 0 := by omega
  have h2 : o.toNat ≤ T.length := by omega
  simp [text_from, suffix_at, h1, hd, List.drop_append_of_le_length h2]

theorem ipoint_at_rank (d : SuffixArrayData) (i : Int) (h0 : 0 ≤ i)
    (hN : i < d.ipoint.length) :
    ipoint_at d i = .ok (d.ipoint.getD i.toNat 0) := by
  have h1 : ¬ i < 0 := by omega
  have h2 : i.toNat < d.ipoint.length := by omega
  simp [ipoint_at, h1, List.getElem?_eq_getElem h2, List.getD_eq_getElem _ _ h2]

theorem begins_with_length (T : List Nat) (o : Int) (P : List Nat) (h0 : 0 ≤ o)
    (hN : o ≤ T.length) (h : begins_with T o P) : o + P.length ≤ T.length := by
  have hl := congrArg List.length h
  simp only [begins_with, suffix_at, List.length_take, List.length_drop] at hl
  omega

/-- The ranked comparison of the code against the one of the spec, at an
offset between `0` and `N` inclusive. -/
theorem bsearch_compare_sign (d : SuffixArrayData) (T P : List Nat) (o : Int)
    (hd : d.text = T ++ [0]) (hpat : has_pattern d P) (hP : 0 ∉ P)
    (h0 : 0 ≤ o) (hN : o ≤ T.length) :
    ∃ c, __bsearch_compare d o = .ok c ∧ Int.sign c = ranked_comparison T o P := by
  obtain ⟨c, hc, hs⟩ := strncmp_sign P hP (suffix_at T o) [] [0]
  refine ⟨c, ?_, hs⟩
  rw [__bsearch_compare, text_from_index d T o hd h0 hN, hpat.1, hpat.2]
  exact hc

theorem ranked_comparison_eq_zero_iff (T : List Nat) (o : Int) (P : List Nat) :
    ranked_comparison T o P = 0 ↔ begins_with T o P := by
  simp [ranked_comparison, begins_with, lex_compare_eq_zero_iff]

/-! ## The two loops -/

theorem midpoint_between (lower upper : Int) (h1 : -1 ≤ lower) (h2 : lower + 1 < upper) :
    lower < Int.tdiv (lower + upper) 2 ∧ Int.tdiv (lower + upper) 2 < upper := by
  rw [Int.tdiv_eq_ediv (by omega) (by omega)]
  omega

/-- The loop of `__bsearch_lower_boundary` exits whenever the probes of the
ranks between the cursors succeed, whatever their outcomes `g`; the rank `r` it
returns lies above `lower` and not above `upper`, the probe just below it was
negative unless `r - 1` is the initial `lower`, and the probe at it was not
negative unless `r` is the initial `upper`. -/
theorem lower_boundary_loop_exact_exit (d : SuffixArrayData) (fn : bsearch_compare_fn)
    (N : Int) (g : Int → Int)
    (hg : ∀ i : Int, 0 ≤ i → i < N →
      ∃ item, ipoint_at d i = .ok item ∧ fn d item = .ok (g i))
    (fuel : Nat) (lower upper : Int) (hl : -1 ≤ lower) (hlu : lower < upper)
    (hu : upper ≤ N) (hf : upper - lower ≤ fuel + 1) :
    ∃ r, lower_boundary_loop_exact d fn fuel lower upper = .ok r ∧ lower < r ∧ r ≤ upper ∧
      (r - 1 = lower ∨ g (r - 1) < 0) ∧ (r = upper ∨ 0 ≤ g r) := by
  induction fuel generalizing lower upper with
  | zero =>
    have he : lower + 1 = upper := by omega
    exact ⟨upper, by simp [lower_boundary_loop_exact, he], hlu, le_refl _,
      Or.inl (by omega), Or.inl rfl⟩
  | succ fuel ih =>
    by_cases he : lower + 1 = upper
    · exact ⟨upper, by simp [lower_boundary_loop_exact, he], hlu, le_refl _,
        Or.inl (by omega), Or.inl rfl⟩
    · have hm := midpoint_between lower upper hl (by omega)
      obtain ⟨item, hi, hc⟩ := hg (Int.tdiv (lower + upper) 2) (by omega) (by omega)
      by_cases hneg : g (Int.tdiv (lower + upper) 2) < 0
      · obtain ⟨r, hr, h1, h2, h3, h4⟩ :=
          ih (Int.tdiv (lower + upper) 2) upper (by omega) hm.2 hu (by omega)
        refine ⟨r, ?_, by omega, h2, ?_, h4⟩
        · simp [lower_boundary_loop_exact, he, hi, hc, hneg, hr]
        · rcases h3 with h3 | h3
          · right; rw [h3]; exact hneg
          · right; exact h3
      · obtain ⟨r, hr, h1, h2, h3, h4⟩ :=
          ih lower (Int.tdiv (lower + upper) 2) hl hm.1 (by omega) (by omega)
        refine ⟨r, ?_, h1, by omega, h3, ?_⟩
        · simp [lower_boundary_loop_exact, he, hi, hc, hneg, hr]
        · rcases h4 with h4 | h4
          · right; rw [h4]; omega
          · right; exact h4

/-- The loop of `__bsearch_upper_boundary` exits whenever the probes of the
ranks between the cursors succeed, whatever their outcomes `g`; the rank `r` it
returns lies above `lower` and not above `upper`, the probe just below it was
not positive unless `r - 1` is the initial `lower`, and the probe at it was
positive unless `r` is the initial `upper`. -/
theorem upper_boundary_loop_exact_exit (d : SuffixArrayData) (fn : bsearch_compare_fn)
    (N : Int) (g : Int → Int)
    (hg : ∀ i : Int, 0 ≤ i → i < N →
      ∃ item, ipoint_at d i = .ok item ∧ fn d item = .ok (g i))
    (fuel : Nat) (lower upper : Int) (hl : -1 ≤ lower) (hlu : lower < upper)
    (hu : upper ≤ N) (hf : upper - lower ≤ fuel + 1) :
    ∃ r, upper_boundary_loop_exact d fn fuel lower upper = .ok r ∧ lower < r ∧ r ≤ upper ∧
      (r - 1 = lower ∨ g (r - 1) ≤ 0) ∧ (r = upper ∨ 0 < g r) := by
  induction fuel generalizing lower upper with
  | zero =>
    have he : lower + 1 = upper := by omega
    exact ⟨upper, by simp [upper_boundary_loop_exact, he], hlu, le_refl _,
      Or.inl (by omega), Or.inl rfl⟩
  | succ fuel ih =>
    by_cases he : lower + 1 = upper
    · exact ⟨upper, by simp [upper_boundary_loop_exact, he], hlu, le_refl _,
        Or.inl (by omega), Or.inl rfl⟩
    · have hm := midpoint_between lower upper hl (by omega)
      obtain ⟨item, hi, hc⟩ := hg (Int.tdiv (lower + upper) 2) (by omega) (by omega)
      by_cases hle : g (Int.tdiv (lower + upper) 2) ≤ 0
      · obtain ⟨r, hr, h1, h2, h3, h4⟩ :=
          ih (Int.tdiv (lower + upper) 2) upper (by omega) hm.2 hu (by omega)
        refine ⟨r, ?_, by omega, h2, ?_, h4⟩
        · simp [upper_boundary_loop_exact, he, hi, hc, hle, hr]
        · rcases h3 with h3 | h3
          · right; rw [h3]; exact hle
          · right; exact h3
      · obtain ⟨r, hr, h1, h2, h3, h4⟩ :=
          ih lower (Int.tdiv (lower + upper) 2) hl hm.1 (by omega) (by omega)
        refine ⟨r, ?_, h1, by omega, h3, ?_⟩
        · simp [upper_boundary_loop_exact, he, hi, hc, hle, hr]
        · rcases h4 with h4 | h4
          · right; rw [h4]; omega
          · right; exact h4


/-! ## The sums in a 32-bit `int` -/

/-- For cursors within `-1 .. 2 ^ 30` the loop of `__bsearch_lower_boundary`
computes in a 32-bit `int` what it computes over the integers. -/
theorem lower_boundary_loop_eq (d : SuffixArrayData) (fn : bsearch_compare_fn)
    (fuel : Nat) (lower upper : Int) (hl : -1 ≤ lower) (hlu : lower < upper)
    (hu : upper ≤ 1073741824) :
    lower_boundary_loop d fn fuel lower upper
      = lower_boundary_loop_exact d fn fuel lower upper := by
  induction fuel generalizing lower upper with
  | zero => simp [lower_boundary_loop, lower_boundary_loop_exact]
  | succ fuel ih =>
    by_cases he : lower + 1 = upper
    · simp [lower_boundary_loop, lower_boundary_loop_exact, he]
    · have hm := midpoint_between lower upper hl (by omega)
      have hw : int32_wrap (lower + upper) = lower + upper :=
        int32_wrap_of_fits _ (by omega) (by omega)
      simp only [lower_boundary_loop, lower_boundary_loop_exact, hw]
      rw [ih _ upper (by omega) hm.2 hu, ih lower _ hl hm.1 (by omega)]

/-- For cursors within `-1 .. 2 ^ 30` the loop of `__bsearch_upper_boundary`
computes in a 32-bit `int` what it computes over the integers. -/
theorem upper_boundary_loop_eq (d : SuffixArrayData) (fn : bsearch_compare_fn)
    (fuel : Nat) (lower upper : Int) (hl : -1 ≤ lower) (hlu : lower < upper)
    (hu : upper ≤ 1073741824) :
    upper_boundary_loop d fn fuel lower upper
      = upper_boundary_loop_exact d fn fuel lower upper := by
  induction fuel generalizing lower upper with
  | zero => simp [upper_boundary_loop, upper_boundary_loop_exact]
  | succ fuel ih =>
    by_cases he : lower + 1 = upper
    · simp [upper_boundary_loop, upper_boundary_loop_exact, he]
    · have hm := midpoint_between lower upper hl (by omega)
      have hw : int32_wrap (lower + upper) = lower + upper :=
        int32_wrap_of_fits _ (by omega) (by omega)
      simp only [upper_boundary_loop, upper_boundary_loop_exact, hw]
      rw [ih _ upper (by omega) hm.2 hu, ih lower _ hl hm.1 (by omega)]

/-- For cursors within `-1 .. 2 ^ 30` the cursors of the loop of
`__bsearch_lower_boundary` are those of the loop over the integers. -/
theorem lower_boundary_cursors_eq (d : SuffixArrayData) (fn : bsearch_compare_fn)
    (fuel : Nat) (lower upper : Int) (hl : -1 ≤ lower) (hlu : lower < upper)
    (hu : upper ≤ 1073741824) :
    lower_boundary_cursors d fn fuel lower upper
      = lower_boundary_cursors_exact d fn fuel lower upper := by
  induction fuel generalizing lower upper with
  | zero => simp [lower_boundary_cursors, lower_boundary_cursors_exact]
  | succ fuel ih =>
    by_cases he : lower + 1 = upper
    · simp [lower_boundary_cursors, lower_boundary_cursors_exact, he]
    · have hm := midpoint_between lower upper hl (by omega)
      have hw : int32_wrap (lower + upper) = lower + upper :=
        int32_wrap_of_fits _ (by omega) (by omega)
      simp only [lower_boundary_cursors, lower_boundary_cursors_exact, hw]
      rw [ih _ upper (by omega) hm.2 hu, ih lower _ hl hm.1 (by omega)]

/-- For cursors within `-1 .. 2 ^ 30` the cursors of the loop of
`__bsearch_upper_boundary` are those of the loop over the integers. -/
theorem upper_boundary_cursors_eq (d : SuffixArrayData) (fn : bsearch_compare_fn)
    (fuel : Nat) (lower upper : Int) (hl : -1 ≤ lower) (hlu : lower < upper)
    (hu : upper ≤ 1073741824) :
    upper_boundary_cursors d fn fuel lower upper
      = upper_boundary_cursors_exact d fn fuel lower upper := by
  induction fuel generalizing lower upper with
  | zero => simp [upper_boundary_cursors, upper_boundary_cursors_exact]
  | succ fuel ih =>
    by_cases he : lower + 1 = upper
    · simp [upper_boundary_cursors, upper_boundary_cursors_exact, he]
    · have hm := midpoint_between lower upper hl (by omega)
      have hw : int32_wrap (lower + upper) = lower + upper :=
        int32_wrap_of_fits _ (by omega) (by omega)
      simp only [upper_boundary_cursors, upper_boundary_cursors_exact, hw]
      rw [ih _ upper (by omega) hm.2 hu, ih lower _ hl hm.1 (by omega)]

/-- The call `__bsearch_lower_boundary(data, 0, N, fn)` with `N ≤ 2 ^ 30` is
the loop over the integers from the cursors `(-1, N)`. -/
theorem bsearch_lower_boundary_eq (d : SuffixArrayData) (fn : bsearch_compare_fn) (N : Nat)
    (hN : N ≤ 2 ^ 30) :
    __bsearch_lower_boundary d 0 N fn = lower_boundary_loop_exact d fn (N + 1) (-1) N := by
  have hfuel : ((N : Int) - (0 - 1)).toNat = N + 1 := by omega
  rw [__bsearch_lower_boundary, hfuel]
  exact lower_boundary_loop_eq d fn (N + 1) (-1) N (le_refl _) (by omega) (size_fits N hN)

/-- The call `__bsearch_upper_boundary(data, 0, N, fn)` with `N ≤ 2 ^ 30` is
the loop over the integers from the cursors `(-1, N)`. -/
theorem bsearch_upper_boundary_eq (d : SuffixArrayData) (fn : bsearch_compare_fn) (N : Nat)
    (hN : N ≤ 2 ^ 30) :
    __bsearch_upper_boundary d 0 N fn = upper_boundary_loop_exact d fn (N + 1) (-1) N := by
  have hfuel : ((N : Int) - (0 - 1)).toNat = N + 1 := by omega
  rw [__bsearch_upper_boundary, hfuel]
  exact upper_boundary_loop_eq d fn (N + 1) (-1) N (le_refl _) (by omega) (size_fits N hN)

/-- The trace of `__bsearch_lower_boundary(data, 0, N, fn)` with `N ≤ 2 ^ 30`
is the trace of the loop over the integers. -/
theorem lower_boundary_trace_eq (d : SuffixArrayData) (fn : bsearch_compare_fn) (N : Nat)
    (hN : N ≤ 2 ^ 30) :
    lower_boundary_trace d 0 N fn = lower_boundary_cursors_exact d fn (N + 1) (-1) N := by
  have hfuel : ((N : Int) - (0 - 1)).toNat = N + 1 := by omega
  rw [lower_boundary_trace, hfuel]
  exact lower_boundary_cursors_eq d fn (N + 1) (-1) N (le_refl _) (by omega) (size_fits N hN)

/-- The trace of `__bsearch_upper_boundary(data, 0, N, fn)` with `N ≤ 2 ^ 30`
is the trace of the loop over the integers. -/
theorem upper_boundary_trace_eq (d : SuffixArrayData) (fn : bsearch_compare_fn) (N : Nat)
    (hN : N ≤ 2 ^ 30) :
    upper_boundary_trace d 0 N fn = upper_boundary_cursors_exact d fn (N + 1) (-1) N := by
  have hfuel : ((N : Int) - (0 - 1)).toNat = N + 1 := by omega
  rw [upper_boundary_trace, hfuel]
  exact upper_boundary_cursors_eq d fn (N + 1) (-1) N (le_refl _) (by omega) (size_fits N hN)

/-! ## Probes of an index that carries a pattern -/

theorem entries_in_range_getD (SA : List Int) (N i : Nat) (h : entries_in_range SA N)
    (hi : i < SA.length) : 0 ≤ offset_at_rank SA i ∧ offset_at_rank SA i < N := by
  have hm : offset_at_rank SA i ∈ SA := by
    rw [offset_at_rank, List.getD_eq_getElem _ _ hi]
    exact List.getElem_mem hi
  exact h _ hm

theorem is_permutation_length (SA : List Int) (N : Nat) (h : is_permutation SA N) :
    SA.length = N := by
  have := h.length_eq
  simpa using this

theorem is_permutation_in_range (SA : List Int) (N : Nat) (h : is_permutation SA N) :
    entries_in_range SA N := by
  intro v hv
  have hv2 := h.subset hv
  simp only [List.mem_map, List.mem_range] at hv2
  obtain ⟨k, hk, rfl⟩ := hv2
  constructor
  · exact Int.ofNat_nonneg k
  · exact Int.ofNat_lt.2 hk

theorem is_permutation_rank_of (SA : List Int) (N : Nat) (h : is_permutation SA N)
    (k : Int) (h0 : 0 ≤ k) (hN : k < N) :
    ∃ j, j < SA.length ∧ offset_at_rank SA j = k := by
  have hk : k ∈ SA := by
    apply h.symm.subset
    simp only [List.mem_map, List.mem_range]
    exact ⟨k.toNat, by omega, by simp; omega⟩
  obtain ⟨j, hj, hjk⟩ := List.getElem_of_mem hk
  exact ⟨j, hj, by rw [offset_at_rank, List.getD_eq_getElem _ _ hj, hjk]⟩

/-- A probe of a rank of the index succeeds, and the sign of its value is the
ranked comparison of the spec at that rank. -/
theorem probe_rank (d : SuffixArrayData) (T P : List Nat) (SA : List Int)
    (hd : is_index d T SA) (hpat : has_pattern d P) (hP : 0 ∉ P)
    (hlen : SA.length = T.length) (hr : entries_in_range SA T.length)
    (i : Int) (h0 : 0 ≤ i) (hN : i < T.length) :
    ∃ item, ipoint_at d i = .ok item ∧ __bsearch_compare d item = .ok (probe_value d i) ∧
      item = offset_at_rank SA i.toNat ∧
      Int.sign (probe_value d i) = rank_comparison T SA P i.toNat := by
  obtain ⟨ht, hs, _⟩ := hd
  have hi : i.toNat < SA.length := by omega
  have hv := entries_in_range_getD SA T.length i.toNat hr hi
  obtain ⟨c, hc, hsg⟩ := bsearch_compare_sign d T P (offset_at_rank SA i.toNat) ht hpat hP
    hv.1 (le_of_lt hv.2)
  have hpv : probe_value d i = c := by
    simp only [probe_value, hs]
    rw [offset_at_rank] at hc
    rw [hc]
  refine ⟨offset_at_rank SA i.toNat, ?_, ?_, rfl, ?_⟩
  · rw [ipoint_at_rank d i h0 (by rw [hs]; omega), hs, offset_at_rank]
  · rw [hpv]; exact hc
  · rw [hpv]; exact hsg

theorem sign_neg_iff (c : Int) : Int.sign c < 0 ↔ c < 0 := by
  rcases lt_trichotomy c 0 with h | h | h
  · simp [Int.sign_eq_neg_one_iff_neg.2 h, h]
  · simp [h]
  · have := Int.sign_eq_one_iff_pos.2 h
    omega

theorem sign_pos_iff (c : Int) : 0 < Int.sign c ↔ 0 < c := by
  rcases lt_trichotomy c 0 with h | h | h
  · have := Int.sign_eq_neg_one_iff_neg.2 h
    omega
  · simp [h]
  · simp [Int.sign_eq_one_iff_pos.2 h, h]

theorem sign_zero_iff (c : Int) : Int.sign c = 0 ↔ c = 0 := Int.sign_eq_zero_iff_zero

/-! ## Consequences of the sort invariant -/

theorem sort_invariant_ranks (T : List Nat) (SA : List Int) (h : sort_invariant T SA)
    (i j : Nat) (hij : i ≤ j) (hj : j < SA.length) :
    lex_compare (suffix_at T (offset_at_rank SA i)) (suffix_at T (offset_at_rank SA j)) ≤ 0 := by
  induction j with
  | zero =>
    have : i = 0 := by omega
    subst this
    rw [lex_compare_self]
  | succ j ih =>
    by_cases he : i = j + 1
    · subst he
      rw [lex_compare_self]
    · exact lex_compare_trans _ _ _ (ih (by omega) (by omega)) (h j hj)

theorem rank_comparison_mono (T : List Nat) (SA : List Int) (P : List Nat)
    (h : sort_invariant T SA) (i j : Nat) (hij : i ≤ j) (hj : j < SA.length) :
    rank_comparison T SA P i ≤ rank_comparison T SA P j :=
  lex_compare_take_mono P _ _ (sort_invariant_ranks T SA h i j hij hj)


/-! ## The boundaries on an index -/

/-- On any index whose entries are offsets of the text, sorted or not,
`__bsearch_lower_boundary(0, N)` returns a rank `r ≤ N`; the suffix at rank
`r - 1` precedes the pattern unless `r = 0`, and the suffix at rank `r` does
not unless `r = N`. -/
theorem lower_boundary_local (d : SuffixArrayData) (T P : List Nat) (SA : List Int)
    (hd : is_index d T SA) (hpat : has_pattern d P) (hP : 0 ∉ P)
    (hlen : SA.length = T.length) (hr : entries_in_range SA T.length)
    (hN : T.length ≤ 2 ^ 30) :
    ∃ r : Nat, __bsearch_lower_boundary d 0 d.size __bsearch_compare = .ok (r : Int) ∧
      r ≤ T.length ∧ (r = 0 ∨ rank_comparison T SA P (r - 1) < 0) ∧
      (r = T.length ∨ 0 ≤ rank_comparison T SA P r) := by
  have hsize : d.size = T.length := hd.2.2
  have hg : ∀ i : Int, 0 ≤ i → i < (T.length : Int) →
      ∃ item, ipoint_at d i = .ok item ∧ __bsearch_compare d item = .ok (probe_value d i) := by
    intro i h0 hN
    obtain ⟨item, h1, h2, _⟩ := probe_rank d T P SA hd hpat hP hlen hr i h0 hN
    exact ⟨item, h1, h2⟩
  obtain ⟨r, hres, h1, h2, h3, h4⟩ := lower_boundary_loop_exact_exit d __bsearch_compare
    (T.length : Int) (probe_value d) hg (T.length + 1) (-1) (T.length : Int)
    (le_refl _) (by omega) (le_refl _) (by omega)
  refine ⟨r.toNat, ?_, by omega, ?_, ?_⟩
  · have hr0 : ((r.toNat : Nat) : Int) = r := Int.toNat_of_nonneg (by omega)
    rw [hr0, hsize, bsearch_lower_boundary_eq d _ T.length hN]
    exact hres
  · by_cases hr1 : r = 0
    · left; omega
    · right
      rcases h3 with h3 | h3
      · omega
      · obtain ⟨_, _, _, _, hs⟩ := probe_rank d T P SA hd hpat hP hlen hr (r - 1)
          (by omega) (by omega)
        have hn := (sign_neg_iff (probe_value d (r - 1))).2 h3
        rw [hs] at hn
        have he : (r - 1).toNat = r.toNat - 1 := by omega
        rw [← he]
        exact hn
  · rcases h4 with h4 | h4
    · left; omega
    · by_cases hrN : r = T.length
      · left; omega
      · right
        obtain ⟨_, _, _, _, hs⟩ := probe_rank d T P SA hd hpat hP hlen hr r
          (by omega) (by omega)
        have hn : 0 ≤ Int.sign (probe_value d r) := by
          rcases lt_or_eq_of_le h4 with h | h
          · exact le_of_lt ((sign_pos_iff _).2 h)
          · rw [← h]; simp
        rw [hs] at hn
        exact hn

/-- On any index whose entries are offsets of the text, sorted or not,
`__bsearch_upper_boundary(0, N)` returns a rank `u ≤ N`; the suffix at rank
`u - 1` does not follow the pattern unless `u = 0`, and the suffix at rank `u`
follows it unless `u = N`. -/
theorem upper_boundary_local (d : SuffixArrayData) (T P : List Nat) (SA : List Int)
    (hd : is_index d T SA) (hpat : has_pattern d P) (hP : 0 ∉ P)
    (hlen : SA.length = T.length) (hr : entries_in_range SA T.length)
    (hN : T.length ≤ 2 ^ 30) :
    ∃ u : Nat, __bsearch_upper_boundary d 0 d.size __bsearch_compare = .ok (u : Int) ∧
      u ≤ T.length ∧ (u = 0 ∨ rank_comparison T SA P (u - 1) ≤ 0) ∧
      (u = T.length ∨ 0 < rank_comparison T SA P u) := by
  have hsize : d.size = T.length := hd.2.2
  have hg : ∀ i : Int, 0 ≤ i → i < (T.length : Int) →
      ∃ item, ipoint_at d i = .ok item ∧ __bsearch_compare d item = .ok (probe_value d i) := by
    intro i h0 hN
    obtain ⟨item, h1, h2, _⟩ := probe_rank d T P SA hd hpat hP hlen hr i h0 hN
    exact ⟨item, h1, h2⟩
  obtain ⟨r, hres, h1, h2, h3, h4⟩ := upper_boundary_loop_exact_exit d __bsearch_compare
    (T.length : Int) (probe_value d) hg (T.length + 1) (-1) (T.length : Int)
    (le_refl _) (by omega) (le_refl _) (by omega)
  refine ⟨r.toNat, ?_, by omega, ?_, ?_⟩
  · have hr0 : ((r.toNat : Nat) : Int) = r := Int.toNat_of_nonneg (by omega)
    rw [hr0, hsize, bsearch_upper_boundary_eq d _ T.length hN]
    exact hres
  · by_cases hr1 : r = 0
    · left; omega
    · right
      rcases h3 with h3 | h3
      · omega
      · obtain ⟨_, _, _, _, hs⟩ := probe_rank d T P SA hd hpat hP hlen hr (r - 1)
          (by omega) (by omega)
        have hn : Int.sign (probe_value d (r - 1)) ≤ 0 := by
          rcases lt_or_eq_of_le h3 with h | h
          · exact le_of_lt ((sign_neg_iff _).2 h)
          · rw [h]; simp
        rw [hs] at hn
        have he : (r - 1).toNat = r.toNat - 1 := by omega
        rw [← he]
        exact hn
  · by_cases hrN : r = T.length
    · left; omega
    · right
      rcases h4 with h4 | h4
      · omega
      · obtain ⟨_, _, _, _, hs⟩ := probe_rank d T P SA hd hpat hP hlen hr r
          (by omega) (by omega)
        have hn := (sign_pos_iff (probe_value d r)).2 h4
        rw [hs] at hn
        exact hn

/-- On a sorted index the lower boundary splits the ranks: the suffixes below
it precede the pattern and the suffixes from it on do not. -/
theorem lower_boundary_sorted (d : SuffixArrayData) (T P : List Nat) (SA : List Int)
    (hd : is_index d T SA) (hpat : has_pattern d P) (hP : 0 ∉ P)
    (hlen : SA.length = T.length) (hr : entries_in_range SA T.length)
    (hN : T.length ≤ 2 ^ 30) (hsort : sort_invariant T SA) :
    ∃ r : Nat, __bsearch_lower_boundary d 0 d.size __bsearch_compare = .ok (r : Int) ∧
      r ≤ T.length ∧ (∀ i, i < r → rank_comparison T SA P i < 0) ∧
      (∀ i, r ≤ i → i < T.length → 0 ≤ rank_comparison T SA P i) := by
  obtain ⟨r, hres, hrN, h1, h2⟩ := lower_boundary_local d T P SA hd hpat hP hlen hr hN
  refine ⟨r, hres, hrN, ?_, ?_⟩
  · intro i hi
    rcases h1 with h1 | h1
    · omega
    · exact lt_of_le_of_lt
        (rank_comparison_mono T SA P hsort i (r - 1) (by omega) (by omega)) h1
  · intro i hri hiN
    rcases h2 with h2 | h2
    · omega
    · exact le_trans h2 (rank_comparison_mono T SA P hsort r i hri (by omega))

/-- On a sorted index the upper boundary splits the ranks: the suffixes below
it do not follow the pattern and the suffixes from it on follow it. -/
theorem upper_boundary_sorted (d : SuffixArrayData) (T P : List Nat) (SA : List Int)
    (hd : is_index d T SA) (hpat : has_pattern d P) (hP : 0 ∉ P)
    (hlen : SA.length = T.length) (hr : entries_in_range SA T.length)
    (hN : T.length ≤ 2 ^ 30) (hsort : sort_invariant T SA) :
    ∃ u : Nat, __bsearch_upper_boundary d 0 d.size __bsearch_compare = .ok (u : Int) ∧
      u ≤ T.length ∧ (∀ i, i < u → rank_comparison T SA P i ≤ 0) ∧
      (∀ i, u ≤ i → i < T.length → 0 < rank_comparison T SA P i) := by
  obtain ⟨u, hres, huN, h1, h2⟩ := upper_boundary_local d T P SA hd hpat hP hlen hr hN
  refine ⟨u, hres, huN, ?_, ?_⟩
  · intro i hi
    rcases h1 with h1 | h1
    · omega
    · exact le_trans
        (rank_comparison_mono T SA P hsort i (u - 1) (by omega) (by omega)) h1
  · intro i hui hiN
    rcases h2 with h2 | h2
    · omega
    · exact lt_of_lt_of_le h2 (rank_comparison_mono T SA P hsort u i hui (by omega))


/-! ## The two queries in terms of their boundaries -/

theorem bsearch_first_of_boundary (d : SuffixArrayData) (T P : List Nat) (SA : List Int)
    (hd : is_index d T SA) (hpat : has_pattern d P) (hP : 0 ∉ P)
    (hlen : SA.length = T.length) (hr : entries_in_range SA T.length) (r : Nat)
    (hres : __bsearch_lower_boundary d 0 d.size __bsearch_compare = .ok (r : Int)) :
    __bsearch_first d 0 d.size __bsearch_compare =
      .ok (if r < T.length ∧ rank_comparison T SA P r = 0 then (r : Int) else -1) := by
  have hsize : d.size = T.length := hd.2.2
  rw [__bsearch_first, hres]
  by_cases hrN : r < T.length
  · have h1 : ¬ d.size ≤ (r : Int) := by rw [hsize]; omega
    obtain ⟨item, hi, hc, _, hs⟩ := probe_rank d T P SA hd hpat hP hlen hr (r : Int)
      (by omega) (by omega)
    simp only [h1, if_false, hi, hc, Int.toNat_ofNat] at hs ⊢
    have hz : probe_value d (r : Int) = 0 ↔ rank_comparison T SA P r = 0 := by
      rw [← hs]; exact (sign_zero_iff _).symm
    by_cases h0 : probe_value d (r : Int) = 0
    · simp [h0, hz.1 h0, hrN]
    · have h0b : ¬ rank_comparison T SA P r = 0 := fun h => h0 (hz.2 h)
      simp [h0, h0b]
  · have h1 : d.size ≤ (r : Int) := by rw [hsize]; omega
    simp [h1, hrN]

theorem bsearch_last_of_boundary (d : SuffixArrayData) (T P : List Nat) (SA : List Int)
    (hd : is_index d T SA) (hpat : has_pattern d P) (hP : 0 ∉ P)
    (hlen : SA.length = T.length) (hr : entries_in_range SA T.length) (u : Nat)
    (huN : u ≤ T.length)
    (hres : __bsearch_upper_boundary d 0 d.size __bsearch_compare = .ok (u : Int)) :
    __bsearch_last d 0 d.size __bsearch_compare =
      .ok (if 0 < u ∧ rank_comparison T SA P (u - 1) = 0 then (u : Int) - 1 else -1) := by
  rw [__bsearch_last, hres]
  by_cases hu0 : 0 < u
  · have h1 : ¬ (u : Int) - 1 ≤ -1 := by omega
    obtain ⟨item, hi, hc, _, hs⟩ := probe_rank d T P SA hd hpat hP hlen hr ((u : Int) - 1)
      (by omega) (by omega)
    have he : ((u : Int) - 1).toNat = u - 1 := by omega
    rw [he] at hs
    simp only [h1, if_false, hi, hc]
    have hz : probe_value d ((u : Int) - 1) = 0 ↔ rank_comparison T SA P (u - 1) = 0 := by
      rw [← hs]; exact (sign_zero_iff _).symm
    by_cases h0 : probe_value d ((u : Int) - 1) = 0
    · simp [h0, hz.1 h0, hu0]
    · have h0b : ¬ rank_comparison T SA P (u - 1) = 0 := fun h => h0 (hz.2 h)
      simp [h0, h0b]
  · have h1 : (u : Int) - 1 ≤ -1 := by omega
    simp [h1, hu0]

theorem query_state_is_index (d : SuffixArrayData) (T P : List Nat) (SA : List Int)
    (hd : is_index d T SA) : is_index (query_state d P) T SA := hd

theorem query_state_has_pattern (d : SuffixArrayData) (P : List Nat) :
    has_pattern (query_state d P) P := ⟨rfl, rfl⟩

/-- The method `suffixarray_search` in terms of `__bsearch_first` on the record
that carries the pattern: a negative result is passed on, a rank is replaced by
the offset stored at it. -/
theorem suffixarray_search_of_first (d : SuffixArrayData) (P : List Nat) (hP : 0 ∉ P)
    (res : Int)
    (hres : __bsearch_first (query_state d P) 0 (query_state d P).size __bsearch_compare
      = .ok res) :
    suffixarray_search d (P ++ [0]) =
      if res < 0 then .ok (res, query_state d P)
      else
        match ipoint_at (query_state d P) res with
        | .error e => .error e
        | .ok offset => .ok (offset, query_state d P) := by
  have hl : strlen (P ++ [0]) = .ok P.length := strlen_terminated P [] hP
  simp only [query_state] at hres ⊢
  simp only [suffixarray_search, hl, __bsearch, hres]


/-! ## Texts longer than `2 ^ 30` -/

theorem a_run_b_length (m : Nat) : (a_run_b m).length = m + 1 := by
  simp [a_run_b]

theorem a_run_b_ranks_length (m : Nat) : (a_run_b_ranks m).length = m + 1 := by
  simp [a_run_b_ranks]

theorem a_run_b_ranks_getD (m i : Nat) (hi : i < m + 1) :
    (a_run_b_ranks m).getD i 0 = (i : Int) := by
  have h : i < (a_run_b_ranks m).length := by rw [a_run_b_ranks_length]; exact hi
  rw [List.getD_eq_getElem _ _ h]
  simp [a_run_b_ranks]

theorem a_run_b_drop (m i : Nat) (hi : i ≤ m) : (a_run_b m).drop i = a_run_b (m - i) := by
  unfold a_run_b
  rw [List.drop_append_of_le_length (by simpa using hi)]
  simp

theorem a_run_b_is_index (m : Nat) (pat : List Nat) (psz : Nat) :
    is_index (a_run_b_index m pat psz) (a_run_b m) (a_run_b_ranks m) :=
  ⟨rfl, rfl, by simp [a_run_b_index, a_run_b_length]⟩

theorem a_run_b_is_permutation (m : Nat) :
    is_permutation (a_run_b_ranks m) (a_run_b m).length := by
  rw [a_run_b_length]
  exact List.Perm.refl _

theorem lex_compare_a_run_b (k : Nat) : lex_compare (a_run_b (k + 1)) (a_run_b k) ≤ 0 := by
  induction k with
  | zero => simp [a_run_b, lex_compare]
  | succ k ih =>
    have h : ∀ j, a_run_b (j + 1) = 97 :: a_run_b j := fun j => by
      simp [a_run_b, List.replicate_succ]
    rw [h (k + 1), h k]
    simpa [lex_compare] using ih

theorem a_run_b_sort_invariant (m : Nat) : sort_invariant (a_run_b m) (a_run_b_ranks m) := by
  intro i hi
  rw [a_run_b_ranks_length] at hi
  rw [a_run_b_ranks_getD m i (by omega), a_run_b_ranks_getD m (i + 1) (by omega)]
  simp only [suffix_at, Int.toNat_ofNat]
  rw [a_run_b_drop m i (by omega), a_run_b_drop m (i + 1) (by omega)]
  have h : m - i = (m - (i + 1)) + 1 := by omega
  rw [h]
  exact lex_compare_a_run_b _

theorem a_run_b_occurs (m : Nat) : occurs_at (a_run_b m) [98] (m : Int) := by
  refine ⟨by omega, by rw [a_run_b_length]; omega, ?_⟩
  simp only [begins_with, suffix_at, Int.toNat_ofNat]
  rw [a_run_b_drop m m (le_refl _)]
  simp [a_run_b]

/-- On the index of `a_run_b m` a pattern whose first byte is greater than
`"a"` compares above the suffix at every rank below `m`: the probe of such a
rank returns a negative value. -/
theorem a_run_b_probe (m p : Nat) (rest : List Nat) (n : Nat) (hp : 97 < p) (i : Int)
    (h0 : 0 ≤ i) (hi : i < m) :
    ∃ item c, ipoint_at (a_run_b_index m (p :: rest) (n + 1)) i = .ok item ∧
      __bsearch_compare (a_run_b_index m (p :: rest) (n + 1)) item = .ok c ∧ c < 0 := by
  have hlen : (a_run_b_index m (p :: rest) (n + 1)).ipoint.length = m + 1 :=
    a_run_b_ranks_length m
  have hg : (a_run_b_index m (p :: rest) (n + 1)).ipoint.getD i.toNat 0 = (i.toNat : Int) :=
    a_run_b_ranks_getD m i.toNat (by omega)
  refine ⟨_, (97 : Int) - p, ipoint_at_rank _ i h0 (by rw [hlen]; omega), ?_, by omega⟩
  rw [hg]
  have hk : m - i.toNat = (m - i.toNat - 1) + 1 := by omega
  have ht : text_from (a_run_b_index m (p :: rest) (n + 1)) (i.toNat : Int)
      = 97 :: (a_run_b (m - i.toNat - 1) ++ [0]) := by
    have hnn : ¬ ((i.toNat : Int) < 0) := by omega
    simp only [text_from, hnn, if_false, a_run_b_index, Int.toNat_ofNat]
    rw [List.drop_append_of_le_length (by rw [a_run_b_length]; omega),
      a_run_b_drop m i.toNat (by omega), hk]
    simp [a_run_b, List.replicate_succ]
  have hne : (97 : Nat) ≠ p := by omega
  rw [__bsearch_compare, ht]
  simp [a_run_b_index, strncmp, hne]

theorem trace_fuel (N : Nat) : ((N : Int) - (0 - 1)).toNat = N + 1 := by omega

/-- For `2 ^ 30 < N < 2 ^ 31`, while the probes below rank `N - 1` are negative
the loop of `__bsearch_lower_boundary` raises `lower` until the 32-bit sum
`lower + N` wraps to a negative value; the midpoint is then negative and the
read of `ipoint` at it is outside the array. -/
theorem lower_boundary_loop_overflow (d : SuffixArrayData) (fn : bsearch_compare_fn) (N : Int)
    (h30 : 1073741824 < N) (h31 : N ≤ 2147483647)
    (hp : ∀ i : Int, 0 ≤ i → i < N - 1 →
      ∃ item c, ipoint_at d i = .ok item ∧ fn d item = .ok c ∧ c < 0)
    (fuel : Nat) (lower : Int) (hl : -1 ≤ lower) (hlu : lower + 2 ≤ N)
    (hf : N - lower ≤ fuel + 1) :
    lower_boundary_loop d fn fuel lower N = .error .out_of_bounds := by
  induction fuel generalizing lower with
  | zero => omega
  | succ fuel ih =>
    have he : lower + 1 ≠ N := by omega
    by_cases hfit : lower + N ≤ 2147483647
    · have hw := int32_wrap_of_fits (lower + N) (by omega) hfit
      have hm := midpoint_between lower N hl (by omega)
      have hm2 : Int.tdiv (lower + N) 2 + 2 ≤ N := by
        rw [Int.tdiv_eq_ediv (by omega) (by omega)]
        omega
      obtain ⟨item, c, hi, hc, hneg⟩ := hp (Int.tdiv (lower + N) 2) (by omega) (by omega)
      have hstep : lower_boundary_loop d fn (fuel + 1) lower N
          = lower_boundary_loop d fn fuel (Int.tdiv (lower + N) 2) N := by
        simp only [lower_boundary_loop, hw, hi, hc, he, hneg, ne_eq, not_false_eq_true,
          if_true]
      rw [hstep]
      exact ih _ (by omega) hm2 (by omega)
    · have hw : int32_wrap (lower + N) = -(4294967296 - (lower + N)) := by
        unfold int32_wrap
        omega
      have hmid : Int.tdiv (-(4294967296 - (lower + N))) 2 < 0 := by
        rw [Int.neg_tdiv, Int.tdiv_eq_ediv (by omega) (by omega)]
        omega
      simp only [lower_boundary_loop, hw, he, ne_eq, not_false_eq_true, if_true, ipoint_at,
        hmid]

/-- For `2 ^ 30 < N < 2 ^ 31`, while the probes below rank `N - 1` are not
positive the loop of `__bsearch_upper_boundary` raises `lower` until the 32-bit
sum `lower + N` wraps to a negative value; the midpoint is then negative and
the read of `ipoint` at it is outside the array. -/
theorem upper_boundary_loop_overflow (d : SuffixArrayData) (fn : bsearch_compare_fn) (N : Int)
    (h30 : 1073741824 < N) (h31 : N ≤ 2147483647)
    (hp : ∀ i : Int, 0 ≤ i → i < N - 1 →
      ∃ item c, ipoint_at d i = .ok item ∧ fn d item = .ok c ∧ c ≤ 0)
    (fuel : Nat) (lower : Int) (hl : -1 ≤ lower) (hlu : lower + 2 ≤ N)
    (hf : N - lower ≤ fuel + 1) :
    upper_boundary_loop d fn fuel lower N = .error .out_of_bounds := by
  induction fuel generalizing lower with
  | zero => omega
  | succ fuel ih =>
    have he : lower + 1 ≠ N := by omega
    by_cases hfit : lower + N ≤ 2147483647
    · have hw := int32_wrap_of_fits (lower + N) (by omega) hfit
      have hm := midpoint_between lower N hl (by omega)
      have hm2 : Int.tdiv (lower + N) 2 + 2 ≤ N := by
        rw [Int.tdiv_eq_ediv (by omega) (by omega)]
        omega
      obtain ⟨item, c, hi, hc, hneg⟩ := hp (Int.tdiv (lower + N) 2) (by omega) (by omega)
      have hstep : upper_boundary_loop d fn (fuel + 1) lower N
          = upper_boundary_loop d fn fuel (Int.tdiv (lower + N) 2) N := by
        simp only [upper_boundary_loop, hw, hi, hc, he, hneg, ne_eq, not_false_eq_true,
          if_true]
      rw [hstep]
      exact ih _ (by omega) hm2 (by omega)
    · have hw : int32_wrap (lower + N) = -(4294967296 - (lower + N)) := by
        unfold int32_wrap
        omega
      have hmid : Int.tdiv (-(4294967296 - (lower + N))) 2 < 0 := by
        rw [Int.neg_tdiv, Int.tdiv_eq_ediv (by omega) (by omega)]
        omega
      simp only [upper_boundary_loop, hw, he, ne_eq, not_false_eq_true, if_true, ipoint_at,
        hmid]

/-- The call `__bsearch_lower_boundary(data, 0, N, fn)` for `2 ^ 30 < N < 2 ^ 31`
with negative probes below rank `N - 1` ends in a read outside `ipoint`. -/
theorem bsearch_lower_boundary_overflow (d : SuffixArrayData) (fn : bsearch_compare_fn)
    (N : Nat) (h30 : 2 ^ 30 < N) (h31 : N < 2 ^ 31)
    (hp : ∀ i : Int, 0 ≤ i → i < (N : Int) - 1 →
      ∃ item c, ipoint_at d i = .ok item ∧ fn d item = .ok c ∧ c < 0) :
    __bsearch_lower_boundary d 0 N fn = .error .out_of_bounds := by
  have h1 : (2 : Nat) ^ 30 = 1073741824 := by norm_num
  have h2 : (2 : Nat) ^ 31 = 2147483648 := by norm_num
  rw [__bsearch_lower_boundary, trace_fuel]
  exact lower_boundary_loop_overflow d fn N (by omega) (by omega) hp (N + 1) (0 - 1)
    (by omega) (by omega) (by omega)

/-- The call `__bsearch_upper_boundary(data, 0, N, fn)` for `2 ^ 30 < N < 2 ^ 31`
with no positive probe below rank `N - 1` ends in a read outside `ipoint`. -/
theorem bsearch_upper_boundary_overflow (d : SuffixArrayData) (fn : bsearch_compare_fn)
    (N : Nat) (h30 : 2 ^ 30 < N) (h31 : N < 2 ^ 31)
    (hp : ∀ i : Int, 0 ≤ i → i < (N : Int) - 1 →
      ∃ item c, ipoint_at d i = .ok item ∧ fn d item = .ok c ∧ c ≤ 0) :
    __bsearch_upper_boundary d 0 N fn = .error .out_of_bounds := by
  have h1 : (2 : Nat) ^ 30 = 1073741824 := by norm_num
  have h2 : (2 : Nat) ^ 31 = 2147483648 := by norm_num
  rw [__bsearch_upper_boundary, trace_fuel]
  exact upper_boundary_loop_overflow d fn N (by omega) (by omega) hp (N + 1) (0 - 1)
    (by omega) (by omega) (by omega)

theorem a_run_b_bytes (m x : Nat) (hx : x ∈ a_run_b m) : x = 97 ∨ x = 98 := by
  simp only [a_run_b, List.mem_append, List.mem_replicate, List.mem_singleton] at hx
  rcases hx with h | h
  · exact Or.inl h.2
  · exact Or.inr h

/-- A pattern with a byte other than `"a"` and `"b"` occurs nowhere in
`a_run_b m`. -/
theorem a_run_b_no_occurrence (m p : Nat) (h1 : p ≠ 97) (h2 : p ≠ 98) (k : Int) :
    ¬ occurs_at (a_run_b m) [p] k := by
  intro h
  have hb : ((a_run_b m).drop k.toNat).take 1 = [p] := h.2.2
  have hmem : p ∈ ((a_run_b m).drop k.toNat).take 1 := by rw [hb]; simp
  have := a_run_b_bytes m p (List.mem_of_mem_drop (List.mem_of_mem_take hmem))
  omega

/-- In `a_run_b m` the suffix at a rank below `m` begins with `"a"`, not with
`"b"`. -/
theorem a_run_b_not_begins (m i : Nat) (hi : i < m) :
    ¬ begins_with (a_run_b m) (offset_at_rank (a_run_b_ranks m) i) [98] := by
  have hk : m - i = (m - i - 1) + 1 := by omega
  rw [offset_at_rank, a_run_b_ranks_getD m i (by omega)]
  simp only [begins_with, suffix_at, Int.toNat_ofNat]
  rw [a_run_b_drop m i (by omega), hk]
  simp [a_run_b, List.replicate_succ]

theorem a_run_b_begins (m : Nat) :
    begins_with (a_run_b m) (offset_at_rank (a_run_b_ranks m) m) [98] := by
  rw [offset_at_rank, a_run_b_ranks_getD m m (by omega)]
  exact (a_run_b_occurs m).2.2

theorem a_run_b_lower_boundary_faults (m p : Nat) (rest : List Nat) (n : Nat) (hp : 97 < p)
    (h30 : 2 ^ 30 ≤ m) (h31 : m + 1 < 2 ^ 31) :
    __bsearch_lower_boundary (a_run_b_index m (p :: rest) (n + 1)) 0 (a_run_b m).length
      __bsearch_compare = .error .out_of_bounds := by
  refine bsearch_lower_boundary_overflow _ _ _ (by rw [a_run_b_length]; omega)
    (by rw [a_run_b_length]; exact h31) ?_
  intro i h0 hi
  rw [a_run_b_length] at hi
  exact a_run_b_probe m p rest n hp i h0 (by omega)

theorem a_run_b_upper_boundary_faults (m p : Nat) (rest : List Nat) (n : Nat) (hp : 97 < p)
    (h30 : 2 ^ 30 ≤ m) (h31 : m + 1 < 2 ^ 31) :
    __bsearch_upper_boundary (a_run_b_index m (p :: rest) (n + 1)) 0 (a_run_b m).length
      __bsearch_compare = .error .out_of_bounds := by
  refine bsearch_upper_boundary_overflow _ _ _ (by rw [a_run_b_length]; omega)
    (by rw [a_run_b_length]; exact h31) ?_
  intro i h0 hi
  rw [a_run_b_length] at hi
  obtain ⟨item, c, h1, h2, h3⟩ := a_run_b_probe m p rest n hp i h0 (by omega)
  exact ⟨item, c, h1, h2, le_of_lt h3⟩

theorem a_run_b_first_faults (m p : Nat) (rest : List Nat) (n : Nat) (hp : 97 < p)
    (h30 : 2 ^ 30 ≤ m) (h31 : m + 1 < 2 ^ 31) :
    __bsearch_first (a_run_b_index m (p :: rest) (n + 1)) 0 (a_run_b m).length
      __bsearch_compare = .error .out_of_bounds := by
  rw [__bsearch_first, a_run_b_lower_boundary_faults m p rest n hp h30 h31]

theorem a_run_b_last_faults (m p : Nat) (rest : List Nat) (n : Nat) (hp : 97 < p)
    (h30 : 2 ^ 30 ≤ m) (h31 : m + 1 < 2 ^ 31) :
    __bsearch_last (a_run_b_index m (p :: rest) (n + 1)) 0 (a_run_b m).length
      __bsearch_compare = .error .out_of_bounds := by
  rw [__bsearch_last, a_run_b_upper_boundary_faults m p rest n hp h30 h31]

theorem a_run_b_search_faults (m p : Nat) (pat : List Nat) (psz : Nat) (hp : 97 < p)
    (h30 : 2 ^ 30 ≤ m) (h31 : m + 1 < 2 ^ 31) :
    suffixarray_search (a_run_b_index m pat psz) ([p] ++ [0]) = .error .out_of_bounds := by
  have hp0 : p ≠ 0 := by omega
  have hs : strlen ([p] ++ [0]) = .ok 1 := by simp [strlen, hp0]
  have hf := a_run_b_first_faults m p [0] 0 hp h30 h31
  rw [a_run_b_length] at hf
  have hst : ({ a_run_b_index m pat psz with pattern := [p] ++ [0], pattern_size := 1 } :
      SuffixArrayData) = a_run_b_index m (p :: [0]) (0 + 1) := rfl
  simp only [suffixarray_search, hs, hst, __bsearch]
  have hsz : (a_run_b_index m pat psz).size = ((m + 1 : Nat) : Int) := rfl
  rw [hsz, hf]

theorem a_run_b_has_pattern (m p : Nat) : has_pattern (a_run_b_index m [p, 0] 1) [p] :=
  ⟨rfl, rfl⟩

theorem a_run_b_ranks_in_range (m : Nat) :
    (a_run_b_ranks m).length = (a_run_b m).length ∧
      entries_in_range (a_run_b_ranks m) (a_run_b m).length :=
  ⟨by rw [a_run_b_ranks_length, a_run_b_length],
    is_permutation_in_range _ _ (a_run_b_is_permutation m)⟩

theorem lower_boundary_cursors_mem_self (d : SuffixArrayData) (fn : bsearch_compare_fn)
    (fuel : Nat) (lower upper : Int) :
    (lower, upper) ∈ lower_boundary_cursors d fn fuel lower upper := by
  cases fuel with
  | zero => simp [lower_boundary_cursors]
  | succ fuel =>
    simp only [lower_boundary_cursors]
    split_ifs <;> (try split) <;> (try split) <;> (try split_ifs) <;> simp

/-- For `N ≤ 2 ^ 30 + 1`, while the probes below rank `N - 1` are negative the
lower cursor climbs, through sums that fit, until the cursors are
`(N - 2, N)`. -/
theorem lower_boundary_cursors_all_negative (d : SuffixArrayData) (fn : bsearch_compare_fn)
    (N : Int) (hN : N ≤ 1073741825)
    (hp : ∀ i : Int, 0 ≤ i → i < N - 1 →
      ∃ item c, ipoint_at d i = .ok item ∧ fn d item = .ok c ∧ c < 0)
    (fuel : Nat) (lower : Int) (hl : -1 ≤ lower) (hlu : lower + 2 ≤ N)
    (hf : N - lower ≤ fuel + 1) :
    (N - 2, N) ∈ lower_boundary_cursors d fn fuel lower N := by
  induction fuel generalizing lower with
  | zero => omega
  | succ fuel ih =>
    by_cases hlast : lower = N - 2
    · rw [hlast]
      exact lower_boundary_cursors_mem_self _ _ _ _ _
    · have he : lower + 1 ≠ N := by omega
      have hm := midpoint_between lower N hl (by omega)
      have hw : int32_wrap (lower + N) = lower + N :=
        int32_wrap_of_fits _ (by omega) (by omega)
      have hm2 : Int.tdiv (lower + N) 2 + 2 ≤ N := by
        rw [Int.tdiv_eq_ediv (by omega) (by omega)]
        omega
      obtain ⟨item, c, hi, hc, hneg⟩ := hp (Int.tdiv (lower + N) 2) (by omega) (by omega)
      simp only [lower_boundary_cursors, hw, ne_eq, he, not_false_eq_true, if_true, hi, hc,
        hneg]
      exact List.mem_cons_of_mem _ (ih _ (by omega) hm2 (by omega))

/-- On the index of `a_run_b (2 ^ 30)` with the pattern `"b"` the lower-boundary
pass reaches a cursor whose midpoint, the half of the wrapped sum, is
negative. -/
theorem a_run_b_negative_midpoint (m : Nat) (hm : m = 1073741824) :
    ∃ c ∈ lower_boundary_trace (a_run_b_index m [98, 0] 1) 0 (a_run_b m).length
        __bsearch_compare,
      c.1 + 1 ≠ c.2 ∧ Int.tdiv (int32_wrap (c.1 + c.2)) 2 < 0 := by
  have hlen : (((a_run_b m).length : Nat) : Int) = 1073741825 := by
    rw [a_run_b_length]
    omega
  refine ⟨(((a_run_b m).length : Int) - 2, ((a_run_b m).length : Int)), ?_, ?_, ?_⟩
  · rw [lower_boundary_trace, trace_fuel]
    refine lower_boundary_cursors_all_negative _ _ _ (by omega) ?_ _ (-1) (le_refl _)
      (by omega) (by omega)
    intro i h0 hi
    exact a_run_b_probe m 98 [0] 0 (by norm_num) i h0 (by omega)
  · simp only [hlen]
    norm_num
  · have hw : int32_wrap ((1073741825 : Int) - 2 + 1073741825) = -2147483648 := by
      unfold int32_wrap
      omega
    simp only [hlen, hw]
    decide

theorem plain_index_length (N : Nat) : (plain_index N).ipoint.length = N := by
  simp [plain_index]

theorem plain_index_probes (N : Nat) (cmp : SuffixArrayData → Int → Int) :
    ∀ i : Int, 0 ≤ i → i < (N : Int) →
      ∃ item, ipoint_at (plain_index N) i = .ok item ∧
        fn_of_outcomes cmp (plain_index N) item = .ok (cmp (plain_index N) item) := by
  intro i h0 hN
  have hlen : (plain_index N).ipoint.length = N := plain_index_length N
  exact ⟨_, ipoint_at_rank (plain_index N) i h0 (by omega), rfl⟩

theorem plain_index_negative_probes (N : Nat) (c : Int) (hc : c < 0) :
    ∀ i : Int, 0 ≤ i → i < (N : Int) - 1 →
      ∃ item c0, ipoint_at (plain_index N) i = .ok item ∧
        fn_of_outcomes (fun _ _ => c) (plain_index N) item = .ok c0 ∧ c0 < 0 := by
  intro i h0 hi
  obtain ⟨item, h1, h2⟩ := plain_index_probes N (fun _ _ => c) i h0 (by omega)
  exact ⟨item, c, h1, h2, hc⟩

/-- On `2 ^ 30 + 1` index points with every outcome negative the lower-boundary
loop reaches the cursor `(N - 2, N)`, whose wrapped sum has the half
`-2 ^ 30`; the read of `ipoint` there is outside the array, and the loop ends
in it whatever its fuel. -/
theorem plain_index_loop_faults (N : Nat) (hN : N = 1073741825) :
    ((N : Int) - 2, (N : Int)) ∈
        lower_boundary_trace (plain_index N) 0 N (fn_of_outcomes fun _ _ => -1) ∧
      ((N : Int) - 2) + 1 ≠ (N : Int) ∧
      Int.tdiv (int32_wrap (((N : Int) - 2) + (N : Int))) 2 = -1073741824 ∧
      ipoint_at (plain_index N) (-1073741824) = .error .out_of_bounds ∧
      ∀ k, lower_boundary_loop (plain_index N) (fn_of_outcomes fun _ _ => -1) (N + 1 + k)
        (-1) N = .error .out_of_bounds := by
  have hN2 : (N : Int) = 1073741825 := by omega
  have hp := plain_index_negative_probes N (-1) (by decide)
  refine ⟨?_, by omega, ?_, by simp [ipoint_at], ?_⟩
  · rw [lower_boundary_trace, trace_fuel]
    exact lower_boundary_cursors_all_negative _ _ _ (by omega) hp _ (-1) (le_refl _)
      (by omega) (by omega)
  · have hw : int32_wrap ((1073741825 : Int) - 2 + 1073741825) = -2147483648 := by
      unfold int32_wrap
      omega
    rw [hN2, hw]
    decide
  · intro k
    exact lower_boundary_loop_overflow _ _ N (by omega) (by omega) hp _ (-1) (le_refl _)
      (by omega) (by push_cast; omega)

/-! ## The ranked comparison (C8) -/

/-- C8. Ranked comparison: for a text `T` stored with a terminating zero byte
(and possibly containing zero bytes), an offset `o` with `0 ≤ o < N` and a
pattern `P` without a zero byte, `__bsearch_compare` returns a value whose sign
is the byte-wise lexicographic comparison of `T[o : min (o + m) N]` with `P` in
which a proper prefix is less; the value is zero exactly when `o + m ≤ N` and
`T[o : o + m] = P`. -/
theorem bsearch_compare_refines_ranked_comparison (d : SuffixArrayData) (T P : List Nat)
    (o : Int) (hd : d.text = T ++ [0]) (hpat : has_pattern d P) (hP : 0 ∉ P)
    (h0 : 0 ≤ o) (hN : o < T.length) :
    ∃ c, __bsearch_compare d o = .ok c ∧
      Int.sign c = lex_compare ((T.drop o.toNat).take (min P.length (T.length - o.toNat))) P ∧
      Int.sign c = ranked_comparison T o P ∧
      (c = 0 ↔ o + P.length ≤ T.length ∧ (T.drop o.toNat).take P.length = P) := by
  obtain ⟨c, hc, hs⟩ := bsearch_compare_sign d T P o hd hpat hP h0 (le_of_lt hN)
  refine ⟨c, hc, ?_, hs, ?_⟩
  · rw [hs, ranked_comparison, suffix_at]
    congr 1
    rw [List.take_eq_take]
    simp
  · rw [← sign_zero_iff, hs, ranked_comparison_eq_zero_iff]
    constructor
    · intro h
      exact ⟨begins_with_length T o P h0 (le_of_lt hN) h, h⟩
    · intro h
      exact h.2

/-- C8, at a concrete input: offset `4` of `"abracadabra"` against `"ca"`. -/
theorem bsearch_compare_refines_ranked_comparison_witness :
    ∃ c, __bsearch_compare (abracadabra_index [99, 97, 0] 2) 4 = .ok c ∧
      Int.sign c = lex_compare
        ((abracadabra.drop (4 : Int).toNat).take
          (min [99, 97].length (abracadabra.length - (4 : Int).toNat))) [99, 97] ∧
      Int.sign c = ranked_comparison abracadabra 4 [99, 97] ∧
      (c = 0 ↔ (4 : Int) + ([99, 97] : List Nat).length ≤ abracadabra.length ∧
        (abracadabra.drop (4 : Int).toNat).take [99, 97].length = [99, 97]) :=
  bsearch_compare_refines_ranked_comparison (abracadabra_index [99, 97, 0] 2) abracadabra
    [99, 97] 4 rfl ⟨rfl, rfl⟩ (by decide) (by decide) (by decide)


/-! ## The documented scenarios (C3, C4) -/

/-- C3, as stated, fails: for the text `"abracadabra"` with the suffix array
`[10, 7, 0, 3, 5, 8, 1, 4, 6, 9, 2]` it is not the case that the
first-occurrence query for `"abra"` returns offset `0` and the last-occurrence
variant returns offset `7`. -/
theorem abra_first_zero_last_seven_fails :
    ¬ ((∃ s, suffixarray_search (abracadabra_index [] 0) abra_cstr = .ok (0, s)) ∧
       (∃ r, __bsearch_last (abracadabra_index abra_cstr 4) 0 11 __bsearch_compare = .ok r ∧
          ipoint_at (abracadabra_index abra_cstr 4) r = .ok 7)) := by
  rintro ⟨⟨s, hs⟩, _⟩
  have h : suffixarray_search (abracadabra_index [] 0) abra_cstr
      = .ok (7, abracadabra_index abra_cstr 4) := rfl
  rw [h] at hs
  injection hs with hs
  injection hs with h1 _
  exact absurd h1 (by decide)

/-- C3, amended: for the text `"abracadabra"` with the suffix array
`[10, 7, 0, 3, 5, 8, 1, 4, 6, 9, 2]` the first-occurrence query
`suffixarray_search` for `"abra"` returns offset `7`, the offset stored at the
rank `1` that `__bsearch_first(0, 11)` returns, and the last-occurrence variant
returns offset `0`, the offset stored at the rank `2` that
`__bsearch_last(0, 11)` returns. -/
theorem abra_first_seven_last_zero (pat : List Nat) (psz : Nat) :
    suffixarray_search (abracadabra_index pat psz) abra_cstr
        = .ok (7, abracadabra_index abra_cstr 4) ∧
      __bsearch_first (abracadabra_index abra_cstr 4) 0 11 __bsearch_compare = .ok 1 ∧
      ipoint_at (abracadabra_index abra_cstr 4) 1 = .ok 7 ∧
      __bsearch_last (abracadabra_index abra_cstr 4) 0 11 __bsearch_compare = .ok 2 ∧
      ipoint_at (abracadabra_index abra_cstr 4) 2 = .ok 0 :=
  ⟨rfl, rfl, rfl, rfl, rfl⟩

/-- C4. The documented use case: `[10, 7, 0, 3, 5, 8, 1, 4, 6, 9, 2]` is a
permutation of `0 .. 10` that satisfies the sort invariant for the text
`"abracadabra"`, and on the index made of the two `suffixarray_search` returns
`4` for the pattern `"ca"` and `-1` for the pattern `"xyz"`. -/
theorem abracadabra_use_case :
    is_permutation abracadabra_ipoint 11 ∧
      sort_invariant abracadabra abracadabra_ipoint ∧
      (∀ pat psz, suffixarray_initialize abracadabra (some abracadabra_ipoint) pat psz
        = some (abracadabra_index pat psz)) ∧
      (∀ pat psz, is_index (abracadabra_index pat psz) abracadabra abracadabra_ipoint) ∧
      (∀ pat psz, suffixarray_search (abracadabra_index pat psz) ca_cstr
        = .ok (4, abracadabra_index ca_cstr 2)) ∧
      (∀ pat psz, suffixarray_search (abracadabra_index pat psz) xyz_cstr
        = .ok (-1, abracadabra_index xyz_cstr 3)) := by
  refine ⟨?_, ?_, fun _ _ => rfl, fun _ _ => ⟨rfl, rfl, rfl⟩, fun _ _ => rfl, fun _ _ => rfl⟩
  · unfold is_permutation
    decide
  · decide

/-! ## The empty text (C10) -/

theorem strlen_of_terminated (P : List Nat) : ∃ n, strlen (P ++ [0]) = .ok n := by
  induction P with
  | nil => exact ⟨0, by simp [strlen]⟩
  | cons p ps ih =>
    obtain ⟨n, hn⟩ := ih
    by_cases hp : p = 0
    · exact ⟨0, by simp [strlen, hp]⟩
    · exact ⟨n + 1, by simp [strlen, hp, hn]⟩

/-- C10. Empty-text law: on a record of size `0` the first-occurrence query
and the last-occurrence query return `-1` for every comparison function, the
one that faults at every call included, and whatever the arrays hold, so no
comparison and no array lookup is performed; `suffixarray_search` returns `-1`
for every pattern, the empty one included. -/
theorem empty_text_law (d : SuffixArrayData) (hsize : d.size = 0) :
    (∀ fn : bsearch_compare_fn,
      __bsearch_first d 0 0 fn = .ok (-1) ∧ __bsearch_last d 0 0 fn = .ok (-1)) ∧
    (∀ P : List Nat, ∃ s, suffixarray_search d (P ++ [0]) = .ok (-1, s)) := by
  have hfirst : ∀ (e : SuffixArrayData) (fn : bsearch_compare_fn), e.size = 0 →
      __bsearch_first e 0 0 fn = .ok (-1) := by
    intro e fn he
    simp [__bsearch_first, __bsearch_lower_boundary, lower_boundary_loop, he]
  refine ⟨fun fn => ⟨hfirst d fn hsize, ?_⟩, ?_⟩
  · simp [__bsearch_last, __bsearch_upper_boundary, upper_boundary_loop]
  · intro P
    obtain ⟨n, hn⟩ := strlen_of_terminated P
    refine ⟨{ d with pattern := P ++ [0], pattern_size := n }, ?_⟩
    have h := hfirst { d with pattern := P ++ [0], pattern_size := n } __bsearch_compare hsize
    simp only [hsize] at h
    simp [suffixarray_search, hn, __bsearch, hsize, h]

/-- C10, at a concrete input: the record built from the empty text, with the
faulting comparison function and with the empty pattern. -/
theorem empty_text_law_witness :
    (⟨[0], [], 0, [], 0⟩ : SuffixArrayData).size = 0 ∧
      __bsearch_first ⟨[0], [], 0, [], 0⟩ 0 0 faulting_fn = .ok (-1) ∧
      __bsearch_last ⟨[0], [], 0, [], 0⟩ 0 0 faulting_fn = .ok (-1) ∧
      ∃ s, suffixarray_search ⟨[0], [], 0, [], 0⟩ ([] ++ [0]) = .ok (-1, s) :=
  ⟨rfl, ((empty_text_law ⟨[0], [], 0, [], 0⟩ rfl).1 faulting_fn).1,
    ((empty_text_law ⟨[0], [], 0, [], 0⟩ rfl).1 faulting_fn).2,
    (empty_text_law ⟨[0], [], 0, [], 0⟩ rfl).2 []⟩


/-! ## The empty pattern (C9) -/

/-- While no probe is negative the loop of `__bsearch_lower_boundary` keeps
`lower = -1`, whose sum with any `upper` of the range of `int` fits, and it
returns `0`. -/
theorem lower_boundary_loop_nonneg (d : SuffixArrayData) (fn : bsearch_compare_fn) (N : Int)
    (hN : N ≤ 2147483647)
    (hp : ∀ i : Int, 0 ≤ i → i < N →
      ∃ item c, ipoint_at d i = .ok item ∧ fn d item = .ok c ∧ 0 ≤ c)
    (fuel : Nat) (upper : Int) (h0 : 0 ≤ upper) (hu : upper ≤ N) (hf : upper ≤ fuel) :
    lower_boundary_loop d fn fuel (-1) upper = .ok 0 := by
  induction fuel generalizing upper with
  | zero =>
    have he : upper = 0 := by omega
    subst he
    simp [lower_boundary_loop]
  | succ fuel ih =>
    by_cases he : upper = 0
    · subst he
      simp [lower_boundary_loop]
    · have hm := midpoint_between (-1) upper (le_refl _) (by omega)
      have hw : int32_wrap (-1 + upper) = -1 + upper :=
        int32_wrap_of_fits _ (by omega) (by omega)
      obtain ⟨item, c, hi, hc, hc0⟩ := hp (Int.tdiv (-1 + upper) 2) (by omega) (by omega)
      have hne : (-1 : Int) + 1 ≠ upper := by omega
      have hcn : ¬ c < 0 := by omega
      have hstep : lower_boundary_loop d fn (fuel + 1) (-1) upper
          = lower_boundary_loop d fn fuel (-1) (Int.tdiv (-1 + upper) 2) := by
        simp only [lower_boundary_loop, hw, hi, hc, hne, hcn, if_true, if_false, ne_eq,
          not_false_eq_true]
      rw [hstep]
      exact ih _ (by omega) (by omega) (by omega)

/-- On `N` index points with `2 ^ 30 < N < 2 ^ 31` and pattern length `0` the
lower boundary is `0` and the upper-boundary pass ends in a read outside
`ipoint`. -/
theorem plain_index_empty_pattern (N : Nat) (h30 : 2 ^ 30 < N) (h31 : N < 2 ^ 31) :
    __bsearch_lower_boundary (plain_index N) 0 N __bsearch_compare = .ok 0 ∧
      __bsearch_upper_boundary (plain_index N) 0 N __bsearch_compare
        = .error .out_of_bounds := by
  have h2 : (2 : Nat) ^ 31 = 2147483648 := by norm_num
  have hcmp : ∀ item, __bsearch_compare (plain_index N) item = .ok 0 := by
    intro item
    simp [__bsearch_compare, plain_index, strncmp]
  have hlen := plain_index_length N
  constructor
  · rw [__bsearch_lower_boundary, trace_fuel]
    exact lower_boundary_loop_nonneg _ __bsearch_compare (N : Int) (by omega)
      (fun i h0 hi => ⟨_, 0, ipoint_at_rank _ i h0 (by omega), hcmp _, le_refl _⟩)
      (N + 1) (N : Int) (by omega) (le_refl _) (by omega)
  · exact bsearch_upper_boundary_overflow _ _ N h30 h31
      (fun i h0 hi => ⟨_, 0, ipoint_at_rank _ i h0 (by omega), hcmp _, le_refl _⟩)

/-- C9, as stated, fails: on `2 ^ 30 + 1` index points with pattern length `0`
`__bsearch_lower_boundary(0, N)` returns `0` but `__bsearch_upper_boundary(0, N)`
does not return `N`: every comparison is `0`, `lower` climbs to `N - 2`, the
32-bit sum `lower + upper` wraps and the read of `ipoint` at the negative
midpoint is outside the array. -/
theorem empty_pattern_upper_boundary_fails_past_bound :
    (1073741825 : Nat) = 2 ^ 30 + 1 ∧
    (plain_index 1073741825).size = ((1073741825 : Nat) : Int) ∧
    (plain_index 1073741825).ipoint.length = 1073741825 ∧
    (plain_index 1073741825).pattern_size = 0 ∧
    __bsearch_lower_boundary (plain_index 1073741825) 0 ((1073741825 : Nat) : Int)
      __bsearch_compare = .ok 0 ∧
    __bsearch_upper_boundary (plain_index 1073741825) 0 ((1073741825 : Nat) : Int)
      __bsearch_compare = .error .out_of_bounds :=
  ⟨by norm_num, rfl, plain_index_length _, rfl,
    plain_index_empty_pattern 1073741825 (by norm_num) (by norm_num)⟩

/-- C9, amended. Empty-pattern law: on a record with `N` index points, `N` in the range
of `int`, sorted or not and whatever they hold, and pattern length `0`, the
ranked comparison is `0` at every item and `__bsearch_lower_boundary(0, N)`
returns `0`, and `__bsearch_upper_boundary(0, N)` returns `N` when
`N ≤ 2 ^ 30`; on an index of a non-empty text `suffixarray_search` for the
empty pattern returns the offset stored at rank `0`, which is an offset of the
text and not `-1`. -/
theorem empty_pattern_law :
    (∀ (d : SuffixArrayData) (N : Nat), d.size = N → d.ipoint.length = N →
      d.pattern_size = 0 → N < 2 ^ 31 →
        (∀ item, __bsearch_compare d item = .ok 0) ∧
        __bsearch_lower_boundary d 0 N __bsearch_compare = .ok 0 ∧
        (N ≤ 2 ^ 30 → __bsearch_upper_boundary d 0 N __bsearch_compare = .ok (N : Int))) ∧
    (∀ (d : SuffixArrayData) (T : List Nat) (SA : List Int), is_index d T SA →
      SA.length = T.length → entries_in_range SA T.length → 0 < T.length →
      T.length < 2 ^ 31 →
        suffixarray_search d [0] = .ok (offset_at_rank SA 0, query_state d []) ∧
        0 ≤ offset_at_rank SA 0 ∧ offset_at_rank SA 0 < T.length ∧
        offset_at_rank SA 0 ≠ -1) := by
  have h31 : (2 : Nat) ^ 31 = 2147483648 := by norm_num
  have hcmp : ∀ (d : SuffixArrayData), d.pattern_size = 0 →
      ∀ item, __bsearch_compare d item = .ok 0 := by
    intro d hm item
    simp [__bsearch_compare, hm, strncmp]
  have hlow : ∀ (d : SuffixArrayData) (N : Nat), d.ipoint.length = N →
      d.pattern_size = 0 → N < 2 ^ 31 →
        __bsearch_lower_boundary d 0 N __bsearch_compare = .ok 0 := by
    intro d N hlen hm hN
    have hfuel : ((N : Int) - (0 - 1)).toNat = N + 1 := by omega
    rw [__bsearch_lower_boundary, hfuel]
    exact lower_boundary_loop_nonneg d __bsearch_compare (N : Int) (by omega)
      (fun i h0 hi => ⟨_, 0, ipoint_at_rank d i h0 (by omega), hcmp d hm _, le_refl _⟩)
      (N + 1) (N : Int) (by omega) (le_refl _) (by omega)
  have hup : ∀ (d : SuffixArrayData) (N : Nat), d.ipoint.length = N →
      d.pattern_size = 0 → N ≤ 2 ^ 30 →
        __bsearch_upper_boundary d 0 N __bsearch_compare = .ok (N : Int) := by
    intro d N hlen hm hN
    have hg : ∀ i : Int, 0 ≤ i → i < (N : Int) →
        ∃ item, ipoint_at d i = .ok item ∧ __bsearch_compare d item = .ok ((fun _ => 0) i) :=
      fun i h0 hN => ⟨_, ipoint_at_rank d i h0 (by omega), hcmp d hm _⟩
    obtain ⟨r, hres, h1, h2, h3, h4⟩ := upper_boundary_loop_exact_exit d __bsearch_compare
      (N : Int) (fun _ => 0) hg (N + 1) (-1) (N : Int) (le_refl _) (by omega) (le_refl _)
      (by omega)
    have hrN : r = N := by
      rcases h4 with h4 | h4
      · exact h4
      · exact absurd h4 (by decide)
    rw [bsearch_upper_boundary_eq d _ N hN]
    rw [hrN] at hres
    exact hres
  refine ⟨fun d N _ hlen hm hN => ⟨hcmp d hm, hlow d N hlen hm hN, hup d N hlen hm⟩, ?_⟩
  intro d T SA hd hlen hr hpos hT
  have hq : is_index (query_state d []) T SA := query_state_is_index d T [] SA hd
  have hv := entries_in_range_getD SA T.length 0 hr (by omega)
  have hl := hlow (query_state d []) T.length (by rw [hq.2.1]; exact hlen) rfl hT
  have hc := hcmp (query_state d []) rfl (offset_at_rank SA 0)
  have hi : ipoint_at (query_state d []) 0 = .ok (offset_at_rank SA 0) := by
    rw [ipoint_at_rank (query_state d []) 0 (le_refl _) (by rw [hq.2.1]; omega), hq.2.1]
    rfl
  have hfirst : __bsearch_first (query_state d []) 0 (query_state d []).size
      __bsearch_compare = .ok 0 := by
    have hs : (query_state d []).size = T.length := hq.2.2
    have hne : ¬ ((T.length : Int) ≤ 0) := by omega
    rw [hs]
    simp [__bsearch_first, hl, hs, hne, hi, hc]
  have hsearch := suffixarray_search_of_first d [] (by simp) 0 hfirst
  simp only [List.nil_append, lt_irrefl, if_false, hi] at hsearch
  exact ⟨hsearch, hv.1, hv.2, by omega⟩

/-- C9 amended, at a concrete input: the index of `"abracadabra"`. -/
theorem empty_pattern_law_witness :
    (__bsearch_lower_boundary (abracadabra_index [0] 0) 0 (11 : Nat) __bsearch_compare = .ok 0 ∧
      __bsearch_upper_boundary (abracadabra_index [0] 0) 0 (11 : Nat) __bsearch_compare
        = .ok ((11 : Nat) : Int)) ∧
    suffixarray_search (abracadabra_index [] 0) [0]
      = .ok (offset_at_rank abracadabra_ipoint 0, query_state (abracadabra_index [] 0) []) :=
  ⟨⟨(empty_pattern_law.1 (abracadabra_index [0] 0) 11 rfl rfl rfl (by norm_num)).2.1,
      (empty_pattern_law.1 (abracadabra_index [0] 0) 11 rfl rfl rfl (by norm_num)).2.2
        (by norm_num)⟩,
    (empty_pattern_law.2 (abracadabra_index [] 0) abracadabra abracadabra_ipoint
      ⟨rfl, rfl, rfl⟩ rfl (by decide) (by decide) (by decide)).1⟩


/-! ## The first-occurrence query (C1, C2) -/

/-- The result of `suffixarray_search` in terms of the lower boundary `r`: the
offset stored at rank `r` when `r < N` and the suffix there begins with the
pattern, and `-1` otherwise. -/
theorem suffixarray_search_of_boundary (d : SuffixArrayData) (T P : List Nat)
    (SA : List Int) (hd : is_index d T SA) (hP : 0 ∉ P) (hlen : SA.length = T.length)
    (hr : entries_in_range SA T.length) (r : Nat)
    (hres : __bsearch_lower_boundary (query_state d P) 0 (query_state d P).size
      __bsearch_compare = .ok (r : Int)) :
    suffixarray_search d (P ++ [0]) =
      .ok (if r < T.length ∧ rank_comparison T SA P r = 0 then offset_at_rank SA r else -1,
        query_state d P) := by
  have hq := query_state_is_index d T P SA hd
  have hfirst := bsearch_first_of_boundary (query_state d P) T P SA hq
    (query_state_has_pattern d P) hP hlen hr r hres
  rw [suffixarray_search_of_first d P hP _ hfirst]
  by_cases hc : r < T.length ∧ rank_comparison T SA P r = 0
  · have hi : ipoint_at (query_state d P) (r : Int) = .ok (offset_at_rank SA r) := by
      rw [ipoint_at_rank (query_state d P) r (by omega) (by rw [hq.2.1]; omega), hq.2.1]
      simp [offset_at_rank]
    have hnn : ¬ ((r : Int) < 0) := by omega
    simp only [hc, and_self, if_true, hnn, if_false, hi]
  · simp [hc]

theorem rank_comparison_eq_zero_iff (T : List Nat) (SA : List Int) (P : List Nat) (i : Nat) :
    rank_comparison T SA P i = 0 ↔ begins_with T (offset_at_rank SA i) P :=
  ranked_comparison_eq_zero_iff T _ P

/-- An occurrence of the pattern is the offset of some rank, and the ranked
comparison at that rank is zero. -/
theorem occurs_at_rank (T P : List Nat) (SA : List Int) (k : Int)
    (hperm : is_permutation SA T.length) (hocc : occurs_at T P k) :
    ∃ j, j < T.length ∧ offset_at_rank SA j = k ∧ rank_comparison T SA P j = 0 := by
  obtain ⟨j, hj, hjk⟩ := is_permutation_rank_of SA T.length hperm k hocc.1 hocc.2.1
  rw [is_permutation_length SA T.length hperm] at hj
  refine ⟨j, hj, hjk, ?_⟩
  rw [rank_comparison_eq_zero_iff, hjk]
  exact hocc.2.2

/-- C1, as stated, fails: the text of `2 ^ 30` bytes `"a"` followed by `"b"` has
length `2 ^ 30 + 1`, its suffix array is a sorted permutation, the pattern
`"b"` occurs in it at offset `2 ^ 30`, and the search for `"b"` does not return
an offset: `lower` climbs to `N - 2`, the 32-bit sum `lower + upper` wraps and
the read of `ipoint` at the negative midpoint is outside the array. -/
theorem suffixarray_search_misses_occurrence_past_bound :
    (a_run_b 1073741824).length = 2 ^ 30 + 1 ∧
    is_index (a_run_b_index 1073741824 [] 0) (a_run_b 1073741824) (a_run_b_ranks 1073741824) ∧
    is_permutation (a_run_b_ranks 1073741824) (a_run_b 1073741824).length ∧
    sort_invariant (a_run_b 1073741824) (a_run_b_ranks 1073741824) ∧
    0 ∉ ([98] : List Nat) ∧
    occurs_at (a_run_b 1073741824) [98] ((1073741824 : Nat) : Int) ∧
    suffixarray_search (a_run_b_index 1073741824 [] 0) ([98] ++ [0])
      = .error .out_of_bounds :=
  ⟨by rw [a_run_b_length]; norm_num, a_run_b_is_index _ _ _, a_run_b_is_permutation _,
    a_run_b_sort_invariant _, by decide, a_run_b_occurs _,
    a_run_b_search_faults _ _ _ _ (by norm_num) (by norm_num) (by norm_num)⟩

/-- C1, amended. Occurrence correctness of `suffixarray_search`: for every
text `T` of length `N ≤ 2 ^ 30`, every array `SA` that is a permutation of
`0 .. N-1` and satisfies the sort invariant, and every pattern `P` without a
zero byte that occurs in `T` at some offset `k`, the search returns an offset `o` that is not `-1` and
satisfies `0 ≤ o`, `o + len P ≤ N` and `T[o : o + len P] = P`. -/
theorem suffixarray_search_finds_occurrence (d : SuffixArrayData) (T P : List Nat)
    (SA : List Int) (k : Int) (hd : is_index d T SA) (hN : T.length ≤ 2 ^ 30)
    (hperm : is_permutation SA T.length) (hsort : sort_invariant T SA) (hP : 0 ∉ P)
    (hocc : occurs_at T P k) :
    ∃ o : Int, suffixarray_search d (P ++ [0]) = .ok (o, query_state d P) ∧ o ≠ -1 ∧
      0 ≤ o ∧ o + P.length ≤ T.length ∧ (T.drop o.toNat).take P.length = P := by
  have hlen := is_permutation_length SA T.length hperm
  have hr := is_permutation_in_range SA T.length hperm
  have hq := query_state_is_index d T P SA hd
  obtain ⟨r, hres, hrN, hbelow, habove⟩ := lower_boundary_sorted (query_state d P) T P SA hq
    (query_state_has_pattern d P) hP hlen hr hN hsort
  obtain ⟨j, hj, _, hzero⟩ := occurs_at_rank T P SA k hperm hocc
  have hrj : r ≤ j := by
    by_contra hlt
    have := hbelow j (by omega)
    omega
  have hrz : rank_comparison T SA P r = 0 := by
    have h1 := habove r (le_refl _) (by omega)
    have h2 := rank_comparison_mono T SA P hsort r j hrj (by omega)
    omega
  have hsearch := suffixarray_search_of_boundary d T P SA hd hP hlen hr r hres
  have hc : r < T.length ∧ rank_comparison T SA P r = 0 := ⟨by omega, hrz⟩
  simp only [hc, and_self, if_true] at hsearch
  have hv := entries_in_range_getD SA T.length r hr (by omega)
  have hb := (rank_comparison_eq_zero_iff T SA P r).1 hrz
  exact ⟨offset_at_rank SA r, hsearch, by omega, hv.1,
    begins_with_length T _ P hv.1 (le_of_lt hv.2) hb, hb⟩

/-- C1 amended, at a concrete input: the pattern `"ca"`, which occurs at offset `4` of
`"abracadabra"`. -/
theorem suffixarray_search_finds_occurrence_witness :
    occurs_at abracadabra [99, 97] 4 ∧
    ∃ o : Int, suffixarray_search (abracadabra_index [] 0) ([99, 97] ++ [0])
        = .ok (o, query_state (abracadabra_index [] 0) [99, 97]) ∧ o ≠ -1 ∧
      0 ≤ o ∧ o + ([99, 97] : List Nat).length ≤ abracadabra.length ∧
      (abracadabra.drop o.toNat).take ([99, 97] : List Nat).length = [99, 97] :=
  ⟨by decide, suffixarray_search_finds_occurrence (abracadabra_index [] 0) abracadabra
    [99, 97] abracadabra_ipoint 4 ⟨rfl, rfl, rfl⟩ (by decide) (by decide) (by decide)
    (by decide) (by decide)⟩

/-- C2, as stated, fails: the pattern `"c"` occurs nowhere in the text of
`2 ^ 30` bytes `"a"` followed by `"b"`, whose array holds `2 ^ 30 + 1` entries in
range, and the search for `"c"` does not return `-1`: every probe is negative,
`lower` climbs to `N - 2`, the 32-bit sum `lower + upper` wraps and the read of
`ipoint` at the negative midpoint is outside the array. -/
theorem suffixarray_search_negative_fails_past_bound :
    (a_run_b 1073741824).length = 2 ^ 30 + 1 ∧
    is_index (a_run_b_index 1073741824 [] 0) (a_run_b 1073741824) (a_run_b_ranks 1073741824) ∧
    (a_run_b_ranks 1073741824).length = (a_run_b 1073741824).length ∧
    entries_in_range (a_run_b_ranks 1073741824) (a_run_b 1073741824).length ∧
    0 ∉ ([99] : List Nat) ∧
    (∀ k, ¬ occurs_at (a_run_b 1073741824) [99] k) ∧
    suffixarray_search (a_run_b_index 1073741824 [] 0) ([99] ++ [0])
      = .error .out_of_bounds :=
  ⟨by rw [a_run_b_length]; norm_num, a_run_b_is_index _ _ _, (a_run_b_ranks_in_range _).1,
    (a_run_b_ranks_in_range _).2, by decide,
    fun k => a_run_b_no_occurrence _ 99 (by norm_num) (by norm_num) k,
    a_run_b_search_faults _ _ _ _ (by norm_num) (by norm_num) (by norm_num)⟩

/-- C2, amended. Negative correctness of `suffixarray_search`: for every text `T` of
length `N ≤ 2 ^ 30`, every array `SA` of `N` entries each in `[0, N)`, sorted or not,
and every pattern `P` without a zero byte, the search returns and its result
is `-1` or an offset at which `P` occurs; so when `P` occurs nowhere in `T` the
result is `-1`. -/
theorem suffixarray_search_negative (d : SuffixArrayData) (T P : List Nat)
    (SA : List Int) (hd : is_index d T SA) (hN : T.length ≤ 2 ^ 30)
    (hlen : SA.length = T.length) (hr : entries_in_range SA T.length) (hP : 0 ∉ P) :
    ∃ o : Int, suffixarray_search d (P ++ [0]) = .ok (o, query_state d P) ∧
      (o ≠ -1 → occurs_at T P o) ∧ ((∀ k, ¬ occurs_at T P k) → o = -1) := by
  have hq := query_state_is_index d T P SA hd
  obtain ⟨r, hres, _, _, _⟩ := lower_boundary_local (query_state d P) T P SA hq
    (query_state_has_pattern d P) hP hlen hr hN
  have hsearch := suffixarray_search_of_boundary d T P SA hd hP hlen hr r hres
  have key : ∀ o : Int,
      o = (if r < T.length ∧ rank_comparison T SA P r = 0 then offset_at_rank SA r else -1) →
      o ≠ -1 → occurs_at T P o := by
    intro o ho hne
    by_cases hc : r < T.length ∧ rank_comparison T SA P r = 0
    · simp only [hc, and_self, if_true] at ho
      have hv := entries_in_range_getD SA T.length r hr (by omega)
      rw [ho]
      exact ⟨hv.1, hv.2, (rank_comparison_eq_zero_iff T SA P r).1 hc.2⟩
    · simp only [hc, if_false] at ho
      exact absurd ho hne
  refine ⟨_, hsearch, key _ rfl, ?_⟩
  intro hnone
  by_contra hne
  exact hnone _ (key _ rfl hne)

/-- C2 amended, at a concrete input: the text `"ba"` with the unsorted array `[0, 1]`
and the pattern `"c"`. -/
theorem suffixarray_search_negative_witness :
    ¬ sort_invariant [98, 97] [0, 1] ∧
    ∃ o : Int, suffixarray_search ⟨[98, 97, 0], [0, 1], 2, [], 0⟩ ([99] ++ [0])
        = .ok (o, query_state ⟨[98, 97, 0], [0, 1], 2, [], 0⟩ [99]) ∧
      (o ≠ -1 → occurs_at [98, 97] [99] o) ∧ ((∀ k, ¬ occurs_at [98, 97] [99] k) → o = -1) :=
  ⟨by decide, suffixarray_search_negative ⟨[98, 97, 0], [0, 1], 2, [], 0⟩ [98, 97] [99] [0, 1]
    ⟨rfl, rfl, rfl⟩ (by decide) rfl (by decide) (by decide)⟩


/-! ## Which occurrence is returned (C5, C6) -/

/-- C5, as stated, fails: in the text of `2 ^ 30` bytes `"a"` followed by `"b"`,
with its sorted suffix array, the smallest rank whose suffix begins with `"b"`
is rank `2 ^ 30`, and the search for `"b"` does not return the offset stored
there: it ends in a read outside `ipoint`, at the negative midpoint that the
wrapped 32-bit sum `lower + upper` gives. -/
theorem suffixarray_search_smallest_rank_fails_past_bound :
    (a_run_b 1073741824).length = 2 ^ 30 + 1 ∧
    is_index (a_run_b_index 1073741824 [] 0) (a_run_b 1073741824) (a_run_b_ranks 1073741824) ∧
    is_permutation (a_run_b_ranks 1073741824) (a_run_b 1073741824).length ∧
    sort_invariant (a_run_b 1073741824) (a_run_b_ranks 1073741824) ∧
    0 ∉ ([98] : List Nat) ∧
    (∃ k, occurs_at (a_run_b 1073741824) [98] k) ∧
    begins_with (a_run_b 1073741824) (offset_at_rank (a_run_b_ranks 1073741824) 1073741824)
      [98] ∧
    (∀ i, i < 1073741824 →
      ¬ begins_with (a_run_b 1073741824) (offset_at_rank (a_run_b_ranks 1073741824) i) [98]) ∧
    suffixarray_search (a_run_b_index 1073741824 [] 0) ([98] ++ [0])
      = .error .out_of_bounds :=
  ⟨by rw [a_run_b_length]; norm_num, a_run_b_is_index _ _ _, a_run_b_is_permutation _,
    a_run_b_sort_invariant _, by decide, ⟨_, a_run_b_occurs _⟩, a_run_b_begins _,
    fun i hi => a_run_b_not_begins _ i hi,
    a_run_b_search_faults _ _ _ _ (by norm_num) (by norm_num) (by norm_num)⟩

/-- C5, amended. Which occurrence the first-occurrence query returns: for every valid
index of a text of length `N ≤ 2 ^ 30` and every pattern `P` without a zero
byte that occurs in `T`,
`suffixarray_search` returns the offset stored at the smallest rank `r` whose
suffix begins with `P`, and the suffix at that offset is the lexicographically
smallest suffix of `T` that begins with `P`; for `T = "aaaa"` with
`SA = [3, 2, 1, 0]` and `P = "a"` the result is `3`. -/
theorem suffixarray_search_smallest_rank :
    (∀ (d : SuffixArrayData) (T P : List Nat) (SA : List Int), is_index d T SA →
      T.length ≤ 2 ^ 30 → is_permutation SA T.length → sort_invariant T SA → 0 ∉ P →
      (∃ k, occurs_at T P k) →
        ∃ r : Nat, r < T.length ∧
          suffixarray_search d (P ++ [0]) = .ok (offset_at_rank SA r, query_state d P) ∧
          occurs_at T P (offset_at_rank SA r) ∧
          (∀ i, i < r → ¬ begins_with T (offset_at_rank SA i) P) ∧
          (∀ k, occurs_at T P k →
            lex_compare (suffix_at T (offset_at_rank SA r)) (suffix_at T k) ≤ 0)) ∧
    (∀ pat psz, suffixarray_search (aaaa_index pat psz) a_cstr
      = .ok (3, aaaa_index a_cstr 1)) := by
  refine ⟨?_, fun _ _ => rfl⟩
  intro d T P SA hd hN hperm hsort hP hex
  obtain ⟨k, hocc⟩ := hex
  have hlen := is_permutation_length SA T.length hperm
  have hr := is_permutation_in_range SA T.length hperm
  have hq := query_state_is_index d T P SA hd
  obtain ⟨r, hres, hrN, hbelow, habove⟩ := lower_boundary_sorted (query_state d P) T P SA hq
    (query_state_has_pattern d P) hP hlen hr hN hsort
  have hrank : ∀ k, occurs_at T P k →
      ∃ j, r ≤ j ∧ j < T.length ∧ offset_at_rank SA j = k ∧ rank_comparison T SA P j = 0 := by
    intro k hk
    obtain ⟨j, hj, hjk, hzero⟩ := occurs_at_rank T P SA k hperm hk
    refine ⟨j, ?_, hj, hjk, hzero⟩
    by_contra hlt
    have := hbelow j (by omega)
    omega
  obtain ⟨j, hrj, hj, _, hzero⟩ := hrank k hocc
  have hrz : rank_comparison T SA P r = 0 := by
    have h1 := habove r (le_refl _) (by omega)
    have h2 := rank_comparison_mono T SA P hsort r j hrj (by omega)
    omega
  have hsearch := suffixarray_search_of_boundary d T P SA hd hP hlen hr r hres
  have hc : r < T.length ∧ rank_comparison T SA P r = 0 := ⟨by omega, hrz⟩
  simp only [hc, and_self, if_true] at hsearch
  have hv := entries_in_range_getD SA T.length r hr (by omega)
  refine ⟨r, hc.1, hsearch, ⟨hv.1, hv.2, (rank_comparison_eq_zero_iff T SA P r).1 hrz⟩, ?_, ?_⟩
  · intro i hi hb
    have h1 := hbelow i hi
    rw [(rank_comparison_eq_zero_iff T SA P i).2 hb] at h1
    exact absurd h1 (lt_irrefl _)
  · intro k2 hk2
    obtain ⟨j2, hrj2, hj2, hjk2, _⟩ := hrank k2 hk2
    rw [← hjk2]
    exact sort_invariant_ranks T SA hsort r j2 hrj2 (by omega)

/-- C5 amended, at a concrete input: the pattern `"a"` on the index of
`"abracadabra"`, where it occurs at offset `0`. -/
theorem suffixarray_search_smallest_rank_witness :
    occurs_at abracadabra [97] 0 ∧
    ∃ r : Nat, r < abracadabra.length ∧
      suffixarray_search (abracadabra_index [] 0) ([97] ++ [0])
        = .ok (offset_at_rank abracadabra_ipoint r, query_state (abracadabra_index [] 0) [97]) ∧
      occurs_at abracadabra [97] (offset_at_rank abracadabra_ipoint r) ∧
      (∀ i, i < r → ¬ begins_with abracadabra (offset_at_rank abracadabra_ipoint i) [97]) ∧
      (∀ k, occurs_at abracadabra [97] k →
        lex_compare (suffix_at abracadabra (offset_at_rank abracadabra_ipoint r))
          (suffix_at abracadabra k) ≤ 0) :=
  ⟨by decide, suffixarray_search_smallest_rank.1 (abracadabra_index [] 0) abracadabra [97]
    abracadabra_ipoint ⟨rfl, rfl, rfl⟩ (by decide) (by decide) (by decide) (by decide)
    ⟨0, by decide⟩⟩

/-- C6, as stated, fails: the pattern `"b"` occurs in the text of `2 ^ 30` bytes
`"a"` followed by `"b"`, and on its sorted index `__bsearch_last(0, N)` returns
neither `-1` nor a rank: no probe below rank `N - 1` is positive, `lower` climbs
to `N - 2`, the 32-bit sum `lower + upper` wraps and the read of `ipoint` at
the negative midpoint is outside the array. -/
theorem bsearch_last_fails_past_bound :
    (a_run_b 1073741824).length = 2 ^ 30 + 1 ∧
    is_index (a_run_b_index 1073741824 [98, 0] 1) (a_run_b 1073741824)
      (a_run_b_ranks 1073741824) ∧
    has_pattern (a_run_b_index 1073741824 [98, 0] 1) [98] ∧
    is_permutation (a_run_b_ranks 1073741824) (a_run_b 1073741824).length ∧
    sort_invariant (a_run_b 1073741824) (a_run_b_ranks 1073741824) ∧
    0 ∉ ([98] : List Nat) ∧
    (∃ k, occurs_at (a_run_b 1073741824) [98] k) ∧
    __bsearch_last (a_run_b_index 1073741824 [98, 0] 1) 0 (a_run_b 1073741824).length
      __bsearch_compare = .error .out_of_bounds :=
  ⟨by rw [a_run_b_length]; norm_num, a_run_b_is_index _ _ _, a_run_b_has_pattern _ _,
    a_run_b_is_permutation _, a_run_b_sort_invariant _, by decide, ⟨_, a_run_b_occurs _⟩,
    a_run_b_last_faults _ 98 [0] 0 (by norm_num) (by norm_num) (by norm_num)⟩

/-- C6, amended. Last-occurrence query: for every valid index of a text of length
`N ≤ 2 ^ 30` and every pattern `P` without a zero byte, `__bsearch_last(0, N)`
returns `-1` exactly when `P` does not occur in `T`; otherwise it returns the greatest rank whose suffix begins
with `P`, and the offset stored at that rank is the offset of the
lexicographically greatest suffix of `T` that begins with `P`; for `T = "aaaa"`
with `SA = [3, 2, 1, 0]` and `P = "a"` that offset is `0`. -/
theorem bsearch_last_greatest_rank :
    (∀ (d : SuffixArrayData) (T P : List Nat) (SA : List Int), is_index d T SA →
      T.length ≤ 2 ^ 30 → has_pattern d P → is_permutation SA T.length →
      sort_invariant T SA → 0 ∉ P →
        ∃ res : Int, __bsearch_last d 0 T.length __bsearch_compare = .ok res ∧
          (res = -1 ↔ ¬ ∃ k, occurs_at T P k) ∧
          (res ≠ -1 → 0 ≤ res ∧ res < T.length ∧
            ipoint_at d res = .ok (offset_at_rank SA res.toNat) ∧
            occurs_at T P (offset_at_rank SA res.toNat) ∧
            (∀ i, res.toNat < i → i < T.length → ¬ begins_with T (offset_at_rank SA i) P) ∧
            (∀ k, occurs_at T P k →
              lex_compare (suffix_at T k) (suffix_at T (offset_at_rank SA res.toNat)) ≤ 0))) ∧
    (__bsearch_last (aaaa_index a_cstr 1) 0 4 __bsearch_compare = .ok 3 ∧
      ipoint_at (aaaa_index a_cstr 1) 3 = .ok 0) := by
  refine ⟨?_, rfl, rfl⟩
  intro d T P SA hd hN hpat hperm hsort hP
  have hlen := is_permutation_length SA T.length hperm
  have hr := is_permutation_in_range SA T.length hperm
  have hsize : d.size = T.length := hd.2.2
  obtain ⟨u, hres, huN, hbelow, habove⟩ := upper_boundary_sorted d T P SA hd hpat hP hlen hr
    hN hsort
  have hlast := bsearch_last_of_boundary d T P SA hd hpat hP hlen hr u huN hres
  rw [hsize] at hlast
  have hrank : ∀ k, occurs_at T P k →
      ∃ j, j < u ∧ offset_at_rank SA j = k ∧ rank_comparison T SA P j = 0 := by
    intro k hk
    obtain ⟨j, hj, hjk, hzero⟩ := occurs_at_rank T P SA k hperm hk
    refine ⟨j, ?_, hjk, hzero⟩
    by_contra hge
    have := habove j (by omega) hj
    omega
  by_cases hc : 0 < u ∧ rank_comparison T SA P (u - 1) = 0
  · simp only [hc, and_self, if_true] at hlast
    have hv := entries_in_range_getD SA T.length (u - 1) hr (by omega)
    have hb := (rank_comparison_eq_zero_iff T SA P (u - 1)).1 hc.2
    have he : ((u : Int) - 1).toNat = u - 1 := by omega
    refine ⟨(u : Int) - 1, hlast, ?_, ?_⟩
    · constructor
      · intro h; omega
      · intro h
        exact absurd ⟨offset_at_rank SA (u - 1), hv.1, hv.2, hb⟩ h
    · intro _
      rw [he]
      refine ⟨by omega, by omega, ?_, ⟨hv.1, hv.2, hb⟩, ?_, ?_⟩
      · rw [ipoint_at_rank d _ (by omega) (by rw [hd.2.1]; omega), hd.2.1, he]
        rfl
      · intro i hi hiN hbi
        have h1 := habove i (by omega) hiN
        rw [(rank_comparison_eq_zero_iff T SA P i).2 hbi] at h1
        exact absurd h1 (lt_irrefl _)
      · intro k hk
        obtain ⟨j, hj, hjk, _⟩ := hrank k hk
        rw [← hjk]
        exact sort_invariant_ranks T SA hsort j (u - 1) (by omega) (by omega)
  · simp only [hc, if_false] at hlast
    refine ⟨-1, hlast, ?_, fun h => absurd rfl h⟩
    constructor
    · intro _ hex
      obtain ⟨k, hk⟩ := hex
      obtain ⟨j, hj, _, hzero⟩ := hrank k hk
      apply hc
      refine ⟨by omega, ?_⟩
      have h1 := hbelow (u - 1) (by omega)
      have h2 := rank_comparison_mono T SA P hsort j (u - 1) (by omega) (by omega)
      omega
    · intro _; rfl

/-- C6 amended, at a concrete input: the pattern `"abra"` on the index of
`"abracadabra"`. -/
theorem bsearch_last_greatest_rank_witness :
    ∃ res : Int, __bsearch_last (abracadabra_index abra_cstr 4) 0 abracadabra.length
        __bsearch_compare = .ok res ∧
      (res = -1 ↔ ¬ ∃ k, occurs_at abracadabra [97, 98, 114, 97] k) ∧
      (res ≠ -1 → 0 ≤ res ∧ res < abracadabra.length ∧
        ipoint_at (abracadabra_index abra_cstr 4) res
          = .ok (offset_at_rank abracadabra_ipoint res.toNat) ∧
        occurs_at abracadabra [97, 98, 114, 97]
          (offset_at_rank abracadabra_ipoint res.toNat) ∧
        (∀ i, res.toNat < i → i < abracadabra.length →
          ¬ begins_with abracadabra (offset_at_rank abracadabra_ipoint i) [97, 98, 114, 97]) ∧
        (∀ k, occurs_at abracadabra [97, 98, 114, 97] k →
          lex_compare (suffix_at abracadabra k)
            (suffix_at abracadabra (offset_at_rank abracadabra_ipoint res.toNat)) ≤ 0)) :=
  bsearch_last_greatest_rank.1 (abracadabra_index abra_cstr 4) abracadabra [97, 98, 114, 97]
    abracadabra_ipoint ⟨rfl, rfl, rfl⟩ (by decide) ⟨rfl, rfl⟩ (by decide) (by decide)
    (by decide)


/-! ## The matching range (C7) -/

/-- A predicate that holds exactly at the positions `lb ≤ i < ub` of a list
holds at `ub - lb` of its entries. -/
theorem countP_of_interval (p : Int → Bool) (L : List Int) (lb ub : Nat) (h1 : lb ≤ ub)
    (h2 : ub ≤ L.length)
    (h : ∀ i, i < L.length → (p (L.getD i 0) = true ↔ lb ≤ i ∧ i < ub)) :
    L.countP p = ub - lb := by
  induction L generalizing lb ub with
  | nil =>
    simp only [List.length_nil] at h2
    simp
    omega
  | cons x xs ih =>
    have hx := h 0 (by simp)
    simp only [List.getD_cons_zero] at hx
    have hxs : ∀ i, i < xs.length → (p (xs.getD i 0) = true ↔ lb - 1 ≤ i ∧ i < ub - 1) := by
      intro i hi
      have := h (i + 1) (by simp; omega)
      simp only [List.getD_cons_succ] at this
      rw [this]
      omega
    have hc := ih (lb - 1) (ub - 1) (by omega) (by simp only [List.length_cons] at h2; omega) hxs
    rw [List.countP_cons, hc]
    by_cases hpx : p x = true
    · have := hx.1 hpx
      simp only [hpx, if_true]
      omega
    · have h0 : ¬ (lb ≤ 0 ∧ 0 < ub) := fun hh => hpx (hx.2 hh)
      simp only [hpx]
      simp
      omega

/-- C7, as stated, fails: on the sorted index of the text of `2 ^ 30` bytes `"a"`
followed by `"b"`, with the pattern `"b"`, neither `__bsearch_lower_boundary(0, N)`
nor `__bsearch_upper_boundary(0, N)` returns a rank: each ends in a read outside
`ipoint`, at the negative midpoint that the wrapped 32-bit sum `lower + upper`
gives. -/
theorem boundaries_matching_range_fails_past_bound :
    (a_run_b 1073741824).length = 2 ^ 30 + 1 ∧
    is_index (a_run_b_index 1073741824 [98, 0] 1) (a_run_b 1073741824)
      (a_run_b_ranks 1073741824) ∧
    has_pattern (a_run_b_index 1073741824 [98, 0] 1) [98] ∧
    is_permutation (a_run_b_ranks 1073741824) (a_run_b 1073741824).length ∧
    sort_invariant (a_run_b 1073741824) (a_run_b_ranks 1073741824) ∧
    0 ∉ ([98] : List Nat) ∧
    __bsearch_lower_boundary (a_run_b_index 1073741824 [98, 0] 1) 0
      (a_run_b 1073741824).length __bsearch_compare = .error .out_of_bounds ∧
    __bsearch_upper_boundary (a_run_b_index 1073741824 [98, 0] 1) 0
      (a_run_b 1073741824).length __bsearch_compare = .error .out_of_bounds :=
  ⟨by rw [a_run_b_length]; norm_num, a_run_b_is_index _ _ _, a_run_b_has_pattern _ _,
    a_run_b_is_permutation _, a_run_b_sort_invariant _, by decide,
    a_run_b_lower_boundary_faults _ 98 [0] 0 (by norm_num) (by norm_num) (by norm_num),
    a_run_b_upper_boundary_faults _ 98 [0] 0 (by norm_num) (by norm_num) (by norm_num)⟩

/-- C7, amended. Matching range: for every valid index of a text of length
`N ≤ 2 ^ 30` and every pattern `P` without a zero byte, the ranks `lb` and `ub`
that `__bsearch_lower_boundary(0, N)` and `__bsearch_upper_boundary(0, N)`
return satisfy `0 ≤ lb ≤ ub ≤ N`, the ranks
`i` with `lb ≤ i < ub` are exactly the ranks whose suffix begins with `P`, and
`ub - lb` is the number of offsets of the text at which `P` occurs. -/
theorem boundaries_matching_range (d : SuffixArrayData) (T P : List Nat) (SA : List Int)
    (hd : is_index d T SA) (hN : T.length ≤ 2 ^ 30) (hpat : has_pattern d P)
    (hperm : is_permutation SA T.length) (hsort : sort_invariant T SA) (hP : 0 ∉ P) :
    ∃ lb ub : Nat,
      __bsearch_lower_boundary d 0 T.length __bsearch_compare = .ok (lb : Int) ∧
      __bsearch_upper_boundary d 0 T.length __bsearch_compare = .ok (ub : Int) ∧
      lb ≤ ub ∧ ub ≤ T.length ∧
      (∀ i, i < T.length →
        ((lb ≤ i ∧ i < ub) ↔ (T.drop (offset_at_rank SA i).toNat).take P.length = P)) ∧
      ub - lb = (List.range T.length).countP (fun k : Nat => decide (occurs_at T P (k : Int))) := by
  have hlen := is_permutation_length SA T.length hperm
  have hr := is_permutation_in_range SA T.length hperm
  have hsize : d.size = T.length := hd.2.2
  obtain ⟨lb, hlres, hlN, hlbelow, hlabove⟩ := lower_boundary_sorted d T P SA hd hpat hP hlen hr
    hN hsort
  obtain ⟨ub, hures, huN, hubelow, huabove⟩ := upper_boundary_sorted d T P SA hd hpat hP hlen hr
    hN hsort
  rw [hsize] at hlres hures
  have hle : lb ≤ ub := by
    by_contra hlt
    have h1 := hlbelow ub (by omega)
    have h2 := huabove ub (le_refl _) (by omega)
    omega
  have hiff : ∀ i, i < T.length →
      ((lb ≤ i ∧ i < ub) ↔ begins_with T (offset_at_rank SA i) P) := by
    intro i hi
    rw [← rank_comparison_eq_zero_iff]
    constructor
    · rintro ⟨h1, h2⟩
      have h3 := hlabove i h1 hi
      have h4 := hubelow i h2
      omega
    · intro hz
      constructor
      · by_contra hlt
        have := hlbelow i (by omega)
        omega
      · by_contra hge
        have := huabove i (by omega) hi
        omega
  refine ⟨lb, ub, hlres, hures, hle, huN, hiff, ?_⟩
  have hcount := countP_of_interval (fun v => decide (occurs_at T P v)) SA lb ub hle
    (by omega) (by
      intro i hi
      have hv := entries_in_range_getD SA T.length i hr hi
      rw [offset_at_rank] at hv
      have := hiff i (by omega)
      rw [offset_at_rank] at this
      simp only [decide_eq_true_eq, occurs_at, hv.1, hv.2, true_and]
      exact this.symm)
  rw [← hcount, hperm.countP_eq, List.countP_map]
  rfl

/-- C7 amended, at a concrete input: the pattern `"a"` on the index of
`"abracadabra"`, where the matching ranks are `0 .. 4`. -/
theorem boundaries_matching_range_witness :
    ∃ lb ub : Nat,
      __bsearch_lower_boundary (abracadabra_index a_cstr 1) 0 abracadabra.length
        __bsearch_compare = .ok (lb : Int) ∧
      __bsearch_upper_boundary (abracadabra_index a_cstr 1) 0 abracadabra.length
        __bsearch_compare = .ok (ub : Int) ∧
      lb ≤ ub ∧ ub ≤ abracadabra.length ∧
      (∀ i, i < abracadabra.length →
        ((lb ≤ i ∧ i < ub) ↔
          (abracadabra.drop (offset_at_rank abracadabra_ipoint i).toNat).take
            ([97] : List Nat).length = [97])) ∧
      ub - lb = (List.range abracadabra.length).countP
        (fun k : Nat => decide (occurs_at abracadabra [97] (k : Int))) :=
  boundaries_matching_range (abracadabra_index a_cstr 1) abracadabra [97] abracadabra_ipoint
    ⟨rfl, rfl, rfl⟩ (by decide) ⟨rfl, rfl⟩ (by decide) (by decide) (by decide)

/-! ## The cursors of `__bsearch_lower_boundary` -/

theorem lower_boundary_cursors_exact_head (d : SuffixArrayData) (fn : bsearch_compare_fn)
    (fuel : Nat) (lower upper : Int) :
    (lower_boundary_cursors_exact d fn fuel lower upper).head? = some (lower, upper) := by
  cases fuel with
  | zero => simp [lower_boundary_cursors_exact]
  | succ fuel =>
    simp only [lower_boundary_cursors_exact]
    split_ifs <;> (try split) <;> (try split) <;> (try split_ifs) <;> simp

/-- Every cursor of an execution that starts within `-1 ≤ lower < upper ≤ N`
stays within these bounds. -/
theorem lower_boundary_cursors_exact_bounds (d : SuffixArrayData) (fn : bsearch_compare_fn)
    (N : Int) (fuel : Nat) (lower upper : Int) (hl : -1 ≤ lower) (hlu : lower < upper)
    (hu : upper ≤ N) :
    ∀ c ∈ lower_boundary_cursors_exact d fn fuel lower upper,
      -1 ≤ c.1 ∧ c.1 < c.2 ∧ c.2 ≤ N := by
  induction fuel generalizing lower upper with
  | zero =>
    intro c hc
    simp only [lower_boundary_cursors_exact, List.mem_singleton] at hc
    subst hc
    exact ⟨hl, hlu, hu⟩
  | succ fuel ih =>
    intro c hc
    by_cases he : lower + 1 = upper
    · simp only [lower_boundary_cursors_exact, he, ne_eq, not_true_eq_false, if_false,
        List.mem_singleton] at hc
      subst hc
      exact ⟨hl, hlu, hu⟩
    · have hm := midpoint_between lower upper hl (by omega)
      simp only [lower_boundary_cursors_exact, ne_eq, he, not_false_eq_true, if_true] at hc
      split at hc
      · simp only [List.mem_singleton] at hc
        subst hc
        exact ⟨hl, hlu, hu⟩
      · split at hc
        · simp only [List.mem_singleton] at hc
          subst hc
          exact ⟨hl, hlu, hu⟩
        · split_ifs at hc
          · rcases List.mem_cons.1 hc with h | h
            · subst h
              exact ⟨hl, hlu, hu⟩
            · exact ih _ upper (by omega) hm.2 hu c h
          · rcases List.mem_cons.1 hc with h | h
            · subst h
              exact ⟨hl, hlu, hu⟩
            · exact ih lower _ hl hm.1 (by omega) c h

/-- From one cursor to the next the distance `upper - lower` strictly
decreases and `lower < upper` is kept. -/
theorem lower_boundary_cursors_exact_decrease (d : SuffixArrayData) (fn : bsearch_compare_fn)
    (fuel : Nat) (lower upper : Int) (hl : -1 ≤ lower) (hlu : lower < upper) :
    List.Chain' (fun a b : Int × Int => b.1 < b.2 ∧ b.2 - b.1 < a.2 - a.1)
      (lower_boundary_cursors_exact d fn fuel lower upper) := by
  induction fuel generalizing lower upper with
  | zero => simp [lower_boundary_cursors_exact]
  | succ fuel ih =>
    by_cases he : lower + 1 = upper
    · simp [lower_boundary_cursors_exact, he]
    · have hm := midpoint_between lower upper hl (by omega)
      simp only [lower_boundary_cursors_exact, ne_eq, he, not_false_eq_true, if_true]
      split
      · simp
      · split
        · simp
        · split_ifs
          · rw [List.chain'_cons', lower_boundary_cursors_exact_head]
            refine ⟨?_, ih _ upper (by omega) hm.2⟩
            intro y hy
            simp only [Option.mem_def, Option.some.injEq] at hy
            subst hy
            exact ⟨hm.2, by simp only; omega⟩
          · rw [List.chain'_cons', lower_boundary_cursors_exact_head]
            refine ⟨?_, ih lower _ hl hm.1⟩
            intro y hy
            simp only [Option.mem_def, Option.some.injEq] at hy
            subst hy
            exact ⟨hm.1, by simp only; omega⟩

/-- When the probes of the ranks between the cursors succeed, the execution
ends at a cursor with `lower + 1 = upper`, and the loop returns the `upper` of
that cursor. -/
theorem lower_boundary_cursors_exact_exit (d : SuffixArrayData) (fn : bsearch_compare_fn)
    (N : Int)
    (hg : ∀ i : Int, 0 ≤ i → i < N → ∃ item c, ipoint_at d i = .ok item ∧ fn d item = .ok c)
    (fuel : Nat) (lower upper : Int) (hl : -1 ≤ lower) (hlu : lower < upper)
    (hu : upper ≤ N) (hf : upper - lower ≤ fuel + 1) :
    ∃ r, lower_boundary_loop_exact d fn fuel lower upper = .ok r ∧
      (lower_boundary_cursors_exact d fn fuel lower upper).getLast? = some (r - 1, r) ∧
      lower < r ∧ r ≤ upper := by
  induction fuel generalizing lower upper with
  | zero =>
    have he : lower + 1 = upper := by omega
    refine ⟨upper, by simp [lower_boundary_loop_exact, he], ?_, hlu, le_refl _⟩
    simp [lower_boundary_cursors_exact, ← he]
  | succ fuel ih =>
    by_cases he : lower + 1 = upper
    · refine ⟨upper, by simp [lower_boundary_loop_exact, he], ?_, hlu, le_refl _⟩
      simp [lower_boundary_cursors_exact, ← he]
    · have hm := midpoint_between lower upper hl (by omega)
      obtain ⟨item, c, hi, hc⟩ := hg (Int.tdiv (lower + upper) 2) (by omega) (by omega)
      by_cases hneg : c < 0
      · obtain ⟨r, hr, hlast, h1, h2⟩ :=
          ih (Int.tdiv (lower + upper) 2) upper (by omega) hm.2 hu (by omega)
        refine ⟨r, by simp [lower_boundary_loop_exact, he, hi, hc, hneg, hr], ?_, by omega, h2⟩
        simp only [lower_boundary_cursors_exact, ne_eq, he, not_false_eq_true, if_true, hi, hc,
          hneg]
        rw [List.getLast?_cons, hlast]
        rfl
      · obtain ⟨r, hr, hlast, h1, h2⟩ :=
          ih lower (Int.tdiv (lower + upper) 2) hl hm.1 (by omega) (by omega)
        refine ⟨r, by simp [lower_boundary_loop_exact, he, hi, hc, hneg, hr], ?_, h1, by omega⟩
        simp only [lower_boundary_cursors_exact, ne_eq, he, not_false_eq_true, if_true, hi, hc,
          hneg, if_false]
        rw [List.getLast?_cons, hlast]
        rfl

/-- A result of the loop does not depend on the fuel left over: one more unit
of fuel gives the same result. -/
theorem lower_boundary_loop_exact_fuel_succ (d : SuffixArrayData) (fn : bsearch_compare_fn)
    (fuel : Nat) (lower upper r : Int)
    (h : lower_boundary_loop_exact d fn fuel lower upper = .ok r) :
    lower_boundary_loop_exact d fn (fuel + 1) lower upper = .ok r := by
  induction fuel generalizing lower upper with
  | zero =>
    by_cases he : lower + 1 = upper
    · simpa [lower_boundary_loop_exact, he] using h
    · simp [lower_boundary_loop_exact, he] at h
  | succ fuel ih =>
    by_cases he : lower + 1 = upper
    · simpa [lower_boundary_loop_exact, he] using h
    · rw [lower_boundary_loop_exact] at h ⊢
      simp only [ne_eq, he, not_false_eq_true, if_true] at h ⊢
      split at h
      · exact absurd h (by simp)
      · split at h
        · exact absurd h (by simp)
        · split_ifs at h ⊢
          · exact ih _ _ h
          · exact ih _ _ h

/-! ## The cursors of `__bsearch_upper_boundary` -/

theorem upper_boundary_cursors_exact_head (d : SuffixArrayData) (fn : bsearch_compare_fn)
    (fuel : Nat) (lower upper : Int) :
    (upper_boundary_cursors_exact d fn fuel lower upper).head? = some (lower, upper) := by
  cases fuel with
  | zero => simp [upper_boundary_cursors_exact]
  | succ fuel =>
    simp only [upper_boundary_cursors_exact]
    split_ifs <;> (try split) <;> (try split) <;> (try split_ifs) <;> simp

/-- Every cursor of an execution that starts within `-1 ≤ lower < upper ≤ N`
stays within these bounds. -/
theorem upper_boundary_cursors_exact_bounds (d : SuffixArrayData) (fn : bsearch_compare_fn)
    (N : Int) (fuel : Nat) (lower upper : Int) (hl : -1 ≤ lower) (hlu : lower < upper)
    (hu : upper ≤ N) :
    ∀ c ∈ upper_boundary_cursors_exact d fn fuel lower upper,
      -1 ≤ c.1 ∧ c.1 < c.2 ∧ c.2 ≤ N := by
  induction fuel generalizing lower upper with
  | zero =>
    intro c hc
    simp only [upper_boundary_cursors_exact, List.mem_singleton] at hc
    subst hc
    exact ⟨hl, hlu, hu⟩
  | succ fuel ih =>
    intro c hc
    by_cases he : lower + 1 = upper
    · simp only [upper_boundary_cursors_exact, he, ne_eq, not_true_eq_false, if_false,
        List.mem_singleton] at hc
      subst hc
      exact ⟨hl, hlu, hu⟩
    · have hm := midpoint_between lower upper hl (by omega)
      simp only [upper_boundary_cursors_exact, ne_eq, he, not_false_eq_true, if_true] at hc
      split at hc
      · simp only [List.mem_singleton] at hc
        subst hc
        exact ⟨hl, hlu, hu⟩
      · split at hc
        · simp only [List.mem_singleton] at hc
          subst hc
          exact ⟨hl, hlu, hu⟩
        · split_ifs at hc
          · rcases List.mem_cons.1 hc with h | h
            · subst h
              exact ⟨hl, hlu, hu⟩
            · exact ih _ upper (by omega) hm.2 hu c h
          · rcases List.mem_cons.1 hc with h | h
            · subst h
              exact ⟨hl, hlu, hu⟩
            · exact ih lower _ hl hm.1 (by omega) c h

/-- From one cursor to the next the distance `upper - lower` strictly
decreases and `lower < upper` is kept. -/
theorem upper_boundary_cursors_exact_decrease (d : SuffixArrayData) (fn : bsearch_compare_fn)
    (fuel : Nat) (lower upper : Int) (hl : -1 ≤ lower) (hlu : lower < upper) :
    List.Chain' (fun a b : Int × Int => b.1 < b.2 ∧ b.2 - b.1 < a.2 - a.1)
      (upper_boundary_cursors_exact d fn fuel lower upper) := by
  induction fuel generalizing lower upper with
  | zero => simp [upper_boundary_cursors_exact]
  | succ fuel ih =>
    by_cases he : lower + 1 = upper
    · simp [upper_boundary_cursors_exact, he]
    · have hm := midpoint_between lower upper hl (by omega)
      simp only [upper_boundary_cursors_exact, ne_eq, he, not_false_eq_true, if_true]
      split
      · simp
      · split
        · simp
        · split_ifs
          · rw [List.chain'_cons', upper_boundary_cursors_exact_head]
            refine ⟨?_, ih _ upper (by omega) hm.2⟩
            intro y hy
            simp only [Option.mem_def, Option.some.injEq] at hy
            subst hy
            exact ⟨hm.2, by simp only; omega⟩
          · rw [List.chain'_cons', upper_boundary_cursors_exact_head]
            refine ⟨?_, ih lower _ hl hm.1⟩
            intro y hy
            simp only [Option.mem_def, Option.some.injEq] at hy
            subst hy
            exact ⟨hm.1, by simp only; omega⟩

/-- When the probes of the ranks between the cursors succeed, the execution
ends at a cursor with `lower + 1 = upper`, and the loop returns the
`lower + 1` of that cursor. -/
theorem upper_boundary_cursors_exact_exit (d : SuffixArrayData) (fn : bsearch_compare_fn)
    (N : Int)
    (hg : ∀ i : Int, 0 ≤ i → i < N → ∃ item c, ipoint_at d i = .ok item ∧ fn d item = .ok c)
    (fuel : Nat) (lower upper : Int) (hl : -1 ≤ lower) (hlu : lower < upper)
    (hu : upper ≤ N) (hf : upper - lower ≤ fuel + 1) :
    ∃ r, upper_boundary_loop_exact d fn fuel lower upper = .ok r ∧
      (upper_boundary_cursors_exact d fn fuel lower upper).getLast? = some (r - 1, r) ∧
      lower < r ∧ r ≤ upper := by
  induction fuel generalizing lower upper with
  | zero =>
    have he : lower + 1 = upper := by omega
    refine ⟨upper, by simp [upper_boundary_loop_exact, he], ?_, hlu, le_refl _⟩
    simp [upper_boundary_cursors_exact, ← he]
  | succ fuel ih =>
    by_cases he : lower + 1 = upper
    · refine ⟨upper, by simp [upper_boundary_loop_exact, he], ?_, hlu, le_refl _⟩
      simp [upper_boundary_cursors_exact, ← he]
    · have hm := midpoint_between lower upper hl (by omega)
      obtain ⟨item, c, hi, hc⟩ := hg (Int.tdiv (lower + upper) 2) (by omega) (by omega)
      by_cases hneg : c ≤ 0
      · obtain ⟨r, hr, hlast, h1, h2⟩ :=
          ih (Int.tdiv (lower + upper) 2) upper (by omega) hm.2 hu (by omega)
        refine ⟨r, by simp [upper_boundary_loop_exact, he, hi, hc, hneg, hr], ?_, by omega, h2⟩
        simp only [upper_boundary_cursors_exact, ne_eq, he, not_false_eq_true, if_true, hi, hc,
          hneg]
        rw [List.getLast?_cons, hlast]
        rfl
      · obtain ⟨r, hr, hlast, h1, h2⟩ :=
          ih lower (Int.tdiv (lower + upper) 2) hl hm.1 (by omega) (by omega)
        refine ⟨r, by simp [upper_boundary_loop_exact, he, hi, hc, hneg, hr], ?_, h1, by omega⟩
        simp only [upper_boundary_cursors_exact, ne_eq, he, not_false_eq_true, if_true, hi, hc,
          hneg, if_false]
        rw [List.getLast?_cons, hlast]
        rfl

/-- A result of the loop does not depend on the fuel left over: one more unit
of fuel gives the same result. -/
theorem upper_boundary_loop_exact_fuel_succ (d : SuffixArrayData) (fn : bsearch_compare_fn)
    (fuel : Nat) (lower upper r : Int)
    (h : upper_boundary_loop_exact d fn fuel lower upper = .ok r) :
    upper_boundary_loop_exact d fn (fuel + 1) lower upper = .ok r := by
  induction fuel generalizing lower upper with
  | zero =>
    by_cases he : lower + 1 = upper
    · simpa [upper_boundary_loop_exact, he] using h
    · simp [upper_boundary_loop_exact, he] at h
  | succ fuel ih =>
    by_cases he : lower + 1 = upper
    · simpa [upper_boundary_loop_exact, he] using h
    · rw [upper_boundary_loop_exact] at h ⊢
      simp only [ne_eq, he, not_false_eq_true, if_true] at h ⊢
      split at h
      · exact absurd h (by simp)
      · split at h
        · exact absurd h (by simp)
        · split_ifs at h ⊢
          · exact ih _ _ h
          · exact ih _ _ h

/-! ## Termination and the number of probes (C17, C12) -/

theorem lower_boundary_loop_exact_fuel_add (d : SuffixArrayData) (fn : bsearch_compare_fn)
    (fuel k : Nat) (lower upper r : Int)
    (h : lower_boundary_loop_exact d fn fuel lower upper = .ok r) :
    lower_boundary_loop_exact d fn (fuel + k) lower upper = .ok r := by
  induction k with
  | zero => exact h
  | succ k ih => exact lower_boundary_loop_exact_fuel_succ d fn (fuel + k) lower upper r ih

theorem upper_boundary_loop_exact_fuel_add (d : SuffixArrayData) (fn : bsearch_compare_fn)
    (fuel k : Nat) (lower upper r : Int)
    (h : upper_boundary_loop_exact d fn fuel lower upper = .ok r) :
    upper_boundary_loop_exact d fn (fuel + k) lower upper = .ok r := by
  induction k with
  | zero => exact h
  | succ k ih => exact upper_boundary_loop_exact_fuel_succ d fn (fuel + k) lower upper r ih

theorem probes_of_outcomes (d : SuffixArrayData) (cmp : SuffixArrayData → Int → Int)
    (N : Nat) (hlen : d.ipoint.length = N) :
    ∀ i : Int, 0 ≤ i → i < (N : Int) →
      ∃ item c, ipoint_at d i = .ok item ∧ fn_of_outcomes cmp d item = .ok c :=
  fun i h0 hN => ⟨_, _, ipoint_at_rank d i h0 (by omega), rfl⟩

/-- C17, as stated, fails: for `N = 2 ^ 30 + 1` index points and a comparison
function that always returns `-1` the loop of `__bsearch_lower_boundary` does
not exit with `lower + 1 = upper`: it reaches the cursor `(N - 2, N)`, where
the 32-bit sum wraps, the midpoint is `-2 ^ 30` and the read of `ipoint` there
is outside the array, whatever the fuel. -/
theorem boundary_loop_no_exit_past_bound :
    (1073741825 : Nat) = 2 ^ 30 + 1 ∧
    (plain_index 1073741825).ipoint.length = 1073741825 ∧
    ((((1073741825 : Nat) : Int) - 2, ((1073741825 : Nat) : Int)) ∈
        lower_boundary_trace (plain_index 1073741825) 0 (1073741825 : Nat)
          (fn_of_outcomes fun _ _ => -1) ∧
      (((1073741825 : Nat) : Int) - 2) + 1 ≠ ((1073741825 : Nat) : Int) ∧
      Int.tdiv (int32_wrap ((((1073741825 : Nat) : Int) - 2) + ((1073741825 : Nat) : Int))) 2
        = -1073741824 ∧
      ipoint_at (plain_index 1073741825) (-1073741824) = .error .out_of_bounds ∧
      ∀ k, lower_boundary_loop (plain_index 1073741825) (fn_of_outcomes fun _ _ => -1)
        (1073741825 + 1 + k) (-1) (1073741825 : Nat) = .error .out_of_bounds) :=
  ⟨by norm_num, plain_index_length _, plain_index_loop_faults 1073741825 rfl⟩

/-- C17, amended. Termination: for every `N` with `0 ≤ N ≤ 2 ^ 30`, every
array of `N` index points, sorted or not, and every comparison function,
whatever outcomes it returns,
the loops of `__bsearch_lower_boundary` and `__bsearch_upper_boundary` called
with `low = 0` and `high = N` terminate: the cursors start at `(-1, N)`, from
one iteration to the next `upper - lower` strictly decreases while
`lower < upper` is kept, the loop exits at a cursor with `lower + 1 = upper`,
the result is in `[0, N]`, and it is the same with any greater amount of
fuel. -/
theorem boundary_loops_terminate (d : SuffixArrayData)
    (cmp : SuffixArrayData → Int → Int) (N : Nat) (hlen : d.ipoint.length = N)
    (hN : N ≤ 2 ^ 30) :
    (∃ r, __bsearch_lower_boundary d 0 N (fn_of_outcomes cmp) = .ok r ∧ 0 ≤ r ∧ r ≤ N ∧
      (lower_boundary_trace d 0 N (fn_of_outcomes cmp)).head? = some (-1, (N : Int)) ∧
      (lower_boundary_trace d 0 N (fn_of_outcomes cmp)).getLast? = some (r - 1, r) ∧
      List.Chain' (fun a b : Int × Int => b.1 < b.2 ∧ b.2 - b.1 < a.2 - a.1)
        (lower_boundary_trace d 0 N (fn_of_outcomes cmp)) ∧
      ∀ k, lower_boundary_loop d (fn_of_outcomes cmp) (N + 1 + k) (-1) N = .ok r) ∧
    (∃ r, __bsearch_upper_boundary d 0 N (fn_of_outcomes cmp) = .ok r ∧ 0 ≤ r ∧ r ≤ N ∧
      (upper_boundary_trace d 0 N (fn_of_outcomes cmp)).head? = some (-1, (N : Int)) ∧
      (upper_boundary_trace d 0 N (fn_of_outcomes cmp)).getLast? = some (r - 1, r) ∧
      List.Chain' (fun a b : Int × Int => b.1 < b.2 ∧ b.2 - b.1 < a.2 - a.1)
        (upper_boundary_trace d 0 N (fn_of_outcomes cmp)) ∧
      ∀ k, upper_boundary_loop d (fn_of_outcomes cmp) (N + 1 + k) (-1) N = .ok r) := by
  have hg := probes_of_outcomes d cmp N hlen
  have hb := size_fits N hN
  constructor
  · obtain ⟨r, hres, hlast, h1, h2⟩ := lower_boundary_cursors_exact_exit d (fn_of_outcomes cmp)
      (N : Int) hg (N + 1) (-1) (N : Int) (le_refl _) (by omega) (le_refl _) (by omega)
    refine ⟨r, ?_, by omega, h2, ?_, ?_, ?_, ?_⟩
    · rw [bsearch_lower_boundary_eq d _ N hN]; exact hres
    · rw [lower_boundary_trace_eq d _ N hN]; exact lower_boundary_cursors_exact_head _ _ _ _ _
    · rw [lower_boundary_trace_eq d _ N hN]; exact hlast
    · rw [lower_boundary_trace_eq d _ N hN]
      exact lower_boundary_cursors_exact_decrease _ _ _ _ _ (le_refl _) (by omega)
    · intro k
      rw [lower_boundary_loop_eq d _ _ (-1) N (le_refl _) (by omega) hb]
      exact lower_boundary_loop_exact_fuel_add _ _ _ k _ _ _ hres
  · obtain ⟨r, hres, hlast, h1, h2⟩ := upper_boundary_cursors_exact_exit d (fn_of_outcomes cmp)
      (N : Int) hg (N + 1) (-1) (N : Int) (le_refl _) (by omega) (le_refl _) (by omega)
    refine ⟨r, ?_, by omega, h2, ?_, ?_, ?_, ?_⟩
    · rw [bsearch_upper_boundary_eq d _ N hN]; exact hres
    · rw [upper_boundary_trace_eq d _ N hN]; exact upper_boundary_cursors_exact_head _ _ _ _ _
    · rw [upper_boundary_trace_eq d _ N hN]; exact hlast
    · rw [upper_boundary_trace_eq d _ N hN]
      exact upper_boundary_cursors_exact_decrease _ _ _ _ _ (le_refl _) (by omega)
    · intro k
      rw [upper_boundary_loop_eq d _ _ (-1) N (le_refl _) (by omega) hb]
      exact upper_boundary_loop_exact_fuel_add _ _ _ k _ _ _ hres

/-- C17 amended, at a concrete input: the eleven index points of `"abracadabra"` with
a comparison function that always returns `5`. -/
theorem boundary_loops_terminate_witness :
    ((abracadabra_index [] 0).ipoint.length = 11 ∧
      lower_boundary_trace (abracadabra_index [] 0) 0 (11 : Nat) (fn_of_outcomes fun _ _ => 5)
        = [(-1, 11), (-1, 5), (-1, 2), (-1, 0)]) ∧
    ∃ r, __bsearch_lower_boundary (abracadabra_index [] 0) 0 (11 : Nat)
        (fn_of_outcomes fun _ _ => 5) = .ok r ∧ 0 ≤ r ∧ r ≤ (11 : Nat) ∧
      (lower_boundary_trace (abracadabra_index [] 0) 0 (11 : Nat)
        (fn_of_outcomes fun _ _ => 5)).head? = some (-1, ((11 : Nat) : Int)) ∧
      (lower_boundary_trace (abracadabra_index [] 0) 0 (11 : Nat)
        (fn_of_outcomes fun _ _ => 5)).getLast? = some (r - 1, r) ∧
      List.Chain' (fun a b : Int × Int => b.1 < b.2 ∧ b.2 - b.1 < a.2 - a.1)
        (lower_boundary_trace (abracadabra_index [] 0) 0 (11 : Nat)
          (fn_of_outcomes fun _ _ => 5)) ∧
      ∀ k, lower_boundary_loop (abracadabra_index [] 0) (fn_of_outcomes fun _ _ => 5)
        (11 + 1 + k) (-1) (11 : Nat) = .ok r :=
  ⟨⟨rfl, rfl⟩,
    (boundary_loops_terminate (abracadabra_index [] 0) (fun _ _ => 5) 11 rfl (by norm_num)).1⟩

/-- On a text region followed by the terminating zero byte and a pattern
without a zero byte, `strncmp` bounded by the pattern length reads no byte
past the terminator. -/
theorem strncmp_reads_le (P : List Nat) (hP : 0 ∉ P) (s tail rest : List Nat) :
    strncmp_reads (s ++ 0 :: tail) (P ++ rest) P.length ≤ s.length + 1 := by
  induction P generalizing s with
  | nil => simp [strncmp_reads]
  | cons p ps ih =>
    have hp : p ≠ 0 := fun h => hP (by simp [h])
    have hps : 0 ∉ ps := fun h => hP (by simp [h])
    cases s with
    | nil => simp [strncmp_reads, Ne.symm hp]
    | cons x xs =>
      by_cases hxp : x = p
      · subst hxp
        have := ih hps xs
        simp only [List.cons_append, List.length_cons, strncmp_reads, ne_eq, not_true_eq_false,
          if_false, hp, List.append_eq]
        omega
      · simp [strncmp_reads, hxp]

theorem midpoint_in_range (N lower upper : Int) (hl : -1 ≤ lower) (hlu : lower < upper)
    (hu : upper ≤ N) (he : lower + 1 ≠ upper) :
    lower < Int.tdiv (lower + upper) 2 ∧ Int.tdiv (lower + upper) 2 < upper ∧
      0 ≤ Int.tdiv (lower + upper) 2 ∧ Int.tdiv (lower + upper) 2 < N := by
  have hm := midpoint_between lower upper hl (by omega)
  exact ⟨hm.1, hm.2, by omega, by omega⟩

/-- C11, as stated, fails: on the text of `2 ^ 30` bytes `"a"` followed by `"b"`,
whose array holds `2 ^ 30 + 1` entries in range, with the pattern `"b"`, the
lower-boundary pass reaches a cursor whose midpoint is negative, and
`__bsearch_first(0, N)` and `__bsearch_last(0, N)` end in the read of `ipoint`
at it, outside the array. -/
theorem array_lookup_out_of_bounds_past_bound :
    (a_run_b 1073741824).length = 2 ^ 30 + 1 ∧
    is_index (a_run_b_index 1073741824 [98, 0] 1) (a_run_b 1073741824)
      (a_run_b_ranks 1073741824) ∧
    has_pattern (a_run_b_index 1073741824 [98, 0] 1) [98] ∧
    0 ∉ ([98] : List Nat) ∧
    (a_run_b_ranks 1073741824).length = (a_run_b 1073741824).length ∧
    entries_in_range (a_run_b_ranks 1073741824) (a_run_b 1073741824).length ∧
    (∃ c ∈ lower_boundary_trace (a_run_b_index 1073741824 [98, 0] 1) 0
        (a_run_b 1073741824).length __bsearch_compare,
      c.1 + 1 ≠ c.2 ∧ Int.tdiv (int32_wrap (c.1 + c.2)) 2 < 0) ∧
    __bsearch_first (a_run_b_index 1073741824 [98, 0] 1) 0 (a_run_b 1073741824).length
      __bsearch_compare = .error .out_of_bounds ∧
    __bsearch_last (a_run_b_index 1073741824 [98, 0] 1) 0 (a_run_b 1073741824).length
      __bsearch_compare = .error .out_of_bounds :=
  ⟨by rw [a_run_b_length]; norm_num, a_run_b_is_index _ _ _, a_run_b_has_pattern _ _,
    by decide, (a_run_b_ranks_in_range _).1, (a_run_b_ranks_in_range _).2,
    a_run_b_negative_midpoint 1073741824 rfl,
    a_run_b_first_faults _ 98 [0] 0 (by norm_num) (by norm_num) (by norm_num),
    a_run_b_last_faults _ 98 [0] 0 (by norm_num) (by norm_num) (by norm_num)⟩

/-- C11, amended. Every array lookup is in bounds: for every `N` with
`0 ≤ N ≤ 2 ^ 30`, every array `SA` of `N` entries each in `[0, N)` and every
pattern without a zero byte,
`__bsearch_first(0, N)` and `__bsearch_last(0, N)` return without a fault, so
that no read of the embedding takes its out-of-range branch; every probed
midpoint `mid`, the half of the 32-bit sum `lower + upper`, satisfies
`lower < mid < upper` and `0 ≤ mid < N`; the boundary
rank lies in `[0, N]` for the first-occurrence query and in `[-1, N - 1]` for
the last-occurrence query, and the read of `SA` at it, made only below `N` and
above `-1`, succeeds; and the bytes of the text that the ranked comparison
reads from an offset in `[0, N)` have index at most `N`. -/
theorem array_lookups_in_bounds (d : SuffixArrayData) (T P : List Nat) (SA : List Int)
    (hd : is_index d T SA) (hN : T.length ≤ 2 ^ 30) (hpat : has_pattern d P) (hP : 0 ∉ P)
    (hlen : SA.length = T.length) (hr : entries_in_range SA T.length) :
    (∃ r, __bsearch_first d 0 T.length __bsearch_compare = .ok r) ∧
    (∃ r, __bsearch_last d 0 T.length __bsearch_compare = .ok r) ∧
    (∀ c ∈ lower_boundary_trace d 0 T.length __bsearch_compare, c.1 + 1 ≠ c.2 →
      c.1 < Int.tdiv (int32_wrap (c.1 + c.2)) 2 ∧ Int.tdiv (int32_wrap (c.1 + c.2)) 2 < c.2 ∧
      0 ≤ Int.tdiv (int32_wrap (c.1 + c.2)) 2 ∧
      Int.tdiv (int32_wrap (c.1 + c.2)) 2 < T.length ∧
      ∃ item c0, ipoint_at d (Int.tdiv (int32_wrap (c.1 + c.2)) 2) = .ok item ∧
        __bsearch_compare d item = .ok c0) ∧
    (∀ c ∈ upper_boundary_trace d 0 T.length __bsearch_compare, c.1 + 1 ≠ c.2 →
      c.1 < Int.tdiv (int32_wrap (c.1 + c.2)) 2 ∧ Int.tdiv (int32_wrap (c.1 + c.2)) 2 < c.2 ∧
      0 ≤ Int.tdiv (int32_wrap (c.1 + c.2)) 2 ∧
      Int.tdiv (int32_wrap (c.1 + c.2)) 2 < T.length ∧
      ∃ item c0, ipoint_at d (Int.tdiv (int32_wrap (c.1 + c.2)) 2) = .ok item ∧
        __bsearch_compare d item = .ok c0) ∧
    (∃ lb : Int, __bsearch_lower_boundary d 0 T.length __bsearch_compare = .ok lb ∧
      0 ≤ lb ∧ lb ≤ T.length ∧
      (lb < T.length → ∃ item c0, ipoint_at d lb = .ok item ∧
        __bsearch_compare d item = .ok c0)) ∧
    (∃ ub : Int, __bsearch_upper_boundary d 0 T.length __bsearch_compare = .ok ub ∧
      -1 ≤ ub - 1 ∧ ub - 1 ≤ (T.length : Int) - 1 ∧
      (-1 < ub - 1 → ∃ item c0, ipoint_at d (ub - 1) = .ok item ∧
        __bsearch_compare d item = .ok c0)) ∧
    (∀ item : Int, 0 ≤ item → item < T.length →
      item + strncmp_reads (text_from d item) d.pattern d.pattern_size ≤ (T.length : Int) + 1) := by
  have hsize : d.size = T.length := hd.2.2
  have hprobe : ∀ i : Int, 0 ≤ i → i < (T.length : Int) →
      ∃ item c0, ipoint_at d i = .ok item ∧ __bsearch_compare d item = .ok c0 := by
    intro i h0 hN
    obtain ⟨item, h1, h2, _⟩ := probe_rank d T P SA hd hpat hP hlen hr i h0 hN
    exact ⟨item, _, h1, h2⟩
  have hfit := size_fits T.length hN
  obtain ⟨r, hres, hrN, _, _⟩ := lower_boundary_local d T P SA hd hpat hP hlen hr hN
  obtain ⟨u, hures, huN, _, _⟩ := upper_boundary_local d T P SA hd hpat hP hlen hr hN
  have hfirst := bsearch_first_of_boundary d T P SA hd hpat hP hlen hr r hres
  have hlast := bsearch_last_of_boundary d T P SA hd hpat hP hlen hr u huN hures
  rw [hsize] at hres hures hfirst hlast
  refine ⟨⟨_, hfirst⟩, ⟨_, hlast⟩, ?_, ?_, ⟨r, hres, by omega, by omega, ?_⟩,
    ⟨u, hures, by omega, by omega, ?_⟩, ?_⟩
  · intro c hc he
    rw [lower_boundary_trace_eq d _ T.length hN] at hc
    have hb := lower_boundary_cursors_exact_bounds d __bsearch_compare (T.length : Int) _ _ _
      (le_refl _) (by omega) (le_refl _) c hc
    have hm := midpoint_in_range (T.length : Int) c.1 c.2 hb.1 hb.2.1 hb.2.2 he
    rw [int32_wrap_of_fits (c.1 + c.2) (by omega) (by omega)]
    exact ⟨hm.1, hm.2.1, hm.2.2.1, hm.2.2.2, hprobe _ hm.2.2.1 hm.2.2.2⟩
  · intro c hc he
    rw [upper_boundary_trace_eq d _ T.length hN] at hc
    have hb := upper_boundary_cursors_exact_bounds d __bsearch_compare (T.length : Int) _ _ _
      (le_refl _) (by omega) (le_refl _) c hc
    have hm := midpoint_in_range (T.length : Int) c.1 c.2 hb.1 hb.2.1 hb.2.2 he
    rw [int32_wrap_of_fits (c.1 + c.2) (by omega) (by omega)]
    exact ⟨hm.1, hm.2.1, hm.2.2.1, hm.2.2.2, hprobe _ hm.2.2.1 hm.2.2.2⟩
  · intro h
    exact hprobe _ (by omega) h
  · intro h
    exact hprobe _ (by omega) (by omega)
  · intro item h0 hN
    rw [text_from_index d T item hd.1 h0 (le_of_lt hN), hpat.1, hpat.2]
    have h := strncmp_reads_le P hP (suffix_at T item) [] [0]
    simp only [suffix_at, List.length_drop] at h ⊢
    omega

/-- C11 amended, at a concrete input: the text `"ba"` with the unsorted array `[0, 1]`
and the pattern `"a"`. -/
theorem array_lookups_in_bounds_witness :
    (entries_in_range [0, 1] 2 ∧ ¬ sort_invariant [98, 97] [0, 1]) ∧
    (∃ r, __bsearch_first ⟨[98, 97, 0], [0, 1], 2, [97, 0], 1⟩ 0 ([98, 97] : List Nat).length
      __bsearch_compare = .ok r) ∧
    (∃ r, __bsearch_last ⟨[98, 97, 0], [0, 1], 2, [97, 0], 1⟩ 0 ([98, 97] : List Nat).length
      __bsearch_compare = .ok r) :=
  ⟨by decide,
    (array_lookups_in_bounds ⟨[98, 97, 0], [0, 1], 2, [97, 0], 1⟩ [98, 97] [97] [0, 1]
      ⟨rfl, rfl, rfl⟩ (by decide) ⟨rfl, rfl⟩ (by decide) rfl (by decide)).1,
    (array_lookups_in_bounds ⟨[98, 97, 0], [0, 1], 2, [97, 0], 1⟩ [98, 97] [97] [0, 1]
      ⟨rfl, rfl, rfl⟩ (by decide) ⟨rfl, rfl⟩ (by decide) rfl (by decide)).2.1⟩

/-! ## The two boundaries (C15, C16) -/

/-- The ranked comparison of the code at the offset of a rank of the index
returns, and its sign is the ranked comparison of the spec at that rank. -/
theorem bsearch_compare_at_rank (d : SuffixArrayData) (T P : List Nat) (SA : List Int)
    (hd : is_index d T SA) (hpat : has_pattern d P) (hP : 0 ∉ P)
    (hlen : SA.length = T.length) (hr : entries_in_range SA T.length) (i : Nat)
    (hi : i < T.length) :
    ∃ c, __bsearch_compare d (offset_at_rank SA i) = .ok c ∧
      Int.sign c = rank_comparison T SA P i := by
  have hv := entries_in_range_getD SA T.length i hr (by omega)
  exact bsearch_compare_sign d T P (offset_at_rank SA i) hd.1 hpat hP hv.1 (le_of_lt hv.2)

/-- C15, as stated, fails: on the sorted index of the text of `2 ^ 30` bytes
`"a"` followed by `"b"`, with the pattern `"b"`, the ranked comparison is
negative at every rank below `2 ^ 30` and `__bsearch_lower_boundary(0, N)` does
not return the rank `2 ^ 30`: `lower` climbs to `N - 2`, the 32-bit sum
`lower + upper` wraps and the read of `ipoint` at the negative midpoint is
outside the array. -/
theorem lower_boundary_fails_past_bound :
    (a_run_b 1073741824).length = 2 ^ 30 + 1 ∧
    is_index (a_run_b_index 1073741824 [98, 0] 1) (a_run_b 1073741824)
      (a_run_b_ranks 1073741824) ∧
    has_pattern (a_run_b_index 1073741824 [98, 0] 1) [98] ∧
    is_permutation (a_run_b_ranks 1073741824) (a_run_b 1073741824).length ∧
    sort_invariant (a_run_b 1073741824) (a_run_b_ranks 1073741824) ∧
    0 ∉ ([98] : List Nat) ∧
    (∀ i : Int, 0 ≤ i → i < ((1073741824 : Nat) : Int) →
      ∃ item c, ipoint_at (a_run_b_index 1073741824 [98, 0] 1) i = .ok item ∧
        __bsearch_compare (a_run_b_index 1073741824 [98, 0] 1) item = .ok c ∧ c < 0) ∧
    __bsearch_lower_boundary (a_run_b_index 1073741824 [98, 0] 1) 0
      (a_run_b 1073741824).length __bsearch_compare = .error .out_of_bounds :=
  ⟨by rw [a_run_b_length]; norm_num, a_run_b_is_index _ _ _, a_run_b_has_pattern _ _,
    a_run_b_is_permutation _, a_run_b_sort_invariant _, by decide,
    fun i h0 hi => a_run_b_probe 1073741824 98 [0] 0 (by norm_num) i h0 hi,
    a_run_b_lower_boundary_faults _ 98 [0] 0 (by norm_num) (by norm_num) (by norm_num)⟩

/-- C15, amended. Lower boundary: for every valid index of a text of length
`N ≤ 2 ^ 30` and every pattern `P` without a zero byte,
`__bsearch_lower_boundary(0, N)` returns the rank `r` in `[0, N]`
such that the ranked comparison is strictly negative at every rank `i < r` and
non-negative at every rank `i` with `r ≤ i < N`: the first rank whose suffix
does not precede the pattern, and `N` when all suffixes precede it. -/
theorem lower_boundary_first_not_preceding (d : SuffixArrayData) (T P : List Nat)
    (SA : List Int) (hd : is_index d T SA) (hN : T.length ≤ 2 ^ 30) (hpat : has_pattern d P)
    (hperm : is_permutation SA T.length) (hsort : sort_invariant T SA) (hP : 0 ∉ P) :
    ∃ r : Nat, __bsearch_lower_boundary d 0 T.length __bsearch_compare = .ok (r : Int) ∧
      r ≤ T.length ∧
      (∀ i, i < r → ∃ c, __bsearch_compare d (offset_at_rank SA i) = .ok c ∧ c < 0) ∧
      (∀ i, r ≤ i → i < T.length →
        ∃ c, __bsearch_compare d (offset_at_rank SA i) = .ok c ∧ 0 ≤ c) ∧
      (∀ i, i < r → ranked_comparison T (offset_at_rank SA i) P < 0) ∧
      (∀ i, r ≤ i → i < T.length → 0 ≤ ranked_comparison T (offset_at_rank SA i) P) ∧
      (∀ s : Nat, s ≤ T.length →
        (∀ i, i < s → ∃ c, __bsearch_compare d (offset_at_rank SA i) = .ok c ∧ c < 0) →
        (∀ i, s ≤ i → i < T.length →
          ∃ c, __bsearch_compare d (offset_at_rank SA i) = .ok c ∧ 0 ≤ c) → s = r) := by
  have hlen := is_permutation_length SA T.length hperm
  have hr := is_permutation_in_range SA T.length hperm
  obtain ⟨r, hres, hrN, hbelow, habove⟩ := lower_boundary_sorted d T P SA hd hpat hP hlen hr
    hN hsort
  rw [hd.2.2] at hres
  have hneg : ∀ i, i < r → ∃ c, __bsearch_compare d (offset_at_rank SA i) = .ok c ∧ c < 0 := by
    intro i hi
    obtain ⟨c, hc, hs⟩ := bsearch_compare_at_rank d T P SA hd hpat hP hlen hr i (by omega)
    refine ⟨c, hc, (sign_neg_iff c).1 ?_⟩
    rw [hs]
    exact hbelow i hi
  have hnonneg : ∀ i, r ≤ i → i < T.length →
      ∃ c, __bsearch_compare d (offset_at_rank SA i) = .ok c ∧ 0 ≤ c := by
    intro i hri hiN
    obtain ⟨c, hc, hs⟩ := bsearch_compare_at_rank d T P SA hd hpat hP hlen hr i hiN
    refine ⟨c, hc, ?_⟩
    by_contra hlt
    have := (sign_neg_iff c).2 (by omega)
    rw [hs] at this
    have := habove i hri hiN
    omega
  refine ⟨r, hres, hrN, hneg, hnonneg, hbelow, habove, ?_⟩
  intro s hsN hs1 hs2
  by_contra hne
  rcases Nat.lt_or_gt_of_ne hne with hlt | hgt
  · obtain ⟨c1, hc1, h1⟩ := hneg s hlt
    obtain ⟨c2, hc2, h2⟩ := hs2 s (le_refl _) (by omega)
    rw [hc1] at hc2
    injection hc2 with hc2
    omega
  · obtain ⟨c1, hc1, h1⟩ := hs1 r hgt
    obtain ⟨c2, hc2, h2⟩ := hnonneg r (le_refl _) (by omega)
    rw [hc1] at hc2
    injection hc2 with hc2
    omega

/-- C15 amended, at a concrete input: the pattern `"abra"` on the index of
`"abracadabra"`, where the lower boundary is rank `1`. -/
theorem lower_boundary_first_not_preceding_witness :
    __bsearch_lower_boundary (abracadabra_index abra_cstr 4) 0 abracadabra.length
        __bsearch_compare = .ok 1 ∧
    ∃ r : Nat, __bsearch_lower_boundary (abracadabra_index abra_cstr 4) 0 abracadabra.length
        __bsearch_compare = .ok (r : Int) ∧ r ≤ abracadabra.length ∧
      (∀ i, i < r → ∃ c, __bsearch_compare (abracadabra_index abra_cstr 4)
        (offset_at_rank abracadabra_ipoint i) = .ok c ∧ c < 0) ∧
      (∀ i, r ≤ i → i < abracadabra.length →
        ∃ c, __bsearch_compare (abracadabra_index abra_cstr 4)
          (offset_at_rank abracadabra_ipoint i) = .ok c ∧ 0 ≤ c) :=
  ⟨rfl,
    let ⟨r, h1, h2, h3, h4, _⟩ := lower_boundary_first_not_preceding
      (abracadabra_index abra_cstr 4) abracadabra [97, 98, 114, 97] abracadabra_ipoint
      ⟨rfl, rfl, rfl⟩ (by decide) ⟨rfl, rfl⟩ (by decide) (by decide) (by decide)
    ⟨r, h1, h2, h3, h4⟩⟩

/-- C16, as stated, fails: on the sorted index of the text of `2 ^ 30` bytes
`"a"` followed by `"b"`, with the pattern `"b"`, `__bsearch_upper_boundary(0, N)`
does not return a rank: no probe below rank `N - 1` is positive, `lower` climbs
to `N - 2`, the 32-bit sum `lower + upper` wraps and the read of `ipoint` at
the negative midpoint is outside the array. -/
theorem upper_boundary_fails_past_bound :
    (a_run_b 1073741824).length = 2 ^ 30 + 1 ∧
    is_index (a_run_b_index 1073741824 [98, 0] 1) (a_run_b 1073741824)
      (a_run_b_ranks 1073741824) ∧
    has_pattern (a_run_b_index 1073741824 [98, 0] 1) [98] ∧
    is_permutation (a_run_b_ranks 1073741824) (a_run_b 1073741824).length ∧
    sort_invariant (a_run_b 1073741824) (a_run_b_ranks 1073741824) ∧
    0 ∉ ([98] : List Nat) ∧
    __bsearch_upper_boundary (a_run_b_index 1073741824 [98, 0] 1) 0
      (a_run_b 1073741824).length __bsearch_compare = .error .out_of_bounds :=
  ⟨by rw [a_run_b_length]; norm_num, a_run_b_is_index _ _ _, a_run_b_has_pattern _ _,
    a_run_b_is_permutation _, a_run_b_sort_invariant _, by decide,
    a_run_b_upper_boundary_faults _ 98 [0] 0 (by norm_num) (by norm_num) (by norm_num)⟩

/-- C16, amended. Upper boundary: for every valid index of a text of length
`N ≤ 2 ^ 30` and every pattern `P` without a zero byte,
`__bsearch_upper_boundary(0, N)` returns the rank `u` in `[0, N]`
such that the ranked comparison is at most zero at every rank `i < u` and
strictly positive at every rank `i` with `u ≤ i < N`: one past the last rank
whose suffix compares at most the pattern, and `0` when no suffix does. -/
theorem upper_boundary_past_last_not_following (d : SuffixArrayData) (T P : List Nat)
    (SA : List Int) (hd : is_index d T SA) (hN : T.length ≤ 2 ^ 30) (hpat : has_pattern d P)
    (hperm : is_permutation SA T.length) (hsort : sort_invariant T SA) (hP : 0 ∉ P) :
    ∃ u : Nat, __bsearch_upper_boundary d 0 T.length __bsearch_compare = .ok (u : Int) ∧
      u ≤ T.length ∧
      (∀ i, i < u → ∃ c, __bsearch_compare d (offset_at_rank SA i) = .ok c ∧ c ≤ 0) ∧
      (∀ i, u ≤ i → i < T.length →
        ∃ c, __bsearch_compare d (offset_at_rank SA i) = .ok c ∧ 0 < c) ∧
      (∀ i, i < u → ranked_comparison T (offset_at_rank SA i) P ≤ 0) ∧
      (∀ i, u ≤ i → i < T.length → 0 < ranked_comparison T (offset_at_rank SA i) P) ∧
      (∀ s : Nat, s ≤ T.length →
        (∀ i, i < s → ∃ c, __bsearch_compare d (offset_at_rank SA i) = .ok c ∧ c ≤ 0) →
        (∀ i, s ≤ i → i < T.length →
          ∃ c, __bsearch_compare d (offset_at_rank SA i) = .ok c ∧ 0 < c) → s = u) := by
  have hlen := is_permutation_length SA T.length hperm
  have hr := is_permutation_in_range SA T.length hperm
  obtain ⟨u, hres, huN, hbelow, habove⟩ := upper_boundary_sorted d T P SA hd hpat hP hlen hr
    hN hsort
  rw [hd.2.2] at hres
  have hnonpos : ∀ i, i < u →
      ∃ c, __bsearch_compare d (offset_at_rank SA i) = .ok c ∧ c ≤ 0 := by
    intro i hi
    obtain ⟨c, hc, hs⟩ := bsearch_compare_at_rank d T P SA hd hpat hP hlen hr i (by omega)
    refine ⟨c, hc, ?_⟩
    by_contra hlt
    have := (sign_pos_iff c).2 (by omega)
    rw [hs] at this
    have := hbelow i hi
    omega
  have hpos : ∀ i, u ≤ i → i < T.length →
      ∃ c, __bsearch_compare d (offset_at_rank SA i) = .ok c ∧ 0 < c := by
    intro i hui hiN
    obtain ⟨c, hc, hs⟩ := bsearch_compare_at_rank d T P SA hd hpat hP hlen hr i hiN
    refine ⟨c, hc, (sign_pos_iff c).1 ?_⟩
    rw [hs]
    exact habove i hui hiN
  refine ⟨u, hres, huN, hnonpos, hpos, hbelow, habove, ?_⟩
  intro s hsN hs1 hs2
  by_contra hne
  rcases Nat.lt_or_gt_of_ne hne with hlt | hgt
  · obtain ⟨c1, hc1, h1⟩ := hnonpos s hlt
    obtain ⟨c2, hc2, h2⟩ := hs2 s (le_refl _) (by omega)
    rw [hc1] at hc2
    injection hc2 with hc2
    omega
  · obtain ⟨c1, hc1, h1⟩ := hs1 u hgt
    obtain ⟨c2, hc2, h2⟩ := hpos u (le_refl _) (by omega)
    rw [hc1] at hc2
    injection hc2 with hc2
    omega

/-- C16 amended, at a concrete input: the pattern `"abra"` on the index of
`"abracadabra"`, where the upper boundary is rank `3`. -/
theorem upper_boundary_past_last_not_following_witness :
    __bsearch_upper_boundary (abracadabra_index abra_cstr 4) 0 abracadabra.length
        __bsearch_compare = .ok 3 ∧
    ∃ u : Nat, __bsearch_upper_boundary (abracadabra_index abra_cstr 4) 0 abracadabra.length
        __bsearch_compare = .ok (u : Int) ∧ u ≤ abracadabra.length ∧
      (∀ i, i < u → ∃ c, __bsearch_compare (abracadabra_index abra_cstr 4)
        (offset_at_rank abracadabra_ipoint i) = .ok c ∧ c ≤ 0) ∧
      (∀ i, u ≤ i → i < abracadabra.length →
        ∃ c, __bsearch_compare (abracadabra_index abra_cstr 4)
          (offset_at_rank abracadabra_ipoint i) = .ok c ∧ 0 < c) :=
  ⟨rfl,
    let ⟨u, h1, h2, h3, h4, _⟩ := upper_boundary_past_last_not_following
      (abracadabra_index abra_cstr 4) abracadabra [97, 98, 114, 97] abracadabra_ipoint
      ⟨rfl, rfl, rfl⟩ (by decide) ⟨rfl, rfl⟩ (by decide) (by decide) (by decide)
    ⟨u, h1, h2, h3, h4⟩⟩

/-! ## What a query writes (C13, C14) -/

/-- The record a returning call of `suffixarray_search` leaves: the one it
was given with `pattern` set to the argument and `pattern_size` to its
`strlen`. -/
theorem suffixarray_search_state (d : SuffixArrayData) (pattern : List Nat) (r : Int)
    (d2 : SuffixArrayData) (h : suffixarray_search d pattern = .ok (r, d2)) :
    ∃ n, strlen pattern = .ok n ∧ d2 = { d with pattern := pattern, pattern_size := n } := by
  cases hn : strlen pattern with
  | error e =>
    simp [suffixarray_search, hn] at h
  | ok n =>
    refine ⟨n, rfl, ?_⟩
    simp only [suffixarray_search, hn] at h
    split at h
    · exact absurd h (by simp)
    · split_ifs at h
      · injection h with h
        injection h with _ h2
        exact h2.symm
      · split at h
        · exact absurd h (by simp)
        · injection h with h
          injection h with _ h2
          exact h2.symm

/-- The call of `suffixarray_search` returns on every index of a text of
length at most `2 ^ 30` whose entries are offsets of the text, for every
pattern without a zero byte. -/
theorem suffixarray_search_returns (d : SuffixArrayData) (T P : List Nat) (SA : List Int)
    (hd : is_index d T SA) (hN : T.length ≤ 2 ^ 30) (hlen : SA.length = T.length)
    (hr : entries_in_range SA T.length) (hP : 0 ∉ P) :
    ∃ o, suffixarray_search d (P ++ [0]) = .ok (o, query_state d P) := by
  obtain ⟨r, hres, _, _, _⟩ := lower_boundary_local (query_state d P) T P SA
    (query_state_is_index d T P SA hd) (query_state_has_pattern d P) hP hlen hr hN
  exact ⟨_, suffixarray_search_of_boundary d T P SA hd hP hlen hr r hres⟩

/-- C13. A query does not mutate the indexed data: for every record and every
pattern, after `suffixarray_search` returns, the text buffer, the suffix array
`ipoint` and the size field are what they were before the call; and on every
index of a text of length at most `2 ^ 30` whose entries are offsets of the
text the call does return, for every pattern without a zero byte. -/
theorem suffixarray_search_keeps_indexed_data :
    (∀ (d : SuffixArrayData) (pattern : List Nat) (r : Int) (d2 : SuffixArrayData),
      suffixarray_search d pattern = .ok (r, d2) →
        d2.text = d.text ∧ d2.ipoint = d.ipoint ∧ d2.size = d.size) ∧
    (∀ (d : SuffixArrayData) (T P : List Nat) (SA : List Int), is_index d T SA →
      T.length ≤ 2 ^ 30 → SA.length = T.length → entries_in_range SA T.length → 0 ∉ P →
        ∃ o d2, suffixarray_search d (P ++ [0]) = .ok (o, d2) ∧
          d2.text = d.text ∧ d2.ipoint = d.ipoint ∧ d2.size = d.size) := by
  constructor
  · intro d pattern r d2 h
    obtain ⟨n, _, rfl⟩ := suffixarray_search_state d pattern r d2 h
    exact ⟨rfl, rfl, rfl⟩
  · intro d T P SA hd hN hlen hr hP
    obtain ⟨o, ho⟩ := suffixarray_search_returns d T P SA hd hN hlen hr hP
    exact ⟨o, _, ho, rfl, rfl, rfl⟩

/-- C13, at a concrete input: the query for `"ca"` on the index of
`"abracadabra"`. -/
theorem suffixarray_search_keeps_indexed_data_witness :
    suffixarray_search (abracadabra_index [] 0) ca_cstr = .ok (4, abracadabra_index ca_cstr 2) ∧
    (abracadabra_index ca_cstr 2).text = (abracadabra_index [] 0).text ∧
    (abracadabra_index ca_cstr 2).ipoint = (abracadabra_index [] 0).ipoint ∧
    (abracadabra_index ca_cstr 2).size = (abracadabra_index [] 0).size :=
  ⟨rfl, suffixarray_search_keeps_indexed_data.1 (abracadabra_index [] 0) ca_cstr 4
    (abracadabra_index ca_cstr 2) rfl⟩

/-- C14, as stated, fails: the query for `"ca"` on the index of `"abracadabra"`
built by `suffixarray_initialize`, here with no bytes and `0` in the pattern
fields the constructor leaves unwritten, returns `4` and leaves a record whose
fields `pattern` and `pattern_size` differ from those before the call, so the
record is not the same value before and after. -/
theorem suffixarray_search_changes_pattern_fields :
    suffixarray_initialize abracadabra (some abracadabra_ipoint) [] 0
        = some (abracadabra_index [] 0) ∧
    ∃ d2, suffixarray_search (abracadabra_index [] 0) ca_cstr = .ok (4, d2) ∧
      d2.pattern ≠ (abracadabra_index [] 0).pattern ∧
      d2.pattern_size ≠ (abracadabra_index [] 0).pattern_size ∧
      d2 ≠ abracadabra_index [] 0 :=
  ⟨rfl, abracadabra_index ca_cstr 2, rfl, by decide, by decide, by decide⟩

/-- C14, amended: `suffixarray_search` stores the query in the index
structure: after it returns, the field `pattern` is the pattern of the call
and `pattern_size` is its `strlen`, while `text`, `ipoint` and `size` have the
value they had before the call. -/
theorem suffixarray_search_stores_pattern (d : SuffixArrayData) (pattern : List Nat)
    (r : Int) (d2 : SuffixArrayData) (h : suffixarray_search d pattern = .ok (r, d2)) :
    d2.pattern = pattern ∧ strlen pattern = .ok d2.pattern_size ∧
      d2.text = d.text ∧ d2.ipoint = d.ipoint ∧ d2.size = d.size := by
  obtain ⟨n, hn, rfl⟩ := suffixarray_search_state d pattern r d2 h
  exact ⟨rfl, hn, rfl, rfl, rfl⟩

/-- C14 amended, at a concrete input: the query for `"ca"` on the index of
`"abracadabra"`. -/
theorem suffixarray_search_stores_pattern_witness :
    suffixarray_search (abracadabra_index [] 0) ca_cstr = .ok (4, abracadabra_index ca_cstr 2) ∧
    (abracadabra_index ca_cstr 2).pattern = ca_cstr ∧
    strlen ca_cstr = .ok (abracadabra_index ca_cstr 2).pattern_size ∧
    (abracadabra_index ca_cstr 2).text = (abracadabra_index [] 0).text ∧
    (abracadabra_index ca_cstr 2).ipoint = (abracadabra_index [] 0).ipoint ∧
    (abracadabra_index ca_cstr 2).size = (abracadabra_index [] 0).size :=
  ⟨rfl, suffixarray_search_stores_pattern (abracadabra_index [] 0) ca_cstr 4
    (abracadabra_index ca_cstr 2) rfl⟩

/-! ## Zero bytes in the pattern (C18) -/

theorem before_first_zero_no_zero (Q : List Nat) : 0 ∉ before_first_zero Q := by
  intro h
  have := List.mem_takeWhile_imp h
  simp at this

theorem before_first_zero_split (Q : List Nat) (h0 : 0 ∈ Q) :
    ∃ rest, Q = before_first_zero Q ++ 0 :: rest := by
  induction Q with
  | nil => simp at h0
  | cons q qs ih =>
    by_cases hq : q = 0
    · exact ⟨qs, by simp [before_first_zero, hq]⟩
    · have h1 : 0 ∈ qs := by
        rcases List.mem_cons.1 h0 with h | h
        · exact absurd h.symm hq
        · exact h
      obtain ⟨rest, hrest⟩ := ih h1
      refine ⟨rest, ?_⟩
      simp only [before_first_zero] at hrest ⊢
      simp only [List.takeWhile_cons, ne_eq, hq, not_false_eq_true, decide_True, if_true,
        List.cons_append]
      rw [← hrest]

/-- The bytes of the pattern past the bound are not read by `strncmp`. -/
theorem strncmp_pattern_tail (pre r1 r2 s : List Nat) :
    strncmp s (pre ++ r1) pre.length = strncmp s (pre ++ r2) pre.length := by
  induction pre generalizing s with
  | nil => simp [strncmp]
  | cons p ps ih =>
    cases s with
    | nil => simp [strncmp]
    | cons x xs =>
      simp only [List.cons_append, List.length_cons, strncmp, List.append_eq]
      rw [ih xs]

/-- The loop of `__bsearch_lower_boundary` depends on the record only through
its index points and the outcomes of the comparison function. -/
theorem lower_boundary_loop_congr (d1 d2 : SuffixArrayData) (fn1 fn2 : bsearch_compare_fn)
    (hip : d1.ipoint = d2.ipoint) (hfn : ∀ item, fn1 d1 item = fn2 d2 item)
    (fuel : Nat) (lower upper : Int) :
    lower_boundary_loop d1 fn1 fuel lower upper = lower_boundary_loop d2 fn2 fuel lower upper := by
  have hat : ∀ i, ipoint_at d1 i = ipoint_at d2 i := fun i => by simp [ipoint_at, hip]
  induction fuel generalizing lower upper with
  | zero => simp [lower_boundary_loop]
  | succ fuel ih =>
    simp only [lower_boundary_loop, hat]
    split_ifs
    · cases ipoint_at d2 (Int.tdiv (int32_wrap (lower + upper)) 2) with
      | error e => rfl
      | ok item =>
        simp only [hfn]
        cases fn2 d2 item with
        | error e => rfl
        | ok c =>
          simp only
          split_ifs
          · exact ih _ _
          · exact ih _ _
    · rfl

theorem bsearch_first_congr (d1 d2 : SuffixArrayData) (fn1 fn2 : bsearch_compare_fn)
    (hip : d1.ipoint = d2.ipoint) (hsz : d1.size = d2.size)
    (hfn : ∀ item, fn1 d1 item = fn2 d2 item) (low high : Int) :
    __bsearch_first d1 low high fn1 = __bsearch_first d2 low high fn2 := by
  have hat : ∀ i, ipoint_at d1 i = ipoint_at d2 i := fun i => by simp [ipoint_at, hip]
  simp only [__bsearch_first, __bsearch_lower_boundary,
    lower_boundary_loop_congr d1 d2 fn1 fn2 hip hfn, hat, hsz, hfn]

/-- What `suffixarray_search` does after it has set the pattern fields gives
the same value on two records with the same index points, the same size and
the same outcomes of the ranked comparison. -/
theorem search_value_congr (d1 d2 : SuffixArrayData) (hip : d1.ipoint = d2.ipoint)
    (hsz : d1.size = d2.size)
    (hfn : ∀ item, __bsearch_compare d1 item = __bsearch_compare d2 item) :
    Except.map Prod.fst
      (match __bsearch d1 0 d1.size __bsearch_compare with
        | .error e => (.error e : Except Fault (Int × SuffixArrayData))
        | .ok result =>
          if result < 0 then .ok (result, d1)
          else
            match ipoint_at d1 result with
            | .error e => .error e
            | .ok offset => .ok (offset, d1))
    = Except.map Prod.fst
      (match __bsearch d2 0 d2.size __bsearch_compare with
        | .error e => (.error e : Except Fault (Int × SuffixArrayData))
        | .ok result =>
          if result < 0 then .ok (result, d2)
          else
            match ipoint_at d2 result with
            | .error e => .error e
            | .ok offset => .ok (offset, d2)) := by
  have hat : ∀ i, ipoint_at d1 i = ipoint_at d2 i := fun i => by simp [ipoint_at, hip]
  have hfirst := bsearch_first_congr d1 d2 __bsearch_compare __bsearch_compare hip hsz hfn
    0 d2.size
  simp only [__bsearch, hsz, hfirst, hat]
  cases __bsearch_first d2 0 d2.size __bsearch_compare with
  | error e => rfl
  | ok result =>
    simp only
    split_ifs
    · rfl
    · cases ipoint_at d2 result with
      | error e => rfl
      | ok offset => rfl

/-- C18. Embedded zero bytes truncate the pattern: the pattern length is
taken with `strlen`, so for every record and every pattern byte sequence `Q`
that contains a zero byte, `suffixarray_search` on the C string of `Q` takes
the length of the bytes before the first zero byte and returns exactly what it
returns on the C string of those bytes. -/
theorem embedded_zero_truncates (d : SuffixArrayData) (Q : List Nat) (h0 : 0 ∈ Q) :
    strlen (StringValueCStr Q) = .ok (before_first_zero Q).length ∧
    strlen (StringValueCStr (before_first_zero Q)) = .ok (before_first_zero Q).length ∧
    (suffixarray_search d (StringValueCStr Q)).map Prod.fst
      = (suffixarray_search d (StringValueCStr (before_first_zero Q))).map Prod.fst := by
  obtain ⟨rest, hsplit⟩ := before_first_zero_split Q h0
  have hz := before_first_zero_no_zero Q
  have hQ : StringValueCStr Q = before_first_zero Q ++ 0 :: (rest ++ [0]) := by
    conv_lhs => rw [StringValueCStr, hsplit]
    simp
  have hl1 : strlen (StringValueCStr Q) = .ok (before_first_zero Q).length := by
    rw [hQ]; exact strlen_terminated _ _ hz
  have hl2 : strlen (StringValueCStr (before_first_zero Q))
      = .ok (before_first_zero Q).length := strlen_terminated _ [] hz
  refine ⟨hl1, hl2, ?_⟩
  simp only [suffixarray_search, hl1, hl2]
  refine search_value_congr
    ⟨d.text, d.ipoint, d.size, StringValueCStr Q, (before_first_zero Q).length⟩
    ⟨d.text, d.ipoint, d.size, StringValueCStr (before_first_zero Q),
      (before_first_zero Q).length⟩ rfl rfl ?_
  intro item
  simp only [__bsearch_compare, text_from]
  rw [hQ, StringValueCStr]
  exact strncmp_pattern_tail _ _ _ _

/-- C18, at a concrete input: the pattern bytes `"ca\0xyz"` on the index of
`"abracadabra"` give the result `4` of the pattern `"ca"`. -/
theorem embedded_zero_truncates_witness :
    (before_first_zero [99, 97, 0, 120, 121, 122] = [99, 97] ∧
      (suffixarray_search (abracadabra_index [] 0)
        (StringValueCStr [99, 97, 0, 120, 121, 122])).map Prod.fst = .ok 4) ∧
    (suffixarray_search (abracadabra_index [] 0)
        (StringValueCStr [99, 97, 0, 120, 121, 122])).map Prod.fst
      = (suffixarray_search (abracadabra_index [] 0)
        (StringValueCStr (before_first_zero [99, 97, 0, 120, 121, 122]))).map Prod.fst :=
  ⟨⟨rfl, rfl⟩, (embedded_zero_truncates (abracadabra_index [] 0) [99, 97, 0, 120, 121, 122]
    (by decide)).2.2⟩

/-! ## The midpoint sum in a 32-bit `int` (C19) -/

/-- C19. Midpoint arithmetic in a 32-bit signed `int`: for every `N` with
`0 ≤ N ≤ 2 ^ 30` and every comparison function, each sum `lower + upper` that
`__bsearch_lower_boundary(0, N)` and `__bsearch_upper_boundary(0, N)` compute
lies in `[0, 2 ^ 31 - 1]`, so the 32-bit sum is the exact sum, its half is the
exact floor midpoint, and the loops that take the sum in 32 bits return what
the loops over the integers return.  The bound is tight: for `N = 2 ^ 30 + 1`
with every comparison negative the lower-boundary loop reaches `lower = N - 2`,
`upper = N`, whose sum `2 ^ 31` does not fit. -/
theorem midpoint_sum_fits_int32 :
    (∀ (d : SuffixArrayData) (fn : bsearch_compare_fn) (N : Nat), N ≤ 2 ^ 30 →
      (∀ c ∈ lower_boundary_trace d 0 N fn, c.1 + 1 ≠ c.2 →
        0 ≤ c.1 + c.2 ∧ c.1 + c.2 ≤ 2 ^ 31 - 1 ∧ int32_wrap (c.1 + c.2) = c.1 + c.2 ∧
        Int.tdiv (int32_wrap (c.1 + c.2)) 2 = (c.1 + c.2) / 2) ∧
      (∀ c ∈ upper_boundary_trace d 0 N fn, c.1 + 1 ≠ c.2 →
        0 ≤ c.1 + c.2 ∧ c.1 + c.2 ≤ 2 ^ 31 - 1 ∧ int32_wrap (c.1 + c.2) = c.1 + c.2 ∧
        Int.tdiv (int32_wrap (c.1 + c.2)) 2 = (c.1 + c.2) / 2) ∧
      __bsearch_lower_boundary d 0 N fn = lower_boundary_loop_exact d fn (N + 1) (-1) N ∧
      __bsearch_upper_boundary d 0 N fn = upper_boundary_loop_exact d fn (N + 1) (-1) N) ∧
    (1073741825 : Nat) = 2 ^ 30 + 1 ∧
      (((1073741825 : Nat) : Int) - 2, ((1073741825 : Nat) : Int)) ∈
        lower_boundary_trace (plain_index 1073741825) 0 ((1073741825 : Nat) : Int)
          (fn_of_outcomes fun _ _ => -1) ∧
      (((1073741825 : Nat) : Int) - 2) + ((1073741825 : Nat) : Int) = 2 ^ 31 ∧
      ¬ ((((1073741825 : Nat) : Int) - 2) + ((1073741825 : Nat) : Int) ≤ 2 ^ 31 - 1) ∧
      int32_wrap ((((1073741825 : Nat) : Int) - 2) + ((1073741825 : Nat) : Int))
        ≠ (((1073741825 : Nat) : Int) - 2) + ((1073741825 : Nat) : Int) := by
  have hsum : ∀ (N : Nat) (c : Int × Int), N ≤ 2 ^ 30 →
      (-1 ≤ c.1 ∧ c.1 < c.2 ∧ c.2 ≤ (N : Int)) → c.1 + 1 ≠ c.2 →
      0 ≤ c.1 + c.2 ∧ c.1 + c.2 ≤ 2 ^ 31 - 1 ∧ int32_wrap (c.1 + c.2) = c.1 + c.2 ∧
        Int.tdiv (int32_wrap (c.1 + c.2)) 2 = (c.1 + c.2) / 2 := by
    intro N c hN hb he
    have hN2 : (N : Int) ≤ 1073741824 := by
      have : N ≤ 1073741824 := by simpa using hN
      omega
    have h0 : 0 ≤ c.1 + c.2 := by omega
    have h1 : c.1 + c.2 ≤ 2147483647 := by omega
    have hw := int32_wrap_of_fits (c.1 + c.2) (by omega) h1
    refine ⟨h0, by norm_num; exact h1, hw, ?_⟩
    rw [hw, Int.tdiv_eq_ediv h0 (by omega)]
  refine ⟨?_, ?_⟩
  · intro d fn N hN
    refine ⟨?_, ?_, bsearch_lower_boundary_eq d fn N hN, bsearch_upper_boundary_eq d fn N hN⟩
    · intro c hc he
      rw [lower_boundary_trace_eq d fn N hN] at hc
      exact hsum N c hN (lower_boundary_cursors_exact_bounds d fn (N : Int) _ _ _ (le_refl _)
        (by omega) (le_refl _) c hc) he
    · intro c hc he
      rw [upper_boundary_trace_eq d fn N hN] at hc
      exact hsum N c hN (upper_boundary_cursors_exact_bounds d fn (N : Int) _ _ _ (le_refl _)
        (by omega) (le_refl _) c hc) he
  · refine ⟨by norm_num, ?_, by norm_num, by norm_num, ?_⟩
    · rw [lower_boundary_trace, trace_fuel]
      have h := lower_boundary_cursors_all_negative (plain_index 1073741825)
        (fn_of_outcomes fun _ _ => -1) ((1073741825 : Nat) : Int) (by norm_num)
        (plain_index_negative_probes 1073741825 (-1) (by decide)) (1073741825 + 1) (-1)
        (le_refl _) (by norm_num) (by norm_num)
      exact h
    · unfold int32_wrap
      norm_num

/-- C19, at a concrete input: the search for `"ca"` on the index of
`"abracadabra"`, whose lower-boundary pass forms the sums `10`, `16`, `13`
and `14`. -/
theorem midpoint_sum_fits_int32_witness :
    (11 ≤ 2 ^ 30 ∧
      (lower_boundary_trace (abracadabra_index ca_cstr 2) 0 (11 : Nat) __bsearch_compare).map
        (fun c => c.1 + c.2) = [10, 16, 13, 14, 13]) ∧
    (∀ c ∈ lower_boundary_trace (abracadabra_index ca_cstr 2) 0 (11 : Nat) __bsearch_compare,
      c.1 + 1 ≠ c.2 →
        0 ≤ c.1 + c.2 ∧ c.1 + c.2 ≤ 2 ^ 31 - 1 ∧ int32_wrap (c.1 + c.2) = c.1 + c.2 ∧
        Int.tdiv (int32_wrap (c.1 + c.2)) 2 = (c.1 + c.2) / 2) :=
  ⟨⟨by norm_num, rfl⟩,
    (midpoint_sum_fits_int32.1 (abracadabra_index ca_cstr 2) __bsearch_compare 11
      (by norm_num)).1⟩

end SuffixArray
